import Mathlib

/-! Shallow embedding of the hac-node application core (`app/consensus.go`).

The Go receiver `app *HACApp` is split in two:

* `App σ ε` holds what a call never changes: the transaction codec, the
  operations of the state store, the handler registry, the governance oracle
  and the vote-code constants.  All of these live in packages outside
  `app/consensus.go`; they are parameters of the development and every theorem
  quantifies over them.
* `World σ ε` holds what a call can change: the store's canonical state
  (`app.db.State()`), the working-state reference `app.st`, `app.lastBlk`, the
  internal state of the external collaborators (handler contexts, oracle), and
  a log of every collaborator call in program order.

`σ` is the type of state snapshots (the content of a `state.State` object), `ε`
the type of the collaborators' internal state.  The reference `app.st` is a
pointer `Ptr σ`: the identity of the snapshot object it points to, with that
object's content; an in-place mutation of a snapshot object shows through
`app.st` exactly when `app.st` points to that object (`World.mutate`).  A
`range` over the registry map visits its entries in an order the Go runtime
chooses anew for each loop; each call that contains such a loop takes that order
as an argument (`RangeOrder`), and theorems hold for every order.  Snapshots
are isolated from one another, as the store's contract has it: what a handler
does to the working snapshot it is given does not change the canonical state
`app.db.State()` that `parseTx` verifies against.  Go results `(value, error)`
are pairs of options (`none` is `nil`); a nil dereference is the outcome
`panic`.
Slices are lists and a nil slice is the empty list.  `context.Context` and the
logger are not modelled.
-/

set_option autoImplicit false

namespace HAC

/-- Raw bytes (`[]byte`). -/
abbrev Bytes := List Nat

/-- A non-nil Go `error`, identified with its message. -/
abbrev Err := String

/-- The integer type `tx.VoteCode`; its zero value is the no-action code. -/
abbrev VoteCode := Int

def ErrOnlySupportOneGrant : Err := "only support one grant in one tx"
def ErrMultiProposalInOneBlock : Err := "multi proposal in one block"
def ErrUnexpectedTxProcess : Err := "unexpected tx process"
def ErrUnexpectedGrantTxs : Err := "unexpected grants"

/-- The discriminator `tx.HACTxType`.  The three governance constants are the
case labels of one Go `switch`, hence pairwise distinct; every other value is
`Other`. -/
inductive HACTxType
  | Grant
  | Proposal
  | SettleProposal
  | Other (tag : Nat)
  deriving DecidableEq, Repr

/-- One element of `GrantTx.Grants`. -/
structure GrantRecord where
  Amount : Nat
  Statement : String
  deriving DecidableEq, Repr

structure GrantTx where
  Grants : List GrantRecord
  deriving DecidableEq, Repr

structure ProposalTx where
  Proposer : Nat
  Data : Bytes
  deriving DecidableEq, Repr

structure SettleProposalTx where
  Proposal : Nat
  deriving DecidableEq, Repr

/-- Modelled from the spec: the payload `HACTx.Tx` of a decoded transaction
(the `tx` package is not part of the sources).  The spec describes a typed
transaction with a type-specific payload; the payload variant therefore fixes
the discriminator, and the type assertions `btx.Tx.(*tx.GrantTx)` of `getCode`
are the pattern matches on this type. -/
inductive TxBody
  | Grant (g : GrantTx)
  | Proposal (p : ProposalTx)
  | SettleProposal (s : SettleProposalTx)
  | Other (tag : Nat) (payload : Bytes)
  deriving DecidableEq, Repr

/-- A decoded transaction `*tx.HACTx`: the fields the core reads. -/
structure HACTx where
  Validator : Nat
  Nonce : Nat
  Tx : TxBody
  deriving DecidableEq, Repr

/-- The field `btx.Type` (`Type` is reserved in Lean). -/
def HACTx.Typ (btx : HACTx) : HACTxType :=
  match btx.Tx with
  | .Grant _ => .Grant
  | .Proposal _ => .Proposal
  | .SettleProposal _ => .SettleProposal
  | .Other tag _ => .Other tag

/-- The test of `PrepareProposal` line 78:
`Type == Grant || Type == Proposal || Type == SettleProposal`. -/
def HACTxType.isGovernance (t : HACTxType) : Bool :=
  t == .Grant || t == .Proposal || t == .SettleProposal

/-- Go `abcitypes.Event`. -/
structure AbciEvent where
  Typ : String
  Attributes : List (String × String)
  deriving DecidableEq, Repr

/-- Go `abcitypes.ResponseCheckTx`. -/
structure ResponseCheckTx where
  Code : Nat
  Log : String
  Data : Bytes
  deriving DecidableEq, Repr

/-- Go `abcitypes.ExecTxResult`. -/
structure ExecTxResult where
  Code : Nat
  Log : String
  Data : Bytes
  Events : List AbciEvent
  deriving DecidableEq, Repr

/-- Go `abcitypes.ValidatorUpdate`. -/
structure ValidatorUpdate where
  PubKey : Bytes
  Power : Int
  deriving DecidableEq, Repr

/-- The validator set returned by `st.Validators()`. -/
abbrev ValidatorSet := List ValidatorUpdate

/-- The account returned by `st.FindAccount`; only `Index` is read. -/
structure Account where
  Index : Nat
  deriving DecidableEq, Repr

structure RequestCheckTx where
  Tx : Bytes
  deriving DecidableEq, Repr

structure RequestPrepareProposal where
  Txs : List Bytes
  ProposerAddress : Bytes
  Height : Int
  deriving DecidableEq, Repr

structure ResponsePrepareProposal where
  Txs : List Bytes
  deriving DecidableEq, Repr

structure RequestProcessProposal where
  Txs : List Bytes
  ProposerAddress : Bytes
  Height : Int
  deriving DecidableEq, Repr

/-- Go `abcitypes.ResponseProcessProposal_ProposalStatus`. -/
inductive ProposalStatus
  | UNKNOWN
  | ACCEPT
  | REJECT
  deriving DecidableEq, Repr

structure ResponseProcessProposal where
  Status : ProposalStatus
  VoteCode : Int
  deriving DecidableEq, Repr

structure RequestFinalizeBlock where
  Txs : List Bytes
  ProposerAddress : Bytes
  Height : Int
  VoteCode : Int
  deriving DecidableEq, Repr

structure ResponseFinalizeBlock where
  TxResults : List (Option ExecTxResult)
  AppHash : Bytes
  ValidatorUpdates : List ValidatorUpdate
  Events : List AbciEvent
  deriving DecidableEq, Repr

structure ResponseCommit where
  RetainHeight : Int
  deriving DecidableEq, Repr

/-- One call of the core to a collaborator, as recorded in `World.calls`. -/
inductive Call
  | NewState
  | Unmarshal (txDat : Bytes)
  | Verify (btx : HACTx) (allowNonceGap : Bool)
  | FindAccount (addr : Bytes)
  | Clone
  | Validators
  | Update
  | ValidatorsUpdate
  | SetState
  | NewContext (ty : HACTxType)
  | Check (btx : HACTx)
  | Prepare (btx : HACTx) (code : VoteCode)
  | Process (btx : HACTx) (code : VoteCode)
  | IfGrantNewMember (amount : Nat) (statement : String)
  | IfProcessProposal (proposer : Nat) (data : Bytes)
  | IfAcceptProposal (proposal : Nat)
  deriving DecidableEq, Repr

/-- What a handler method hands back: the Go result pair, the snapshot it was
given (which it may have mutated) and the collaborators' internal state. -/
structure Returned (σ ε ρ : Type) where
  res : Option ρ
  err : Option Err
  st : σ
  ext : ε

/-- A registered transaction handler (an entry of `app.txHdlrs`). -/
structure Handler (σ ε : Type) where
  NewContext : ε → ε
  Check : ε → σ → HACTx → Returned σ ε ResponseCheckTx
  Prepare : ε → σ → HACTx → VoteCode → Returned σ ε ExecTxResult
  Process : ε → σ → HACTx → VoteCode → Returned σ ε ExecTxResult

/-- The immutable part of `HACApp`: codec, store operations, registry, oracle
and constants.  A snapshot operation reads (and, for `Update`, rewrites) only
the snapshot it is invoked on. -/
structure App (σ ε : Type) where
  /-- Modelled from the spec: the codec contract
  `decode(bytes) -> Transaction | DecodeError` behind `tx.UnmarshalHACTx`. -/
  decode : Bytes → Except Err HACTx
  /-- The error of `State.Verify(btx, allowNonceGap)`; the account it returns is
  discarded by `parseTx`. -/
  Verify : σ → HACTx → Bool → Option Err
  /-- Go `app.db.NewState()`, from the canonical state. -/
  NewState : σ → σ
  /-- Go `app.db.SetState(st)`: the canonical state afterwards and the error. -/
  SetState : σ → Option σ → σ × Option Err
  FindAccount : σ → Bytes → Option Account × Option Err
  Clone : σ → σ
  Validators : σ → ValidatorSet × Option Err
  /-- Go `st.Update()`: the bytes of the hash, the error, the snapshot afterwards. -/
  Update : σ → (Bytes × Option Err) × σ
  ValidatorsUpdate : σ → ValidatorSet → List ValidatorUpdate × Option Err
  EncodeEventUpdateValiators : List ValidatorUpdate → AbciEvent
  /-- The registry `app.txHdlrs`, a Go map, as the list of its entries; a key is
  looked up by first match.  The order of the list means nothing: a `range`
  over the map visits the entries in an order of its own (see `RangeOrder`). -/
  txHdlrs : List (HACTxType × Handler σ ε)
  IfGrantNewMember : ε → Nat → String → (Bool × Option Err) × ε
  IfProcessProposal : ε → Nat → Bytes → (Bool × Option Err) × ε
  IfAcceptProposal : ε → Nat → (Bool × Option Err) × ε
  VoteGrantNewMember : VoteCode
  VoteRejectNewMember : VoteCode
  VoteProcessProposal : VoteCode
  VoteIgnoreProposal : VoteCode
  VoteAcceptProposal : VoteCode
  VoteRejectProposal : VoteCode

/-- A non-nil pointer `*state.State`: the identity of the snapshot object it
points to, and the content of that object. -/
structure Ptr (σ : Type) where
  id : Nat
  obj : σ
  deriving DecidableEq, Repr

/-- The mutable part of `HACApp` and of its collaborators. -/
structure World (σ ε : Type) where
  /-- The canonical state `app.db.State()`. -/
  db : σ
  /-- The working-state reference `app.st` (`none` is nil): which snapshot object
  it points to, and what that object holds. -/
  st : Option (Ptr σ)
  /-- The request stored by `app.lastBlk.Set`. -/
  lastBlk : Option RequestFinalizeBlock
  /-- Internal state of handlers and oracle. -/
  ext : ε
  /-- Collaborator calls so far, oldest first. -/
  calls : List Call
  /-- The identity of the next snapshot object `app.db.NewState()` creates. -/
  next : Nat

/-- How a Go call ends: it returns, or it panics. -/
inductive Outcome (α : Type)
  | ret (a : α)
  | panic
  deriving Repr

variable {σ ε : Type}

/-- Record a collaborator call. -/
def World.log (w : World σ ε) (c : Call) : World σ ε :=
  { w with calls := w.calls ++ [c] }

/-- Go `tx.UnmarshalHACTx` as a Go result pair. -/
def UnmarshalHACTx (app : App σ ε) (txDat : Bytes) : Option HACTx × Option Err :=
  match app.decode txDat with
  | .ok btx => (some btx, none)
  | .error e => (none, some e)

/-- The map lookup `app.txHdlrs[ty]`. -/
def lookupHdlr (app : App σ ε) (ty : HACTxType) : Option (Handler σ ε) :=
  (app.txHdlrs.find? (fun p => p.1 = ty)).map (fun p => p.2)

/-- Go `getState` (lines 21-25): a pointer to a new snapshot object from the
store (line 22), which is also stored in `app.st` (line 23). -/
def getState (app : App σ ε) (w : World σ ε) : Ptr σ × World σ ε :=
  let st : Ptr σ := { id := w.next, obj := app.NewState w.db }
  (st, { (w.log .NewState) with st := some st, next := w.next + 1 })

/-- The snapshot object `id` has been mutated in place and now holds `v`:
`app.st` shows the new content if, and only if, it points to that object. -/
def World.mutate (w : World σ ε) (id : Nat) (v : σ) : World σ ε :=
  match w.st with
  | some p => if p.id = id then { w with st := some { id := id, obj := v } } else w
  | none => w

/-- Go `parseTx` (lines 27-36). -/
def parseTx (app : App σ ε) (txDat : Bytes) (allowNonceGap : Bool) (w : World σ ε) :
    (Option HACTx × Option Err) × World σ ε :=
  let w1 := w.log (.Unmarshal txDat)
  match UnmarshalHACTx app txDat with
  | (btx, some err) => ((btx, some err), w1)
  | (some btx, none) =>
    ((some btx, app.Verify w1.db btx allowNonceGap), w1.log (.Verify btx allowNonceGap))
  | (none, none) => ((none, none), w1)

/-- The order in which one `range app.txHdlrs` visits the registry.  Go leaves
the iteration order of a map unspecified and chooses it anew for every loop, so
each call that ranges over the registry takes the order of its loop as an
argument: some permutation of the entries. -/
structure RangeOrder (app : App σ ε) where
  entries : List (HACTxType × Handler σ ε)
  perm : entries.Perm app.txHdlrs

/-- The loop `for _, h := range app.txHdlrs { h.NewContext(ctx) }`, visiting the
entries in the order given (the `entries` of the loop's `RangeOrder`). -/
def newContexts : List (HACTxType × Handler σ ε) → World σ ε → World σ ε
  | [], w => w
  | (ty, h) :: hs, w =>
    newContexts hs ({ w with ext := h.NewContext w.ext }.log (.NewContext ty))

/-- The oracle query `app.agentCli.IfGrantNewMember`. -/
def IfGrantNewMember (app : App σ ε) (amount : Nat) (statement : String) (w : World σ ε) :
    (Bool × Option Err) × World σ ε :=
  let r := app.IfGrantNewMember w.ext amount statement
  (r.1, { w with ext := r.2 }.log (.IfGrantNewMember amount statement))

/-- The oracle query `app.agentCli.IfProcessProposal`. -/
def IfProcessProposal (app : App σ ε) (proposer : Nat) (data : Bytes) (w : World σ ε) :
    (Bool × Option Err) × World σ ε :=
  let r := app.IfProcessProposal w.ext proposer data
  (r.1, { w with ext := r.2 }.log (.IfProcessProposal proposer data))

/-- The oracle query `app.agentCli.IfAcceptProposal`. -/
def IfAcceptProposal (app : App σ ε) (proposal : Nat) (w : World σ ε) :
    (Bool × Option Err) × World σ ε :=
  let r := app.IfAcceptProposal w.ext proposal
  (r.1, { w with ext := r.2 }.log (.IfAcceptProposal proposal))

/-- The loop of `getCode` (lines 282-341) on the remaining transactions, with
the current `proposerAct` and `code`. -/
def getCodeLoop (app : App σ ε) :
    List Bytes → Bool → VoteCode → World σ ε → Outcome ((VoteCode × Option Err) × World σ ε)
  | [], _, code, w => .ret ((code, none), w)
  | stx :: rest, proposerAct, code, w =>
    match parseTx app stx false w with
    | ((_, some _), w1) => getCodeLoop app rest proposerAct code w1
    | ((none, none), _) => .panic
    | ((some btx, none), w1) =>
      match btx.Tx with
      | .Grant gtx =>
        if proposerAct = true then .ret ((0, some ErrMultiProposalInOneBlock), w1)
        else if gtx.Grants.length ≠ 1 then .ret ((0, some ErrOnlySupportOneGrant), w1)
        else
          match gtx.Grants[0]? with
          | none => .panic
          | some g =>
            match IfGrantNewMember app g.Amount g.Statement w1 with
            | ((_, some err), w2) => .ret ((0, some err), w2)
            | ((pass, none), w2) =>
              getCodeLoop app rest true
                (if pass then app.VoteGrantNewMember else app.VoteRejectNewMember) w2
      | .Proposal ptx =>
        if proposerAct = true then .ret ((0, some ErrMultiProposalInOneBlock), w1)
        else
          match IfProcessProposal app ptx.Proposer ptx.Data w1 with
          | ((_, some err), w2) => .ret ((0, some err), w2)
          | ((pass, none), w2) =>
            getCodeLoop app rest true
              (if pass then app.VoteProcessProposal else app.VoteIgnoreProposal) w2
      | .SettleProposal stl =>
        if proposerAct = true then .ret ((0, some ErrMultiProposalInOneBlock), w1)
        else
          match IfAcceptProposal app stl.Proposal w1 with
          | ((_, some err), w2) => .ret ((0, some err), w2)
          | ((pass, none), w2) =>
            getCodeLoop app rest true
              (if pass then app.VoteAcceptProposal else app.VoteRejectProposal) w2
      | .Other _ _ => getCodeLoop app rest proposerAct code w1

/-- Go `getCode` (lines 280-343), the Admission Gate. -/
def getCode (app : App σ ε) (txs : List Bytes) (w : World σ ε) :
    Outcome ((VoteCode × Option Err) × World σ ε) :=
  getCodeLoop app txs false 0 w

/-- Go `CheckTx` (lines 38-62). -/
def CheckTx (app : App σ ε) (check : RequestCheckTx) (w : World σ ε) :
    Outcome ((Option ResponseCheckTx × Option Err) × World σ ε) :=
  let res : ResponseCheckTx := { Code := 0, Log := "", Data := [] }
  match parseTx app check.Tx true w with
  | ((_, some err), w1) => .ret ((some { res with Code := 1, Log := err }, none), w1)
  | ((none, none), _) => .panic
  | ((some btx, none), w1) =>
    match lookupHdlr app btx.Typ with
    | none => .ret ((some { res with Code := 1, Log := "unsupported tx" }, none), w1)
    | some h =>
      let r := h.Check w1.ext w1.db btx
      let w2 := { w1 with db := r.st, ext := r.ext }.log (.Check btx)
      match r.err with
      | some err =>
        match r.res with
        | none => .panic
        | some res => .ret ((some { res with Code := 1, Log := err }, none), w2)
      | none => .ret ((r.res, none), w2)

/-- The first loop of `PrepareProposal` (lines 72-94) on the remaining
transactions, with the current `proposerAct` and `prepareTxs`; `.error err` is
the `return nil, err` of line 84. -/
def prepareFilter (app : App σ ε) (proposerAddress : Bytes) (st : σ) :
    List Bytes → Bool → List Bytes → World σ ε → Outcome (Except Err (List Bytes) × World σ ε)
  | [], _, prepareTxs, w => .ret (.ok prepareTxs, w)
  | stx :: rest, proposerAct, prepareTxs, w =>
    match parseTx app stx false w with
    | ((_, some _), w1) => prepareFilter app proposerAddress st rest proposerAct prepareTxs w1
    | ((none, none), _) => .panic
    | ((some btx, none), w1) =>
      if btx.Typ.isGovernance = true then
        if proposerAct = true then
          prepareFilter app proposerAddress st rest proposerAct prepareTxs w1
        else
          let w2 := w1.log (.FindAccount proposerAddress)
          match app.FindAccount st proposerAddress with
          | (_, some err) => .ret (.error err, w2)
          | (none, none) => .panic
          | (some proposeAcc, none) =>
            if proposeAcc.Index = btx.Validator then
              prepareFilter app proposerAddress st rest true (prepareTxs ++ [stx]) w2
            else
              prepareFilter app proposerAddress st rest proposerAct prepareTxs w2
      else
        prepareFilter app proposerAddress st rest proposerAct (prepareTxs ++ [stx]) w1

/-- The second loop of `PrepareProposal` (lines 102-129) on the remaining
transactions, with the current accepted state `st` and output `txs`. -/
def prepareLoop (app : App σ ε) (code : VoteCode) :
    List Bytes → σ → List Bytes → World σ ε → Outcome (List Bytes × World σ ε)
  | [], _, txs, w => .ret (txs, w)
  | stx :: rest, st, txs, w =>
    let stTmp := app.Clone st
    match parseTx app stx false (w.log .Clone) with
    | ((_, some _), w1) => prepareLoop app code rest st txs w1
    | ((none, none), _) => .panic
    | ((some btx, none), w1) =>
      match lookupHdlr app btx.Typ with
      | none => prepareLoop app code rest st txs w1
      | some h =>
        let r := h.Prepare w1.ext stTmp btx code
        let w2 := { w1 with ext := r.ext }.log (.Prepare btx code)
        match r.err with
        | some _ => prepareLoop app code rest st txs w2
        | none =>
          match r.res with
          | none => prepareLoop app code rest st txs w2
          | some result =>
            if result.Code ≠ 0 then prepareLoop app code rest st txs w2
            else prepareLoop app code rest r.st (txs ++ [stx]) w2

/-- Go `PrepareProposal` (lines 64-131); `ord` is the order of the loop of line
67. -/
def PrepareProposal (app : App σ ε) (ord : RangeOrder app) (proposal : RequestPrepareProposal) (w : World σ ε) :
    Outcome ((Option ResponsePrepareProposal × Option Err) × World σ ε) :=
  let s := getState app w
  let w2 := newContexts ord.entries s.2
  match prepareFilter app proposal.ProposerAddress s.1.obj proposal.Txs false [] w2 with
  | .panic => .panic
  | .ret (.error err, w3) => .ret ((none, some err), w3)
  | .ret (.ok prepareTxs, w3) =>
    match getCode app prepareTxs w3 with
    | .panic => .panic
    | .ret ((_, some _), w4) => .ret ((some { Txs := [] }, none), w4)
    | .ret ((code, none), w4) =>
      match prepareLoop app code prepareTxs s.1.obj [] w4 with
      | .panic => .panic
      | .ret (txs, w5) => .ret ((some { Txs := txs }, none), w5)

/-- What `finalize` and `process` return: `(res, events, err)`, the snapshot
`st` as the handlers left it, and the world. -/
abbrev ExecOutcome (σ ε : Type) :=
  Outcome ((List (Option ExecTxResult) × List AbciEvent × Option Err) × σ × World σ ε)

/-- The loop of `finalize` (lines 138-167) from index `i`, with the current
`res` and snapshot. -/
def finalizeLoop (app : App σ ε) (code : VoteCode) :
    List Bytes → Nat → List (Option ExecTxResult) → σ → World σ ε → ExecOutcome σ ε
  | [], _, res, st, w => .ret ((res, [], none), st, w)
  | stx :: rest, i, res, st, w =>
    match parseTx app stx false w with
    | ((_, some err), w1) => .ret (([], [], some err), st, w1)
    | ((none, none), _) => .panic
    | ((some btx, none), w1) =>
      match lookupHdlr app btx.Typ with
      | none => .ret (([], [], some ErrUnexpectedTxProcess), st, w1)
      | some h =>
        let r := h.Process w1.ext st btx code
        let w2 := { w1 with ext := r.ext }.log (.Process btx code)
        match r.err with
        | some _ => .ret (([], [], some ErrUnexpectedTxProcess), r.st, w2)
        | none =>
          match r.res with
          | none => .ret (([], [], some ErrUnexpectedTxProcess), r.st, w2)
          | some result =>
            if result.Code ≠ 0 then .ret (([], [], some ErrUnexpectedTxProcess), r.st, w2)
            else finalizeLoop app code rest (i + 1) (res.set i (some result)) r.st w2

/-- Go `finalize` (lines 133-169); `ord` is the order of the loop of line 134. -/
def finalize (app : App σ ε) (ord : RangeOrder app) (st : σ) (txs : List Bytes) (_proposer : Bytes) (_height : Nat)
    (code : VoteCode) (w : World σ ε) : ExecOutcome σ ε :=
  finalizeLoop app code txs 0 (List.replicate txs.length none) st (newContexts ord.entries w)

/-- The loop of `process` (lines 176-206) from index `i`, with the current
`res` and snapshot. -/
def processLoop (app : App σ ε) (code : VoteCode) :
    List Bytes → Nat → List (Option ExecTxResult) → σ → World σ ε → ExecOutcome σ ε
  | [], _, res, st, w => .ret ((res, [], none), st, w)
  | stx :: rest, i, res, st, w =>
    match parseTx app stx false w with
    | ((_, some err), w1) => .ret (([], [], some err), st, w1)
    | ((none, none), _) => .panic
    | ((some btx, none), w1) =>
      match lookupHdlr app btx.Typ with
      | none => .ret (([], [], some ErrUnexpectedTxProcess), st, w1)
      | some h =>
        let r := h.Process w1.ext st btx code
        let w2 := { w1 with ext := r.ext }.log (.Process btx code)
        match r.err with
        | some _ => .ret (([], [], some ErrUnexpectedTxProcess), r.st, w2)
        | none =>
          match r.res with
          | none => .ret (([], [], some ErrUnexpectedTxProcess), r.st, w2)
          | some result =>
            if result.Code ≠ 0 then .ret (([], [], some ErrUnexpectedTxProcess), r.st, w2)
            else processLoop app code rest (i + 1) (res.set i (some result)) r.st w2

/-- Go `process` (lines 171-208); `ord` is the order of the loop of line 172. -/
def process (app : App σ ε) (ord : RangeOrder app) (st : σ) (txs : List Bytes) (_proposer : Bytes) (_height : Nat)
    (code : VoteCode) (w : World σ ε) : ExecOutcome σ ε :=
  processLoop app code txs 0 (List.replicate txs.length none) st (newContexts ord.entries w)

/-- The conversion `uint64(h)` of an `int64` height. -/
def uint64 (h : Int) : Nat := (h % 2 ^ 64).toNat

/-- Go `ProcessProposal` (lines 210-234).  `process` mutates in place the snapshot
object `st` points to; `app.st` sees that if `getState` made it point to the
same object. -/
def ProcessProposal (app : App σ ε) (ord : RangeOrder app) (proposal : RequestProcessProposal) (w : World σ ε) :
    Outcome ((Option ResponseProcessProposal × Option Err) × World σ ε) :=
  let res : ResponseProcessProposal := { Status := .REJECT, VoteCode := 0 }
  if proposal.Txs.length = 0 then
    .ret ((some { res with Status := .ACCEPT }, none), w)
  else
    let s := getState app w
    match getCode app proposal.Txs s.2 with
    | .panic => .panic
    | .ret ((_, some _), w2) => .ret ((some res, none), w2)
    | .ret ((code, none), w2) =>
      let res1 : ResponseProcessProposal := { res with VoteCode := code }
      match process app ord s.1.obj proposal.Txs proposal.ProposerAddress
          (uint64 proposal.Height) code w2 with
      | .panic => .panic
      | .ret ((_, _, some _), st1, w3) => .ret ((some res1, none), w3.mutate s.1.id st1)
      | .ret ((_, _, none), st1, w3) =>
        .ret ((some { res1 with Status := .ACCEPT }, none), w3.mutate s.1.id st1)

/-- Go `FinalizeBlock` (lines 236-268).  `finalize` and `st.Update()` mutate in
place the snapshot object `st` points to. -/
def FinalizeBlock (app : App σ ε) (ord : RangeOrder app) (req : RequestFinalizeBlock) (w : World σ ε) :
    Outcome ((Option ResponseFinalizeBlock × Option Err) × World σ ε) :=
  let s := getState app { w with lastBlk := some req }
  match finalize app ord s.1.obj req.Txs req.ProposerAddress (uint64 req.Height) req.VoteCode
      s.2 with
  | .panic => .panic
  | .ret ((_, _, some err), st1, w2) => .ret ((none, some err), w2.mutate s.1.id st1)
  | .ret ((res, events, none), st1, w2) =>
    let w3 := (w2.mutate s.1.id st1).log .Validators
    match app.Validators st1 with
    | (_, some err) => .ret ((none, some err), w3)
    | (curVals, none) =>
      let u := app.Update st1
      let w4 := (w3.mutate s.1.id u.2).log .Update
      match u.1 with
      | (_, some err) => .ret ((none, some err), w4)
      | (h, none) =>
        let w5 := w4.log .ValidatorsUpdate
        match app.ValidatorsUpdate u.2 curVals with
        | (_, some err) => .ret ((none, some err), w5)
        | (updateVals, none) =>
          let events1 :=
            if updateVals.length ≠ 0 then events ++ [app.EncodeEventUpdateValiators updateVals]
            else events
          .ret ((some { TxResults := res, AppHash := h, ValidatorUpdates := updateVals,
                        Events := events1 }, none), w5)

/-- Go `Commit` (lines 270-278); `SetState` is given the snapshot `app.st` points
to (or nil). -/
def Commit (app : App σ ε) (w : World σ ε) :
    Outcome ((Option ResponseCommit × Option Err) × World σ ε) :=
  let r := app.SetState w.db (w.st.map Ptr.obj)
  let w1 := { w with db := r.1 }.log .SetState
  match r.2 with
  | some err => .ret ((none, some err), w1)
  | none => .ret ((some { RetainHeight := 0 }, none), { w1 with st := none })

/-! ## Pure views used in statements -/

/-- The result pair of `parseTx`, as a function of the canonical state. -/
def parseRes (app : App σ ε) (db : σ) (txDat : Bytes) (allowNonceGap : Bool) :
    Option HACTx × Option Err :=
  match app.decode txDat with
  | .ok btx => (some btx, app.Verify db btx allowNonceGap)
  | .error e => (none, some e)

/-- The transaction `parseTx` yields when it succeeds (decode and verification
both without error), `none` when it fails. -/
def parsed (app : App σ ε) (db : σ) (allowNonceGap : Bool) (txDat : Bytes) : Option HACTx :=
  match parseRes app db txDat allowNonceGap with
  | (some btx, none) => some btx
  | _ => none

/-- The raw transaction decodes to a governance type (Grant, Proposal or
SettleProposal); verification is not consulted. -/
def decodesGov (app : App σ ε) (txDat : Bytes) : Bool :=
  match app.decode txDat with
  | .ok btx => btx.Typ.isGovernance
  | .error _ => false

/-- The raw transaction parses in strict mode (decodes and verifies with nonce
gaps refused) to a governance type. -/
def parsesGov (app : App σ ε) (db : σ) (txDat : Bytes) : Bool :=
  match parsed app db false txDat with
  | some btx => btx.Typ.isGovernance
  | none => false

/-- The value a call returned, without the world; `none` for a panic. -/
def Outcome.result {α β : Type} : Outcome (α × β) → Option α
  | .ret (a, _) => some a
  | .panic => none

/-- The world a call left behind; the given world for a panic. -/
def Outcome.world {α β : Type} (o : Outcome (α × β)) (d : β) : β :=
  match o with
  | .ret (_, w) => w
  | .panic => d

/-- The call is a query to the governance oracle. -/
def Call.isOracle : Call → Bool
  | .IfGrantNewMember _ _ => true
  | .IfProcessProposal _ _ => true
  | .IfAcceptProposal _ => true
  | _ => false

/-! ## The all-or-nothing condition of validation, in the spec's words -/

/-- Every transaction of the batch, in order, decodes and verifies in strict
mode against the canonical state `db`, has a registered handler, and its
handler's `Process` (run on the snapshot and collaborator state left by the
transactions before it) returns no error, a non-nil result and status code 0. -/
def everyTxProcesses (app : App σ ε) (code : VoteCode) (db : σ) : List Bytes → σ → ε → Bool
  | [], _, _ => true
  | stx :: rest, st, ext =>
    match parsed app db false stx with
    | none => false
    | some btx =>
      match lookupHdlr app btx.Typ with
      | none => false
      | some h =>
        let r := h.Process ext st btx code
        r.err.isNone && (match r.res with
          | some result => result.Code == 0
          | none => false) && everyTxProcesses app code db rest r.st r.ext

/-- The condition under which the spec lets `ProcessProposal` accept a
non-empty batch: `getCode` succeeds on the full batch, and every transaction
processes (on a new working state, after the handler contexts are reset) under
the code it returned. -/
def batchValid (app : App σ ε) (ord : RangeOrder app) (txs : List Bytes) (w : World σ ε) : Bool :=
  match getCode app txs (getState app w).2 with
  | .ret ((code, none), w2) =>
    everyTxProcesses app code w.db txs (app.NewState w.db) (newContexts ord.entries w2).ext
  | _ => false

/-- The governance transactions among those of the batch that parse
successfully in strict mode, in batch order. -/
def parsedGovs (app : App σ ε) (db : σ) (txs : List Bytes) : List HACTx :=
  (txs.filterMap (parsed app db false)).filter (fun btx => btx.Typ.isGovernance)

/-! ## Views of the call log and of sequential execution -/

/-- The call is a context reset `h.NewContext`. -/
def Call.isNewContext : Call → Bool
  | .NewContext _ => true
  | _ => false

/-- The call hands a transaction to a handler (`Check`, `Prepare`, `Process`). -/
def Call.isHandler : Call → Bool
  | .Check _ => true
  | .Prepare _ _ => true
  | .Process _ _ => true
  | _ => false

/-- The call decodes or verifies a transaction, or hands it to a handler. -/
def Call.touchesTx : Call → Bool
  | .Unmarshal _ => true
  | .Verify _ _ => true
  | c => c.isHandler

/-- The calls `getCode` can make: decoding, verification with nonce gaps
refused, and oracle queries. -/
def Call.isGate : Call → Bool
  | .Unmarshal _ => true
  | .Verify _ allowNonceGap => !allowNonceGap
  | c => c.isOracle

/-- Between `w` and `w1` the call log only grew, by calls that satisfy `P`. -/
def Appends (P : Call → Bool) (w w1 : World σ ε) : Prop :=
  ∃ l, w1.calls = w.calls ++ l ∧ ∀ c ∈ l, P c = true

/-- The results of processing the batch sequentially, in batch order: the
entry of a transaction is what its handler's `Process` returns when run on the
snapshot and collaborator state left by the transactions before it. -/
def sequentialResults (app : App σ ε) (code : VoteCode) (db : σ) :
    List Bytes → σ → ε → List (Option ExecTxResult)
  | [], _, _ => []
  | stx :: rest, st, ext =>
    match parsed app db false stx with
    | none => []
    | some btx =>
      match lookupHdlr app btx.Typ with
      | none => []
      | some h =>
        let r := h.Process ext st btx code
        r.res :: sequentialResults app code db rest r.st r.ext

/-- The result of the loop of `getCode` as a function of the canonical state
`db` and of the collaborators' state: what it returns, and the collaborators'
state afterwards.  Unparseable transactions do not occur in it other than by
being passed over.  `getCodeLoop_refines` relates it to `getCodeLoop`. -/
def codeLoop (app : App σ ε) (db : σ) :
    List Bytes → Bool → VoteCode → ε → (VoteCode × Option Err) × ε
  | [], _, code, ext => ((code, none), ext)
  | stx :: rest, proposerAct, code, ext =>
    match parsed app db false stx with
    | none => codeLoop app db rest proposerAct code ext
    | some btx =>
      match btx.Tx with
      | .Grant gtx =>
        if proposerAct = true then ((0, some ErrMultiProposalInOneBlock), ext)
        else
          match gtx.Grants with
          | [g] =>
            match app.IfGrantNewMember ext g.Amount g.Statement with
            | ((_, some err), ext1) => ((0, some err), ext1)
            | ((pass, none), ext1) =>
              codeLoop app db rest true
                (if pass then app.VoteGrantNewMember else app.VoteRejectNewMember) ext1
          | _ => ((0, some ErrOnlySupportOneGrant), ext)
      | .Proposal ptx =>
        if proposerAct = true then ((0, some ErrMultiProposalInOneBlock), ext)
        else
          match app.IfProcessProposal ext ptx.Proposer ptx.Data with
          | ((_, some err), ext1) => ((0, some err), ext1)
          | ((pass, none), ext1) =>
            codeLoop app db rest true
              (if pass then app.VoteProcessProposal else app.VoteIgnoreProposal) ext1
      | .SettleProposal stl =>
        if proposerAct = true then ((0, some ErrMultiProposalInOneBlock), ext)
        else
          match app.IfAcceptProposal ext stl.Proposal with
          | ((_, some err), ext1) => ((0, some err), ext1)
          | ((pass, none), ext1) =>
            codeLoop app db rest true
              (if pass then app.VoteAcceptProposal else app.VoteRejectProposal) ext1
      | .Other _ _ => codeLoop app db rest proposerAct code ext

/-- The raw transaction parses in strict mode to a governance transaction
acted by the validator with account index `index` (the test of lines 78 and 86
of `PrepareProposal`). -/
def ownGovernance (app : App σ ε) (db : σ) (index : Nat) (txDat : Bytes) : Bool :=
  match parsed app db false txDat with
  | some btx => btx.Typ.isGovernance && decide (index = btx.Validator)
  | none => false

/-- One call `h.NewContext` per entry of the registry (in the order the
registry is written down; what a `range` logs is a permutation of it). -/
def resetCalls (app : App σ ε) : List Call :=
  app.txHdlrs.map (fun p => Call.NewContext p.1)

/-- The calls `h.NewContext` of a loop that visits the registry in the order
`ord`. -/
def RangeOrder.resets {app : App σ ε} (ord : RangeOrder app) : List Call :=
  ord.entries.map (fun p => Call.NewContext p.1)

/-- What the loop of `finalize` (and of `process`) computes, as a function of
the canonical state `db`, the snapshot and the collaborators' state: the
results, the snapshot and the collaborators' state afterwards.
`finalizeLoop_exec` relates it to `finalizeLoop`. -/
def execLoop (app : App σ ε) (code : VoteCode) (db : σ) :
    List Bytes → Nat → List (Option ExecTxResult) → σ → ε →
      (List (Option ExecTxResult) × List AbciEvent × Option Err) × σ × ε
  | [], _, res, st, ext => ((res, [], none), st, ext)
  | stx :: rest, i, res, st, ext =>
    match app.decode stx with
    | .error err => (([], [], some err), st, ext)
    | .ok btx =>
      match app.Verify db btx false with
      | some err => (([], [], some err), st, ext)
      | none =>
        match lookupHdlr app btx.Typ with
        | none => (([], [], some ErrUnexpectedTxProcess), st, ext)
        | some h =>
          let r := h.Process ext st btx code
          match r.err with
          | some _ => (([], [], some ErrUnexpectedTxProcess), r.st, r.ext)
          | none =>
            match r.res with
            | none => (([], [], some ErrUnexpectedTxProcess), r.st, r.ext)
            | some result =>
              if result.Code ≠ 0 then (([], [], some ErrUnexpectedTxProcess), r.st, r.ext)
              else execLoop app code db rest (i + 1) (res.set i (some result)) r.st r.ext

/-- What a run of `process` or `finalize` leaves behind, the log of calls set
aside: what it returned, the snapshot it worked on, the canonical state and the
collaborators' state; `none` for a panic. -/
def ExecOutcome.observe (o : ExecOutcome σ ε) :
    Option ((List (Option ExecTxResult) × List AbciEvent × Option Err) × σ × σ × ε) :=
  match o with
  | .ret (out, st1, w1) => some (out, st1, w1.db, w1.ext)
  | .panic => none

/-! ## A concrete instance

Snapshots are natural numbers (the nonce the store expects next), the
collaborators' internal state is a call counter.  A raw transaction is
`[kind, validator, nonce]`, a grant carries its number of records as a fourth
byte. -/

def sampleDecode : Bytes → Except Err HACTx
  | [0, v, n] => .ok { Validator := v, Nonce := n, Tx := .Other 0 [] }
  | [1, v, n, k] =>
    .ok { Validator := v, Nonce := n, Tx := .Grant { Grants := List.replicate k ⟨10, "join"⟩ } }
  | [2, v, n] => .ok { Validator := v, Nonce := n, Tx := .Proposal { Proposer := v, Data := [] } }
  | [3, v, n] => .ok { Validator := v, Nonce := n, Tx := .SettleProposal { Proposal := 0 } }
  | _ => .error "malformed transaction"

def sampleVerify (db : Nat) (btx : HACTx) (allowNonceGap : Bool) : Option Err :=
  if btx.Nonce = db then none
  else if allowNonceGap = true ∧ db < btx.Nonce then none
  else some "bad nonce"

def sampleHandler : Handler Nat Nat where
  NewContext := fun _ => 0
  Check := fun ext st btx =>
    if btx.Validator = 0 then { res := none, err := some "unknown account", st := st, ext := ext }
    else { res := some { Code := 0, Log := "", Data := [] }, err := none, st := st, ext := ext }
  Prepare := fun ext st _ _ =>
    { res := some { Code := 0, Log := "", Data := [], Events := [] }, err := none,
      st := st + 1, ext := ext + 1 }
  Process := fun ext st _ _ =>
    { res := some { Code := 0, Log := "", Data := [], Events := [] }, err := none,
      st := st + 1, ext := ext + 1 }

def sampleApp : App Nat Nat where
  decode := sampleDecode
  Verify := sampleVerify
  NewState := fun db => db
  SetState := fun db st =>
    match st with
    | none => (db, some "nil state")
    | some s => if s < db then (db, some "stale state") else (s, none)
  FindAccount := fun _ addr =>
    match addr with
    | [i] => (some { Index := i }, none)
    | _ => (none, some "account not found")
  Clone := fun st => st
  Validators := fun _ => ([], none)
  Update := fun st => (([st], none), st)
  ValidatorsUpdate := fun _ _ => ([], none)
  EncodeEventUpdateValiators := fun _ => { Typ := "update_validators", Attributes := [] }
  txHdlrs := [(.Other 0, sampleHandler), (.Grant, sampleHandler), (.Proposal, sampleHandler),
    (.SettleProposal, sampleHandler)]
  IfGrantNewMember := fun ext _ _ => ((true, none), ext)
  IfProcessProposal := fun ext _ _ => ((true, none), ext)
  IfAcceptProposal := fun ext _ => ((false, none), ext)
  VoteGrantNewMember := 1
  VoteRejectNewMember := 2
  VoteProcessProposal := 3
  VoteIgnoreProposal := 4
  VoteAcceptProposal := 5
  VoteRejectProposal := 6

/-- The order in which the sample registry is written down. -/
def sampleOrder : RangeOrder sampleApp :=
  { entries := sampleApp.txHdlrs, perm := List.Perm.refl _ }

/-- The sample registry visited from its last entry to its first. -/
def reverseOrder : RangeOrder sampleApp :=
  { entries := sampleApp.txHdlrs.reverse, perm := List.reverse_perm _ }

def sampleWorld : World Nat Nat :=
  { db := 0, st := none, lastBlk := none, ext := 0, calls := [], next := 0 }

/-- A handler whose context reset leaves the mark 1 in the collaborators'
state, and whose `Process` reports the mark it finds. -/
def firstHandler : Handler Nat Nat :=
  { sampleHandler with
    NewContext := fun _ => 1
    Process := fun ext st _ _ =>
      { res := some { Code := 0, Log := "", Data := [ext], Events := [] }, err := none,
        st := st + 1, ext := ext } }

/-- The same handler, leaving the mark 2. -/
def secondHandler : Handler Nat Nat :=
  { firstHandler with NewContext := fun _ => 2 }

/-- The sample application with a registry of two handlers whose context resets
do not commute. -/
def markApp : App Nat Nat :=
  { sampleApp with txHdlrs := [(.Other 0, firstHandler), (.Grant, secondHandler)] }

/-- The registry of `markApp` visited first entry first. -/
def forwardOrder : RangeOrder markApp :=
  { entries := [(.Other 0, firstHandler), (.Grant, secondHandler)], perm := List.Perm.refl _ }

/-- The registry of `markApp` visited second entry first. -/
def backwardOrder : RangeOrder markApp :=
  { entries := [(.Grant, secondHandler), (.Other 0, firstHandler)],
    perm := List.Perm.swap _ _ _ }

/-- A block of a Proposal and a transfer, with the code of an accepted
proposal. -/
def sampleBlock : RequestFinalizeBlock :=
  { Txs := [[2, 1, 0], [0, 2, 0]], ProposerAddress := [1], Height := 1, VoteCode := 3 }

/-! # Theorems -/

/-! ## The working-state reference -/

theorem World.mutate_db (w : World σ ε) (id : Nat) (v : σ) : (w.mutate id v).db = w.db := by
  unfold World.mutate
  split
  · split <;> rfl
  · rfl

theorem World.mutate_ext (w : World σ ε) (id : Nat) (v : σ) : (w.mutate id v).ext = w.ext := by
  unfold World.mutate
  split
  · split <;> rfl
  · rfl

theorem World.mutate_calls (w : World σ ε) (id : Nat) (v : σ) :
    (w.mutate id v).calls = w.calls := by
  unfold World.mutate
  split
  · split <;> rfl
  · rfl

/-- A mutation of the object `app.st` points to is seen through `app.st`. -/
theorem World.mutate_st (w : World σ ε) (id : Nat) (u v : σ)
    (h : w.st = some { id := id, obj := u }) :
    (w.mutate id v).st = some { id := id, obj := v } := by
  unfold World.mutate
  rw [h]
  simp

/-! ## The parser -/

theorem parseTx_fst (app : App σ ε) (txDat : Bytes) (a : Bool) (w : World σ ε) :
    (parseTx app txDat a w).1 = parseRes app w.db txDat a := by
  unfold parseTx parseRes UnmarshalHACTx
  cases app.decode txDat <;> rfl

theorem parseTx_db (app : App σ ε) (txDat : Bytes) (a : Bool) (w : World σ ε) :
    (parseTx app txDat a w).2.db = w.db := by
  unfold parseTx UnmarshalHACTx
  cases app.decode txDat <;> rfl

theorem parseTx_ext (app : App σ ε) (txDat : Bytes) (a : Bool) (w : World σ ε) :
    (parseTx app txDat a w).2.ext = w.ext := by
  unfold parseTx UnmarshalHACTx
  cases app.decode txDat <;> rfl

theorem parseTx_st (app : App σ ε) (txDat : Bytes) (a : Bool) (w : World σ ε) :
    (parseTx app txDat a w).2.st = w.st := by
  unfold parseTx UnmarshalHACTx
  cases app.decode txDat <;> rfl

/-- With the codec contract, a nil transaction always comes with an error. -/
theorem parseRes_ne_nil (app : App σ ε) (db : σ) (txDat : Bytes) (a : Bool) :
    parseRes app db txDat a ≠ (none, none) := by
  unfold parseRes
  cases app.decode txDat <;> simp

/-- The three ways `parseTx` can end, with what each says about the pure views. -/
theorem parseTx_cases (app : App σ ε) (txDat : Bytes) (a : Bool) (w : World σ ε) :
    (∃ o e w1, parseTx app txDat a w = ((o, some e), w1) ∧ w1.db = w.db ∧ w1.ext = w.ext ∧
        parsed app w.db a txDat = none) ∨
    (∃ btx w1, parseTx app txDat a w = ((some btx, none), w1) ∧ w1.db = w.db ∧
        w1.ext = w.ext ∧ parsed app w.db a txDat = some btx ∧ app.decode txDat = .ok btx) := by
  have h1 := parseTx_fst app txDat a w
  have h2 := parseTx_db app txDat a w
  have h3 := parseTx_ext app txDat a w
  rcases hp : parseTx app txDat a w with ⟨⟨o, e⟩, w1⟩
  rw [hp] at h1 h2 h3
  simp only at h1 h2 h3
  unfold parsed
  rw [← h1]
  unfold parseRes at h1
  cases hd : app.decode txDat with
  | error err =>
    rw [hd] at h1
    simp only [Prod.mk.injEq] at h1
    obtain ⟨rfl, rfl⟩ := h1
    exact Or.inl ⟨_, _, _, rfl, h2, h3, rfl⟩
  | ok btx =>
    rw [hd] at h1
    simp only [Prod.mk.injEq] at h1
    obtain ⟨rfl, rfl⟩ := h1
    cases hv : app.Verify w.db btx a with
    | none => exact Or.inr ⟨_, _, rfl, h2, h3, rfl, rfl⟩
    | some err => exact Or.inl ⟨_, _, _, rfl, h2, h3, rfl⟩

theorem parsesGov_of_parsed_none (app : App σ ε) (db : σ) (txDat : Bytes)
    (h : parsed app db false txDat = none) : parsesGov app db txDat = false := by
  unfold parsesGov
  rw [h]

theorem parsesGov_of_parsed_some (app : App σ ε) (db : σ) (txDat : Bytes) (btx : HACTx)
    (h : parsed app db false txDat = some btx) :
    parsesGov app db txDat = btx.Typ.isGovernance := by
  unfold parsesGov
  rw [h]

/-! ## The Admission Gate -/

theorem IfGrantNewMember_db (app : App σ ε) (n : Nat) (t : String) (w : World σ ε) :
    (IfGrantNewMember app n t w).2.db = w.db := rfl

theorem IfProcessProposal_db (app : App σ ε) (n : Nat) (d : Bytes) (w : World σ ε) :
    (IfProcessProposal app n d w).2.db = w.db := rfl

theorem IfAcceptProposal_db (app : App σ ε) (n : Nat) (w : World σ ε) :
    (IfAcceptProposal app n w).2.db = w.db := rfl

theorem typ_of_grant {btx : HACTx} {g : GrantTx} (h : btx.Tx = .Grant g) :
    btx.Typ.isGovernance = true := by
  simp [HACTx.Typ, h, HACTxType.isGovernance]

theorem typ_of_proposal {btx : HACTx} {p : ProposalTx} (h : btx.Tx = .Proposal p) :
    btx.Typ.isGovernance = true := by
  simp [HACTx.Typ, h, HACTxType.isGovernance]

theorem typ_of_settle {btx : HACTx} {s : SettleProposalTx} (h : btx.Tx = .SettleProposal s) :
    btx.Typ.isGovernance = true := by
  simp [HACTx.Typ, h, HACTxType.isGovernance]

theorem typ_of_other {btx : HACTx} {tag : Nat} {d : Bytes} (h : btx.Tx = .Other tag d) :
    btx.Typ.isGovernance = false := by
  simp [HACTx.Typ, h, HACTxType.isGovernance]

/-- Once a governance action has been seen, one more successfully parsed
governance transaction makes the loop fail; from the start, two do. -/
theorem getCodeLoop_multi (app : App σ ε) :
    ∀ (txs : List Bytes) (proposerAct : Bool) (code : VoteCode) (w : World σ ε),
      (if proposerAct = true then 1 else 2) ≤ txs.countP (parsesGov app w.db) →
      ∃ e w', getCodeLoop app txs proposerAct code w = .ret ((0, some e), w')
  | [], pa, code, w, h => by cases pa <;> simp at h
  | stx :: rest, pa, code, w, h => by
    rcases parseTx_cases app stx false w with
      ⟨o, e, w1, hp, hdb, -, hnone⟩ | ⟨btx, w1, hp, hdb, -, hsome, -⟩
    · have hg := parsesGov_of_parsed_none app w.db stx hnone
      rw [List.countP_cons_of_neg _ _ (by simp [hg])] at h
      have ih := getCodeLoop_multi app rest pa code w1 (by rw [hdb]; exact h)
      simpa [getCodeLoop, hp] using ih
    · have hg := parsesGov_of_parsed_some app w.db stx btx hsome
      cases hb : btx.Tx with
      | Grant gtx =>
        rw [typ_of_grant hb] at hg
        rw [List.countP_cons_of_pos _ _ hg] at h
        cases pa with
        | true => simp [getCodeLoop, hp, hb]
        | false =>
          by_cases hl : gtx.Grants.length = 1
          · obtain ⟨g, hgs⟩ := List.length_eq_one.mp hl
            rcases ho : IfGrantNewMember app g.Amount g.Statement w1 with ⟨⟨pass, _ | err⟩, w2⟩
            · have hdb2 : w2.db = w.db := by
                have := IfGrantNewMember_db app g.Amount g.Statement w1
                rw [ho] at this
                exact this.trans hdb
              have ih := getCodeLoop_multi app rest true
                (if pass then app.VoteGrantNewMember else app.VoteRejectNewMember) w2
                (by rw [hdb2]; have h2 : 2 ≤ _ + 1 := h; show 1 ≤ _; omega)
              simpa [getCodeLoop, hp, hb, hgs, ho] using ih
            · simp [getCodeLoop, hp, hb, hgs, ho]
          · simp [getCodeLoop, hp, hb, hl]
      | Proposal ptx =>
        rw [typ_of_proposal hb] at hg
        rw [List.countP_cons_of_pos _ _ hg] at h
        cases pa with
        | true => simp [getCodeLoop, hp, hb]
        | false =>
          rcases ho : IfProcessProposal app ptx.Proposer ptx.Data w1 with ⟨⟨pass, _ | err⟩, w2⟩
          · have hdb2 : w2.db = w.db := by
              have := IfProcessProposal_db app ptx.Proposer ptx.Data w1
              rw [ho] at this
              exact this.trans hdb
            have ih := getCodeLoop_multi app rest true
              (if pass then app.VoteProcessProposal else app.VoteIgnoreProposal) w2
              (by rw [hdb2]; have h2 : 2 ≤ _ + 1 := h; show 1 ≤ _; omega)
            simpa [getCodeLoop, hp, hb, ho] using ih
          · simp [getCodeLoop, hp, hb, ho]
      | SettleProposal stl =>
        rw [typ_of_settle hb] at hg
        rw [List.countP_cons_of_pos _ _ hg] at h
        cases pa with
        | true => simp [getCodeLoop, hp, hb]
        | false =>
          rcases ho : IfAcceptProposal app stl.Proposal w1 with ⟨⟨pass, _ | err⟩, w2⟩
          · have hdb2 : w2.db = w.db := by
              have := IfAcceptProposal_db app stl.Proposal w1
              rw [ho] at this
              exact this.trans hdb
            have ih := getCodeLoop_multi app rest true
              (if pass then app.VoteAcceptProposal else app.VoteRejectProposal) w2
              (by rw [hdb2]; have h2 : 2 ≤ _ + 1 := h; show 1 ≤ _; omega)
            simpa [getCodeLoop, hp, hb, ho] using ih
          · simp [getCodeLoop, hp, hb, ho]
      | Other tag d =>
        rw [typ_of_other hb] at hg
        rw [List.countP_cons_of_neg _ _ (by simp [hg])] at h
        have ih := getCodeLoop_multi app rest pa code w1 (by rw [hdb]; exact h)
        simpa [getCodeLoop, hp, hb] using ih

/-- The Admission Gate always returns (it never panics) and leaves the store's
canonical state, `app.st` and `app.lastBlk` alone. -/
theorem getCodeLoop_frame (app : App σ ε) :
    ∀ (txs : List Bytes) (proposerAct : Bool) (code : VoteCode) (w : World σ ε),
      ∃ r w', getCodeLoop app txs proposerAct code w = .ret (r, w') ∧
        w'.db = w.db ∧ w'.st = w.st ∧ w'.lastBlk = w.lastBlk
  | [], pa, code, w => ⟨_, _, rfl, rfl, rfl, rfl⟩
  | stx :: rest, pa, code, w => by
    have hst := parseTx_st app stx false w
    have hlb : (parseTx app stx false w).2.lastBlk = w.lastBlk := by
      unfold parseTx UnmarshalHACTx
      cases app.decode stx <;> rfl
    rcases parseTx_cases app stx false w with
      ⟨o, e, w1, hp, hdb, -, -⟩ | ⟨btx, w1, hp, hdb, -, -, -⟩
    all_goals
      rw [hp] at hst hlb
      simp only at hst hlb
    · obtain ⟨r, w', h, h1, h2, h3⟩ := getCodeLoop_frame app rest pa code w1
      exact ⟨r, w', by simpa [getCodeLoop, hp] using h, h1.trans hdb, h2.trans hst, h3.trans hlb⟩
    · cases hb : btx.Tx with
      | Grant gtx =>
        cases pa with
        | true => exact ⟨_, _, by simp [getCodeLoop, hp, hb]; rfl, hdb, hst, hlb⟩
        | false =>
          by_cases hl : gtx.Grants.length = 1
          · obtain ⟨g, hgs⟩ := List.length_eq_one.mp hl
            rcases ho : IfGrantNewMember app g.Amount g.Statement w1 with ⟨⟨pass, _ | err⟩, w2⟩
            · have hw2 : w2 = (IfGrantNewMember app g.Amount g.Statement w1).2 := by rw [ho]
              obtain ⟨r, w', h, h1, h2, h3⟩ := getCodeLoop_frame app rest true
                (if pass then app.VoteGrantNewMember else app.VoteRejectNewMember) w2
              refine ⟨r, w', by simpa [getCodeLoop, hp, hb, hgs, ho] using h, ?_, ?_, ?_⟩
              · rw [h1, hw2]; exact hdb
              · rw [h2, hw2]; exact hst
              · rw [h3, hw2]; exact hlb
            · have hw2 : w2 = (IfGrantNewMember app g.Amount g.Statement w1).2 := by rw [ho]
              refine ⟨_, w2, by simp [getCodeLoop, hp, hb, hgs, ho]; rfl, ?_, ?_, ?_⟩
              · rw [hw2]; exact hdb
              · rw [hw2]; exact hst
              · rw [hw2]; exact hlb
          · exact ⟨_, _, by simp [getCodeLoop, hp, hb, hl]; rfl, hdb, hst, hlb⟩
      | Proposal ptx =>
        cases pa with
        | true => exact ⟨_, _, by simp [getCodeLoop, hp, hb]; rfl, hdb, hst, hlb⟩
        | false =>
          rcases ho : IfProcessProposal app ptx.Proposer ptx.Data w1 with ⟨⟨pass, _ | err⟩, w2⟩
          · have hw2 : w2 = (IfProcessProposal app ptx.Proposer ptx.Data w1).2 := by rw [ho]
            obtain ⟨r, w', h, h1, h2, h3⟩ := getCodeLoop_frame app rest true
              (if pass then app.VoteProcessProposal else app.VoteIgnoreProposal) w2
            refine ⟨r, w', by simpa [getCodeLoop, hp, hb, ho] using h, ?_, ?_, ?_⟩
            · rw [h1, hw2]; exact hdb
            · rw [h2, hw2]; exact hst
            · rw [h3, hw2]; exact hlb
          · have hw2 : w2 = (IfProcessProposal app ptx.Proposer ptx.Data w1).2 := by rw [ho]
            refine ⟨_, w2, by simp [getCodeLoop, hp, hb, ho]; rfl, ?_, ?_, ?_⟩
            · rw [hw2]; exact hdb
            · rw [hw2]; exact hst
            · rw [hw2]; exact hlb
      | SettleProposal stl =>
        cases pa with
        | true => exact ⟨_, _, by simp [getCodeLoop, hp, hb]; rfl, hdb, hst, hlb⟩
        | false =>
          rcases ho : IfAcceptProposal app stl.Proposal w1 with ⟨⟨pass, _ | err⟩, w2⟩
          · have hw2 : w2 = (IfAcceptProposal app stl.Proposal w1).2 := by rw [ho]
            obtain ⟨r, w', h, h1, h2, h3⟩ := getCodeLoop_frame app rest true
              (if pass then app.VoteAcceptProposal else app.VoteRejectProposal) w2
            refine ⟨r, w', by simpa [getCodeLoop, hp, hb, ho] using h, ?_, ?_, ?_⟩
            · rw [h1, hw2]; exact hdb
            · rw [h2, hw2]; exact hst
            · rw [h3, hw2]; exact hlb
          · have hw2 : w2 = (IfAcceptProposal app stl.Proposal w1).2 := by rw [ho]
            refine ⟨_, w2, by simp [getCodeLoop, hp, hb, ho]; rfl, ?_, ?_, ?_⟩
            · rw [hw2]; exact hdb
            · rw [hw2]; exact hst
            · rw [hw2]; exact hlb
      | Other tag d =>
        obtain ⟨r, w', h, h1, h2, h3⟩ := getCodeLoop_frame app rest pa code w1
        exact ⟨r, w', by simpa [getCodeLoop, hp, hb] using h, h1.trans hdb, h2.trans hst,
          h3.trans hlb⟩

/-- C1, as stated, fails: both transactions of the batch decode to a Proposal,
the second one does not pass strict verification (nonce 5 against an expected
nonce 0), so `getCode` skips it and returns the code of the first without
error. -/
theorem getCode_two_decoded_governance_no_error :
    2 ≤ List.countP (decodesGov sampleApp) [[2, 1, 0], [2, 2, 5]] ∧
      (getCode sampleApp [[2, 1, 0], [2, 2, 5]] sampleWorld).result = some (3, none) := by
  decide

/-- C1, amended: for every batch in which two or more transactions parse
successfully in strict mode (decode and pass verification with nonce gaps
refused) to a governance type, `getCode` returns an error (with code 0),
whatever the oracle answers. -/
theorem getCode_rejects_two_parsed_governance (app : App σ ε) (txs : List Bytes)
    (w : World σ ε) (h : 2 ≤ txs.countP (parsesGov app w.db)) :
    ∃ e w', getCode app txs w = .ret ((0, some e), w') :=
  getCodeLoop_multi app txs false 0 w h

/-- C1, amended, at a batch of a Proposal and a SettleProposal that both
verify. -/
theorem getCode_rejects_two_parsed_governance_witness :
    2 ≤ List.countP (parsesGov sampleApp sampleWorld.db) [[2, 1, 0], [3, 2, 0]] ∧
      ∃ e w', getCode sampleApp [[2, 1, 0], [3, 2, 0]] sampleWorld = .ret ((0, some e), w') :=
  ⟨by decide, getCode_rejects_two_parsed_governance sampleApp [[2, 1, 0], [3, 2, 0]] sampleWorld
    (by decide)⟩

/-! ## Batch execution -/

theorem newContexts_db : ∀ (hs : List (HACTxType × Handler σ ε)) (w : World σ ε),
    (newContexts hs w).db = w.db
  | [], _ => rfl
  | (_, _) :: hs, w => by
    rw [newContexts, newContexts_db hs]
    rfl

theorem newContexts_st : ∀ (hs : List (HACTxType × Handler σ ε)) (w : World σ ε),
    (newContexts hs w).st = w.st
  | [], _ => rfl
  | (_, _) :: hs, w => by
    rw [newContexts, newContexts_st hs]
    rfl

/-- The two executors run the same loop. -/
theorem processLoop_eq_finalizeLoop (app : App σ ε) (code : VoteCode) :
    ∀ (txs : List Bytes) (i : Nat) (res : List (Option ExecTxResult)) (st : σ) (w : World σ ε),
      processLoop app code txs i res st w = finalizeLoop app code txs i res st w
  | [], _, _, _, _ => rfl
  | stx :: rest, i, res, st, w => by
    simp only [processLoop, finalizeLoop, processLoop_eq_finalizeLoop app code rest]

/-- What the loop of `process` does: it always returns, it leaves the canonical
state alone, and its error is nil exactly when every transaction processes. -/
theorem processLoop_spec (app : App σ ε) (code : VoteCode) :
    ∀ (txs : List Bytes) (i : Nat) (res : List (Option ExecTxResult)) (st : σ) (w : World σ ε),
      ∃ out st1 w1, processLoop app code txs i res st w = .ret (out, st1, w1) ∧ w1.db = w.db ∧
        (out.2.2 = none ↔ everyTxProcesses app code w.db txs st w.ext = true)
  | [], _, _, _, _ => ⟨_, _, _, rfl, rfl, by simp [everyTxProcesses]⟩
  | stx :: rest, i, res, st, w => by
    rcases parseTx_cases app stx false w with
      ⟨o, e, w1, hp, hdb, -, hnone⟩ | ⟨btx, w1, hp, hdb, hext, hsome, -⟩
    · refine ⟨([], [], some e), st, w1, ?_, hdb, ?_⟩
      · simp only [processLoop, hp]
      · simp [everyTxProcesses, hnone]
    · cases hh : lookupHdlr app btx.Typ with
      | none =>
        refine ⟨([], [], some ErrUnexpectedTxProcess), st, w1, ?_, hdb, ?_⟩
        · simp only [processLoop, hp, hh]
        · simp [everyTxProcesses, hsome, hh]
      | some h =>
        cases he : (h.Process w.ext st btx code).err with
        | some err =>
          refine ⟨([], [], some ErrUnexpectedTxProcess), (h.Process w.ext st btx code).st,
            { w1 with ext := (h.Process w.ext st btx code).ext }.log (.Process btx code),
            ?_, hdb, ?_⟩
          · simp only [processLoop, hp, hh, hext, he]
          · simp [everyTxProcesses, hsome, hh, he]
        | none =>
          cases hr : (h.Process w.ext st btx code).res with
          | none =>
            refine ⟨([], [], some ErrUnexpectedTxProcess), (h.Process w.ext st btx code).st,
              { w1 with ext := (h.Process w.ext st btx code).ext }.log (.Process btx code),
              ?_, hdb, ?_⟩
            · simp only [processLoop, hp, hh, hext, he, hr]
            · simp [everyTxProcesses, hsome, hh, he, hr]
          | some result =>
            by_cases hc : result.Code = 0
            · obtain ⟨out, st1, w2, h1, h2, h3⟩ := processLoop_spec app code rest (i + 1)
                (res.set i (some result)) (h.Process w.ext st btx code).st
                ({ w1 with ext := (h.Process w.ext st btx code).ext }.log (.Process btx code))
              refine ⟨out, st1, w2, ?_, h2.trans hdb, ?_⟩
              · simp only [processLoop, hp, hh, hext, he, hr, hc, ne_eq, not_true_eq_false,
                  if_false]
                exact h1
              · rw [h3]
                have hdb2 : ({ w1 with ext := (h.Process w.ext st btx code).ext }.log
                    (.Process btx code)).db = w.db := hdb
                have hext2 : ({ w1 with ext := (h.Process w.ext st btx code).ext }.log
                    (.Process btx code)).ext = (h.Process w.ext st btx code).ext := rfl
                rw [hdb2, hext2]
                simp [everyTxProcesses, hsome, hh, he, hr, hc]
            · refine ⟨([], [], some ErrUnexpectedTxProcess), (h.Process w.ext st btx code).st,
                { w1 with ext := (h.Process w.ext st btx code).ext }.log (.Process btx code),
                ?_, hdb, ?_⟩
              · simp only [processLoop, hp, hh, hext, he, hr, hc, ne_eq, not_false_eq_true,
                  if_true]
              · simp [everyTxProcesses, hsome, hh, he, hr, hc]

theorem everyTxProcesses_parsed (app : App σ ε) (code : VoteCode) (db : σ) :
    ∀ (txs : List Bytes) (st : σ) (ext : ε), everyTxProcesses app code db txs st ext = true →
      ∀ stx ∈ txs, parsed app db false stx ≠ none
  | [], _, _, _ => by simp
  | stx :: rest, st, ext, h => by
    intro x hx
    cases hp : parsed app db false stx with
    | none => simp [everyTxProcesses, hp] at h
    | some btx =>
      cases hh : lookupHdlr app btx.Typ with
      | none => simp [everyTxProcesses, hp, hh] at h
      | some hd =>
        simp only [everyTxProcesses, hp, hh, Bool.and_eq_true] at h
        rcases List.mem_cons.mp hx with rfl | hx
        · simp [hp]
        · exact everyTxProcesses_parsed app code db rest _ _ h.2 x hx

/-! ## Proposal validation -/

theorem getState_db (app : App σ ε) (w : World σ ε) : (getState app w).2.db = w.db := rfl

theorem getState_fst (app : App σ ε) (w : World σ ε) :
    (getState app w).1.obj = app.NewState w.db :=
  rfl

/-- On a non-empty batch `ProcessProposal` always returns a response and a nil
error, and the status is ACCEPT or REJECT according to `batchValid`. -/
theorem ProcessProposal_spec (app : App σ ε) (ord : RangeOrder app) (req : RequestProcessProposal) (w : World σ ε)
    (hne : req.Txs ≠ []) :
    ∃ res w', ProcessProposal app ord req w = .ret ((some res, none), w') ∧
      res.Status = if batchValid app ord req.Txs w = true then .ACCEPT else .REJECT := by
  have hlen : ¬ req.Txs.length = 0 := by
    intro h
    exact hne (List.length_eq_zero.mp h)
  obtain ⟨⟨code, err⟩, w2, hg, hdb2, -, -⟩ := getCodeLoop_frame app req.Txs false 0 (getState app w).2
  have hg2 : getCode app req.Txs (getState app w).2 = .ret ((code, err), w2) := hg
  cases err with
  | some e =>
    refine ⟨{ Status := .REJECT, VoteCode := 0 }, w2, ?_, ?_⟩
    · simp only [ProcessProposal, hlen, if_false, hg2]
    · simp [batchValid, hg2]
  | none =>
    obtain ⟨⟨r, ev, perr⟩, st1, w3, hpl, -, hiff⟩ := processLoop_spec app code req.Txs 0
      (List.replicate req.Txs.length none) (getState app w).1.obj (newContexts ord.entries w2)
    have hpr : process app ord (getState app w).1.obj req.Txs req.ProposerAddress (uint64 req.Height)
        code w2 = .ret ((r, ev, perr), st1, w3) := hpl
    rw [newContexts_db, hdb2, getState_db, getState_fst] at hiff
    have hbv : batchValid app ord req.Txs w = everyTxProcesses app code w.db req.Txs
        (app.NewState w.db) (newContexts ord.entries w2).ext := by
      simp only [batchValid, hg2]
    cases perr with
    | some e =>
      refine ⟨{ Status := .REJECT, VoteCode := code }, w3.mutate (getState app w).1.id st1, ?_, ?_⟩
      · simp only [ProcessProposal, hlen, if_false, hg2, hpr]
      · have : ¬ batchValid app ord req.Txs w = true := by
          rw [hbv, ← hiff]
          simp
        simp [this]
    | none =>
      refine ⟨{ Status := .ACCEPT, VoteCode := code }, w3.mutate (getState app w).1.id st1, ?_, ?_⟩
      · simp only [ProcessProposal, hlen, if_false, hg2, hpr]
      · have : batchValid app ord req.Txs w = true := by
          rw [hbv, ← hiff]
        simp [this]

theorem parsesGov_imp_decodesGov (app : App σ ε) (db : σ) (stx : Bytes)
    (h : parsesGov app db stx = true) : decodesGov app stx = true := by
  unfold parsesGov parsed parseRes at h
  unfold decodesGov
  cases hd : app.decode stx with
  | error e => simp [hd] at h
  | ok btx =>
    rw [hd] at h
    cases hv : app.Verify db btx false with
    | none => simpa [hv] using h
    | some e => simp [hv] at h

theorem parsed_none_of_decodesGov (app : App σ ε) (db : σ) (stx : Bytes)
    (hd : decodesGov app stx = true) (hp : parsesGov app db stx = false) :
    parsed app db false stx = none := by
  unfold parsesGov at hp
  unfold decodesGov at hd
  cases hq : parsed app db false stx with
  | none => rfl
  | some btx =>
    exfalso
    rw [hq] at hp
    unfold parsed parseRes at hq
    cases hdec : app.decode stx with
    | error e => simp [hdec] at hd
    | ok b =>
      rw [hdec] at hq hd
      cases hv : app.Verify db b false with
      | none =>
        simp only [hv, Option.some.injEq] at hq
        subst hq
        simp only at hd hp
        rw [hd] at hp
        exact Bool.noConfusion hp
      | some e => simp [hv] at hq

/-- A batch with two raw governance transactions of which at most one parses
has one that decodes to a governance type and does not parse. -/
theorem exists_unparsed_governance (app : App σ ε) (db : σ) (txs : List Bytes)
    (h2 : 2 ≤ txs.countP (decodesGov app)) (h1 : txs.countP (parsesGov app db) < 2) :
    ∃ stx ∈ txs, parsed app db false stx = none := by
  by_contra hcon
  push_neg at hcon
  have hcongr : ∀ stx ∈ txs, (decodesGov app stx = true ↔ parsesGov app db stx = true) := by
    intro stx hmem
    constructor
    · intro hd
      by_contra hp
      exact hcon stx hmem (parsed_none_of_decodesGov app db stx hd (by simpa using hp))
    · exact parsesGov_imp_decodesGov app db stx
  have := List.countP_congr hcongr
  omega

theorem batchValid_iff (app : App σ ε) (ord : RangeOrder app) (txs : List Bytes) (w : World σ ε) :
    batchValid app ord txs w = true ↔
      ∃ code w2, getCode app txs (getState app w).2 = .ret ((code, none), w2) ∧
        everyTxProcesses app code w.db txs (app.NewState w.db)
          (newContexts ord.entries w2).ext = true := by
  obtain ⟨⟨code, err⟩, w2, hg, -⟩ := getCodeLoop_frame app txs false 0 (getState app w).2
  have hg2 : getCode app txs (getState app w).2 = .ret ((code, err), w2) := hg
  cases err with
  | some e => simp [batchValid, hg2]
  | none =>
    simp only [batchValid, hg2, Outcome.ret.injEq, Prod.mk.injEq, and_true]
    constructor
    · intro h
      exact ⟨code, w2, ⟨rfl, rfl⟩, h⟩
    · rintro ⟨c, w3, ⟨rfl, rfl⟩, h⟩
      exact h

/-- A batch with two raw governance transactions is never valid. -/
theorem batchValid_false_of_two_governance (app : App σ ε) (ord : RangeOrder app) (txs : List Bytes) (w : World σ ε)
    (h : 2 ≤ txs.countP (decodesGov app)) : ¬ batchValid app ord txs w = true := by
  intro hv
  obtain ⟨code, w2, hg, hall⟩ := (batchValid_iff app ord txs w).mp hv
  have hlt : txs.countP (parsesGov app w.db) < 2 := by
    by_contra hge
    obtain ⟨e, w3, herr⟩ := getCodeLoop_multi app txs false 0 (getState app w).2
      (by rw [getState_db]; exact Nat.le_of_not_lt hge)
    have : getCode app txs (getState app w).2 = .ret ((0, some e), w3) := herr
    rw [hg] at this
    simp at this
  obtain ⟨stx, hmem, hnone⟩ := exists_unparsed_governance app w.db txs h hlt
  exact everyTxProcesses_parsed app code w.db txs _ _ hall stx hmem hnone

/-- C2: for every batch in which two or more transactions decode to a
governance type (Grant, Proposal or SettleProposal), `ProcessProposal` returns
a response with status REJECT and a nil error.  Either `getCode` fails on the
second governance action, or one of them fails strict verification and
`process` fails on it. -/
theorem ProcessProposal_rejects_two_governance (app : App σ ε) (ord : RangeOrder app) (req : RequestProcessProposal)
    (w : World σ ε) (h : 2 ≤ req.Txs.countP (decodesGov app)) :
    ∃ res w', ProcessProposal app ord req w = .ret ((some res, none), w') ∧
      res.Status = .REJECT := by
  have hne : req.Txs ≠ [] := by
    intro h0
    rw [h0] at h
    simp at h
  obtain ⟨res, w1, hpp, hst⟩ := ProcessProposal_spec app ord req w hne
  refine ⟨res, w1, hpp, ?_⟩
  rw [hst, if_neg (batchValid_false_of_two_governance app ord req.Txs w h)]

/-- C2 at the batch of two Proposal transactions. -/
theorem ProcessProposal_rejects_two_governance_witness :
    2 ≤ List.countP (decodesGov sampleApp) [[2, 1, 0], [2, 2, 0]] ∧
      ∃ res w', ProcessProposal sampleApp sampleOrder
          { Txs := [[2, 1, 0], [2, 2, 0]], ProposerAddress := [1], Height := 1 } sampleWorld =
          .ret ((some res, none), w') ∧ res.Status = .REJECT :=
  ⟨by decide, ProcessProposal_rejects_two_governance sampleApp sampleOrder
    { Txs := [[2, 1, 0], [2, 2, 0]], ProposerAddress := [1], Height := 1 } sampleWorld
    (by decide)⟩

/-- C9: on a non-empty batch `ProcessProposal` returns a response with a nil
error; its status is ACCEPT exactly when `getCode` succeeds on the full batch
and every transaction decodes and verifies in strict mode, has a registered
handler, and its handler's `Process` returns no error, a non-nil result and
status code 0; otherwise the status is REJECT. -/
theorem ProcessProposal_all_or_nothing (app : App σ ε) (ord : RangeOrder app) (req : RequestProcessProposal)
    (w : World σ ε) (hne : req.Txs ≠ []) :
    ∃ res w', ProcessProposal app ord req w = .ret ((some res, none), w') ∧
      (res.Status = .ACCEPT ↔
        ∃ code w2, getCode app req.Txs (getState app w).2 = .ret ((code, none), w2) ∧
          everyTxProcesses app code w.db req.Txs (app.NewState w.db)
            (newContexts ord.entries w2).ext = true) ∧
      (res.Status ≠ .ACCEPT → res.Status = .REJECT) := by
  obtain ⟨res, w1, hpp, hst⟩ := ProcessProposal_spec app ord req w hne
  refine ⟨res, w1, hpp, ?_, ?_⟩
  · rw [← batchValid_iff, hst]
    by_cases hb : batchValid app ord req.Txs w = true <;> simp [hb]
  · rw [hst]
    by_cases hb : batchValid app ord req.Txs w = true <;> simp [hb]

/-- C9 at a batch of a Proposal and a transfer, which is accepted. -/
theorem ProcessProposal_all_or_nothing_witness :
    ([[2, 1, 0], [0, 2, 0]] : List Bytes) ≠ [] ∧
      ∃ res w', ProcessProposal sampleApp sampleOrder
          { Txs := [[2, 1, 0], [0, 2, 0]], ProposerAddress := [1], Height := 1 } sampleWorld =
          .ret ((some res, none), w') ∧
        (res.Status = .ACCEPT ↔
          ∃ code w2, getCode sampleApp [[2, 1, 0], [0, 2, 0]] (getState sampleApp sampleWorld).2 =
              .ret ((code, none), w2) ∧
            everyTxProcesses sampleApp code sampleWorld.db [[2, 1, 0], [0, 2, 0]]
              (sampleApp.NewState sampleWorld.db) (newContexts sampleOrder.entries w2).ext = true) ∧
        (res.Status ≠ .ACCEPT → res.Status = .REJECT) :=
  ⟨by decide, ProcessProposal_all_or_nothing sampleApp sampleOrder
    { Txs := [[2, 1, 0], [0, 2, 0]], ProposerAddress := [1], Height := 1 } sampleWorld
    (by decide)⟩

/-! ## Grants with a wrong number of records -/

/-- One iteration of the loop of `getCode`: either it returns an error, or it
goes on with the rest of the batch, and then the transaction it looked at was
not a successfully parsed Grant with a number of records other than one. -/
theorem getCodeLoop_step (app : App σ ε) (stx : Bytes) (rest : List Bytes) (pa : Bool)
    (code : VoteCode) (w : World σ ε) :
    (∃ e w1, getCodeLoop app (stx :: rest) pa code w = .ret ((0, some e), w1)) ∨
    (∃ pa1 code1 w1, w1.db = w.db ∧
      getCodeLoop app (stx :: rest) pa code w = getCodeLoop app rest pa1 code1 w1 ∧
      ∀ btx gtx, parsed app w.db false stx = some btx → btx.Tx = .Grant gtx →
        gtx.Grants.length = 1) := by
  rcases parseTx_cases app stx false w with
    ⟨o, e, w1, hp, hdb, -, hnone⟩ | ⟨btx, w1, hp, hdb, -, hsome, -⟩
  · refine Or.inr ⟨pa, code, w1, hdb, by simp only [getCodeLoop, hp], ?_⟩
    intro b g hb
    rw [hnone] at hb
    exact Option.noConfusion hb
  · cases hb : btx.Tx with
    | Grant gtx =>
      cases pa with
      | true => exact Or.inl ⟨_, w1, by simp [getCodeLoop, hp, hb]; rfl⟩
      | false =>
        by_cases hl : gtx.Grants.length = 1
        · obtain ⟨g, hgs⟩ := List.length_eq_one.mp hl
          rcases ho : IfGrantNewMember app g.Amount g.Statement w1 with ⟨⟨pass, _ | err⟩, w2⟩
          · have hw2 : w2 = (IfGrantNewMember app g.Amount g.Statement w1).2 := by rw [ho]
            refine Or.inr ⟨true, (if pass then app.VoteGrantNewMember else app.VoteRejectNewMember),
              w2, by rw [hw2]; exact hdb, by simp [getCodeLoop, hp, hb, hgs, ho], ?_⟩
            intro b g2 hb1 hb2
            rw [hsome] at hb1
            cases hb1
            rw [hb] at hb2
            cases hb2
            exact hl
          · exact Or.inl ⟨_, w2, by simp [getCodeLoop, hp, hb, hgs, ho]; rfl⟩
        · exact Or.inl ⟨_, w1, by simp [getCodeLoop, hp, hb, hl]; rfl⟩
    | Proposal ptx =>
      cases pa with
      | true => exact Or.inl ⟨_, w1, by simp [getCodeLoop, hp, hb]; rfl⟩
      | false =>
        rcases ho : IfProcessProposal app ptx.Proposer ptx.Data w1 with ⟨⟨pass, _ | err⟩, w2⟩
        · have hw2 : w2 = (IfProcessProposal app ptx.Proposer ptx.Data w1).2 := by rw [ho]
          refine Or.inr ⟨true, (if pass then app.VoteProcessProposal else app.VoteIgnoreProposal),
            w2, by rw [hw2]; exact hdb, by simp [getCodeLoop, hp, hb, ho], ?_⟩
          intro b g2 hb1 hb2
          rw [hsome] at hb1
          cases hb1
          rw [hb] at hb2
          cases hb2
        · exact Or.inl ⟨_, w2, by simp [getCodeLoop, hp, hb, ho]; rfl⟩
    | SettleProposal stl =>
      cases pa with
      | true => exact Or.inl ⟨_, w1, by simp [getCodeLoop, hp, hb]; rfl⟩
      | false =>
        rcases ho : IfAcceptProposal app stl.Proposal w1 with ⟨⟨pass, _ | err⟩, w2⟩
        · have hw2 : w2 = (IfAcceptProposal app stl.Proposal w1).2 := by rw [ho]
          refine Or.inr ⟨true, (if pass then app.VoteAcceptProposal else app.VoteRejectProposal),
            w2, by rw [hw2]; exact hdb, by simp [getCodeLoop, hp, hb, ho], ?_⟩
          intro b g2 hb1 hb2
          rw [hsome] at hb1
          cases hb1
          rw [hb] at hb2
          cases hb2
        · exact Or.inl ⟨_, w2, by simp [getCodeLoop, hp, hb, ho]; rfl⟩
    | Other tag d =>
      refine Or.inr ⟨pa, code, w1, hdb, by simp only [getCodeLoop, hp, hb], ?_⟩
      intro b g2 hb1 hb2
      rw [hsome] at hb1
      cases hb1
      rw [hb] at hb2
      cases hb2

/-- A successfully parsed Grant with a number of records other than one, anywhere
in what is left of the batch, makes the loop fail. -/
theorem getCodeLoop_bad_grant (app : App σ ε) :
    ∀ (txs : List Bytes) (pa : Bool) (code : VoteCode) (w : World σ ε),
      (∃ stx ∈ txs, ∃ btx gtx, parsed app w.db false stx = some btx ∧ btx.Tx = .Grant gtx ∧
        gtx.Grants.length ≠ 1) →
      ∃ e w', getCodeLoop app txs pa code w = .ret ((0, some e), w')
  | [], _, _, _, h => by
    obtain ⟨stx, hmem, -⟩ := h
    simp at hmem
  | stx :: rest, pa, code, w, h => by
    rcases getCodeLoop_step app stx rest pa code w with herr | ⟨pa1, code1, w1, hdb, heq, hgood⟩
    · exact herr
    · obtain ⟨x, hmem, btx, gtx, hp, hb, hl⟩ := h
      rcases List.mem_cons.mp hmem with rfl | hrest
      · exact absurd (hgood btx gtx hp hb) hl
      · rw [heq]
        exact getCodeLoop_bad_grant app rest pa1 code1 w1
          ⟨x, hrest, btx, gtx, by rw [hdb]; exact hp, hb, hl⟩

/-- C3, as stated, fails: the only transaction of the batch decodes to a Grant
with no grant record, it does not pass strict verification (nonce 7 against an
expected nonce 0), and `getCode` returns the zero code without error. -/
theorem getCode_unverified_bad_grant_no_error :
    sampleApp.decode [1, 1, 7, 0] = .ok { Validator := 1, Nonce := 7, Tx := .Grant ⟨[]⟩ } ∧
      (getCode sampleApp [[1, 1, 7, 0]] sampleWorld).result = some (0, none) :=
  ⟨rfl, by decide⟩

/-- C3, amended: for every batch containing a transaction that parses
successfully in strict mode to a Grant whose number of grant records is not
one, `getCode` returns an error (with code 0), for every oracle. -/
theorem getCode_rejects_bad_grant (app : App σ ε) (txs : List Bytes) (w : World σ ε)
    (stx : Bytes) (btx : HACTx) (gtx : GrantTx) (hmem : stx ∈ txs)
    (hp : parsed app w.db false stx = some btx) (hb : btx.Tx = .Grant gtx)
    (hl : gtx.Grants.length ≠ 1) :
    ∃ e w', getCode app txs w = .ret ((0, some e), w') :=
  getCodeLoop_bad_grant app txs false 0 w ⟨stx, hmem, btx, gtx, hp, hb, hl⟩

/-- C3, amended, at a batch of a transfer and a verified Grant with two records. -/
theorem getCode_rejects_bad_grant_witness :
    ([1, 1, 0, 2] : Bytes) ∈ ([[0, 3, 0], [1, 1, 0, 2]] : List Bytes) ∧
      parsed sampleApp sampleWorld.db false [1, 1, 0, 2] =
        some { Validator := 1, Nonce := 0, Tx := .Grant ⟨[⟨10, "join"⟩, ⟨10, "join"⟩]⟩ } ∧
      ∃ e w', getCode sampleApp [[0, 3, 0], [1, 1, 0, 2]] sampleWorld = .ret ((0, some e), w') :=
  ⟨by decide, by decide, getCode_rejects_bad_grant sampleApp [[0, 3, 0], [1, 1, 0, 2]]
    sampleWorld [1, 1, 0, 2]
    { Validator := 1, Nonce := 0, Tx := .Grant ⟨[⟨10, "join"⟩, ⟨10, "join"⟩]⟩ }
    ⟨[⟨10, "join"⟩, ⟨10, "join"⟩]⟩ (by decide) (by decide) rfl (by decide)⟩

/-! ## Proposal preparation -/

theorem Outcome.result_eq_some {α β : Type} {o : Outcome (α × β)} {a : α}
    (h : o.result = some a) : ∃ b, o = .ret (a, b) := by
  cases o with
  | panic => simp [Outcome.result] at h
  | ret p =>
    obtain ⟨x, y⟩ := p
    simp only [Outcome.result, Option.some.injEq] at h
    exact ⟨y, by rw [h]⟩

theorem decodesGov_of_decode (app : App σ ε) (stx : Bytes) (btx : HACTx)
    (h : app.decode stx = .ok btx) : decodesGov app stx = btx.Typ.isGovernance := by
  unfold decodesGov
  rw [h]

/-- The first loop of `PrepareProposal` keeps at most one raw governance
transaction: none while `proposerAct` is false, one afterwards. -/
theorem prepareFilter_count (app : App σ ε) (addr : Bytes) (st : σ) :
    ∀ (txs : List Bytes) (pa : Bool) (acc : List Bytes) (w : World σ ε) (out : List Bytes)
      (w' : World σ ε),
      acc.countP (decodesGov app) ≤ (if pa = true then 1 else 0) →
      prepareFilter app addr st txs pa acc w = .ret (.ok out, w') →
      out.countP (decodesGov app) ≤ 1
  | [], pa, acc, w, out, w', hacc, h => by
    simp only [prepareFilter, Outcome.ret.injEq, Prod.mk.injEq, Except.ok.injEq] at h
    rw [← h.1]
    cases pa
    · exact hacc.trans (by decide)
    · exact hacc
  | stx :: rest, pa, acc, w, out, w', hacc, h => by
    rcases parseTx_cases app stx false w with
      ⟨o, e, w1, hp, -, -, -⟩ | ⟨btx, w1, hp, -, -, -, hdec⟩
    · simp only [prepareFilter, hp] at h
      exact prepareFilter_count app addr st rest pa acc w1 out w' hacc h
    · have hd := decodesGov_of_decode app stx btx hdec
      by_cases hg : btx.Typ.isGovernance = true
      · cases pa with
        | true =>
          simp only [prepareFilter, hp, hg, if_true] at h
          exact prepareFilter_count app addr st rest true acc w1 out w' hacc h
        | false =>
          rcases hf : app.FindAccount st addr with ⟨_ | acct, _ | err⟩
          · simp [prepareFilter, hp, hg, hf] at h
          · simp [prepareFilter, hp, hg, hf] at h
          · by_cases hi : acct.Index = btx.Validator
            · simp only [prepareFilter, hp, hg, hf, hi, if_true, Bool.false_eq_true,
                if_false] at h
              refine prepareFilter_count app addr st rest true (acc ++ [stx]) _ out w' ?_ h
              have h0 : acc.countP (decodesGov app) ≤ 0 := hacc
              rw [List.countP_append]
              have h1 : List.countP (decodesGov app) [stx] ≤ 1 := by
                have := List.countP_le_length (decodesGov app) (l := [stx])
                simpa using this
              show _ ≤ 1
              omega
            · simp only [prepareFilter, hp, hg, hf, hi, if_true, Bool.false_eq_true,
                if_false] at h
              exact prepareFilter_count app addr st rest false acc _ out w' hacc h
          · simp [prepareFilter, hp, hg, hf] at h
      · simp only [prepareFilter, hp, hg, if_false] at h
        refine prepareFilter_count app addr st rest pa (acc ++ [stx]) w1 out w' ?_ h
        rw [hd] at *
        rw [List.countP_append]
        have : List.countP (decodesGov app) [stx] = 0 := by
          simp [List.countP_cons, decodesGov_of_decode app stx btx hdec, hg]
        rw [this]
        exact hacc

/-- The second loop of `PrepareProposal` appends to its output a subsequence of
the transactions it is given. -/
theorem prepareLoop_sublist (app : App σ ε) (code : VoteCode) :
    ∀ (rest : List Bytes) (st : σ) (txs : List Bytes) (w : World σ ε) (out : List Bytes)
      (w' : World σ ε),
      prepareLoop app code rest st txs w = .ret (out, w') →
      ∃ l, l.Sublist rest ∧ out = txs ++ l
  | [], st, txs, w, out, w', h => by
    simp only [prepareLoop, Outcome.ret.injEq, Prod.mk.injEq] at h
    exact ⟨[], List.Sublist.refl _, by simp [h.1]⟩
  | stx :: rest, st, txs, w, out, w', h => by
    have skip : ∀ (st1 : σ) (w1 : World σ ε), prepareLoop app code rest st1 txs w1 = .ret (out, w') →
        ∃ l, l.Sublist (stx :: rest) ∧ out = txs ++ l := by
      intro st1 w1 h1
      obtain ⟨l, hl, ho⟩ := prepareLoop_sublist app code rest st1 txs w1 out w' h1
      exact ⟨l, hl.cons stx, ho⟩
    rcases parseTx_cases app stx false (w.log .Clone) with
      ⟨o, e, w1, hp, -, -, -⟩ | ⟨btx, w1, hp, -, -, -, -⟩
    · simp only [prepareLoop, hp] at h
      exact skip _ _ h
    · cases hh : lookupHdlr app btx.Typ with
      | none =>
        simp only [prepareLoop, hp, hh] at h
        exact skip _ _ h
      | some hd =>
        cases he : (hd.Prepare w1.ext (app.Clone st) btx code).err with
        | some err =>
          simp only [prepareLoop, hp, hh, he] at h
          exact skip _ _ h
        | none =>
          cases hr : (hd.Prepare w1.ext (app.Clone st) btx code).res with
          | none =>
            simp only [prepareLoop, hp, hh, he, hr] at h
            exact skip _ _ h
          | some result =>
            by_cases hc : result.Code = 0
            · simp only [prepareLoop, hp, hh, he, hr, hc, ne_eq, not_true_eq_false,
                if_false] at h
              obtain ⟨l, hl, ho⟩ := prepareLoop_sublist app code rest _ (txs ++ [stx]) _ out w' h
              exact ⟨stx :: l, hl.cons₂ stx, by simp [ho]⟩
            · simp only [prepareLoop, hp, hh, he, hr, hc, ne_eq, not_false_eq_true,
                if_true] at h
              exact skip _ _ h

/-- C4: whenever `PrepareProposal` returns a response, at most one transaction
of its list decodes to a governance type (Grant, Proposal, SettleProposal),
for every input batch, proposer, store, registry and oracle. -/
theorem PrepareProposal_at_most_one_governance (app : App σ ε) (ord : RangeOrder app)
    (proposal : RequestPrepareProposal) (w : World σ ε) (res : ResponsePrepareProposal)
    (err : Option Err) (h : (PrepareProposal app ord proposal w).result = some (some res, err)) :
    res.Txs.countP (decodesGov app) ≤ 1 := by
  obtain ⟨w', h⟩ := Outcome.result_eq_some h
  unfold PrepareProposal at h
  simp only at h
  cases hf : prepareFilter app proposal.ProposerAddress (getState app w).1.obj proposal.Txs false []
      (newContexts ord.entries (getState app w).2) with
  | panic => simp [hf] at h
  | ret p =>
    obtain ⟨r, w3⟩ := p
    cases r with
    | error e => simp [hf] at h
    | ok prepareTxs =>
      have hcount := prepareFilter_count app _ _ _ _ _ _ _ _ (by simp) hf
      rw [hf] at h
      simp only at h
      cases hg : getCode app prepareTxs w3 with
      | panic => simp [hg] at h
      | ret q =>
        obtain ⟨⟨code, gerr⟩, w4⟩ := q
        cases gerr with
        | some ge =>
          rw [hg] at h
          simp only [Outcome.ret.injEq, Prod.mk.injEq, Option.some.injEq] at h
          rw [← h.1.1]
          simp
        | none =>
          rw [hg] at h
          simp only at h
          cases hl : prepareLoop app code prepareTxs (getState app w).1.obj [] w4 with
          | panic => simp [hl] at h
          | ret t =>
            obtain ⟨txs, w5⟩ := t
            rw [hl] at h
            simp only [Outcome.ret.injEq, Prod.mk.injEq, Option.some.injEq] at h
            obtain ⟨l, hsub, hout⟩ := prepareLoop_sublist app code _ _ _ _ _ _ hl
            rw [← h.1.1]
            simp only [List.nil_append] at hout
            rw [hout]
            exact (hsub.countP_le _).trans hcount

/-- C4 at a batch with three governance transactions acted by validators 1 and
2, proposed by validator 2: only the first one acted by validator 2 survives. -/
theorem PrepareProposal_at_most_one_governance_witness :
    (PrepareProposal sampleApp sampleOrder
        { Txs := [[2, 1, 0], [0, 2, 0], [3, 2, 0], [2, 2, 0]], ProposerAddress := [2],
          Height := 1 } sampleWorld).result =
        some (some { Txs := [[0, 2, 0], [3, 2, 0]] }, none) ∧
      List.countP (decodesGov sampleApp) [[0, 2, 0], [3, 2, 0]] ≤ 1 :=
  ⟨by decide, PrepareProposal_at_most_one_governance sampleApp sampleOrder
    { Txs := [[2, 1, 0], [0, 2, 0], [3, 2, 0], [2, 2, 0]], ProposerAddress := [2], Height := 1 }
    sampleWorld { Txs := [[0, 2, 0], [3, 2, 0]] } none (by decide)⟩

/-! ## The vote code of a single governance action -/

theorem parseTx_calls (app : App σ ε) (txDat : Bytes) (a : Bool) (w : World σ ε) :
    ∃ l, (parseTx app txDat a w).2.calls = w.calls ++ l ∧ ∀ c ∈ l, c.isOracle = false := by
  unfold parseTx UnmarshalHACTx
  cases app.decode txDat with
  | error e => exact ⟨[.Unmarshal txDat], rfl, by simp [Call.isOracle]⟩
  | ok btx =>
    cases hv : app.Verify w.db btx a with
    | none =>
      exact ⟨[.Unmarshal txDat, .Verify btx a], by simp [World.log], by simp [Call.isOracle]⟩
    | some e =>
      exact ⟨[.Unmarshal txDat, .Verify btx a], by simp [World.log], by simp [Call.isOracle]⟩

/-- A transaction that does not parse to a governance type is passed over. -/
theorem getCodeLoop_skip (app : App σ ε) (stx : Bytes) (rest : List Bytes) (pa : Bool)
    (code : VoteCode) (w : World σ ε) (h : parsesGov app w.db stx = false) :
    getCodeLoop app (stx :: rest) pa code w =
      getCodeLoop app rest pa code (parseTx app stx false w).2 := by
  rcases parseTx_cases app stx false w with
    ⟨o, e, w1, hp, -, -, -⟩ | ⟨btx, w1, hp, -, -, hsome, -⟩
  · simp only [getCodeLoop, hp]
  · rw [parsesGov_of_parsed_some app w.db stx btx hsome] at h
    cases hb : btx.Tx with
    | Grant gtx => rw [typ_of_grant hb] at h; exact Bool.noConfusion h
    | Proposal ptx => rw [typ_of_proposal hb] at h; exact Bool.noConfusion h
    | SettleProposal stl => rw [typ_of_settle hb] at h; exact Bool.noConfusion h
    | Other tag d => simp only [getCodeLoop, hp, hb]

/-- On a batch without successfully parsed governance transaction the loop
returns the code it was entered with, without error and without a query to the
oracle. -/
theorem getCodeLoop_no_gov (app : App σ ε) :
    ∀ (txs : List Bytes) (pa : Bool) (code : VoteCode) (w : World σ ε),
      (∀ stx ∈ txs, parsesGov app w.db stx = false) →
      ∃ w', getCodeLoop app txs pa code w = .ret ((code, none), w') ∧ w'.ext = w.ext ∧
        ∃ l, w'.calls = w.calls ++ l ∧ ∀ c ∈ l, c.isOracle = false
  | [], _, _, w, _ => ⟨w, rfl, rfl, [], by simp, by simp⟩
  | stx :: rest, pa, code, w, h => by
    rw [getCodeLoop_skip app stx rest pa code w (h stx (List.mem_cons_self _ _))]
    obtain ⟨w', h1, h2, l, h3, h4⟩ := getCodeLoop_no_gov app rest pa code
      (parseTx app stx false w).2 (by
        rw [parseTx_db]
        exact fun x hx => h x (List.mem_cons_of_mem _ hx))
    obtain ⟨l0, h5, h6⟩ := parseTx_calls app stx false w
    refine ⟨w', h1, h2.trans (parseTx_ext app stx false w), l0 ++ l, ?_, ?_⟩
    · rw [h3, h5, List.append_assoc]
    · intro c hc
      rcases List.mem_append.mp hc with hc | hc
      · exact h6 c hc
      · exact h4 c hc

theorem parsedGovs_cons_of_not (app : App σ ε) (db : σ) (stx : Bytes) (rest : List Bytes)
    (h : parsesGov app db stx = false) :
    parsedGovs app db (stx :: rest) = parsedGovs app db rest := by
  unfold parsesGov at h
  unfold parsedGovs
  cases hp : parsed app db false stx with
  | none => simp [List.filterMap_cons, hp]
  | some btx =>
    rw [hp] at h
    simp only at h
    simp [List.filterMap_cons, hp, List.filter_cons, h]

theorem parsedGovs_cons_of_gov (app : App σ ε) (db : σ) (stx : Bytes) (rest : List Bytes)
    (h : parsesGov app db stx = true) :
    ∃ btx, parsed app db false stx = some btx ∧
      parsedGovs app db (stx :: rest) = btx :: parsedGovs app db rest := by
  unfold parsesGov at h
  unfold parsedGovs
  cases hp : parsed app db false stx with
  | none => simp [hp] at h
  | some btx =>
    rw [hp] at h
    simp only at h
    exact ⟨btx, rfl, by simp [List.filterMap_cons, hp, List.filter_cons, h]⟩

theorem parsedGovs_eq_nil (app : App σ ε) (db : σ) :
    ∀ (txs : List Bytes), parsedGovs app db txs = [] → ∀ stx ∈ txs, parsesGov app db stx = false
  | [], _ => by simp
  | stx :: rest, h => by
    intro x hx
    cases hg : parsesGov app db stx with
    | true =>
      obtain ⟨btx, -, hc⟩ := parsedGovs_cons_of_gov app db stx rest hg
      rw [hc] at h
      exact List.noConfusion h
    | false =>
      rw [parsedGovs_cons_of_not app db stx rest hg] at h
      rcases List.mem_cons.mp hx with rfl | hx
      · exact hg
      · exact parsedGovs_eq_nil app db rest h x hx

/-- If the loop, entered without a governance action seen, always steps over
the transaction `btx` to the code `c`, then on a batch whose only successfully
parsed governance transaction is `btx` it returns `c` without error. -/
theorem getCodeLoop_single (app : App σ ε) (btx : HACTx) (c : VoteCode) (ext0 : ε)
    (hstep : ∀ (stx : Bytes) (rest : List Bytes) (code : VoteCode) (w1 : World σ ε),
      parsed app w1.db false stx = some btx → w1.ext = ext0 →
      ∃ w2, w2.db = w1.db ∧
        getCodeLoop app (stx :: rest) false code w1 = getCodeLoop app rest true c w2) :
    ∀ (txs : List Bytes) (code : VoteCode) (w : World σ ε), w.ext = ext0 →
      parsedGovs app w.db txs = [btx] →
      ∃ w', getCodeLoop app txs false code w = .ret ((c, none), w')
  | [], _, _, _, h => by simp [parsedGovs] at h
  | stx :: rest, code, w, hext, h => by
    cases hg : parsesGov app w.db stx with
    | false =>
      rw [parsedGovs_cons_of_not app w.db stx rest hg] at h
      rw [getCodeLoop_skip app stx rest false code w hg]
      exact getCodeLoop_single app btx c ext0 hstep rest code _
        ((parseTx_ext app stx false w).trans hext) (by rw [parseTx_db]; exact h)
    | true =>
      obtain ⟨b, hp, hc⟩ := parsedGovs_cons_of_gov app w.db stx rest hg
      rw [hc] at h
      simp only [List.cons.injEq] at h
      obtain ⟨rfl, hnil⟩ := h
      obtain ⟨w2, hdb2, hgo⟩ := hstep stx rest code w hp hext
      rw [hgo]
      obtain ⟨w', h1, -⟩ := getCodeLoop_no_gov app rest true c w2
        (by rw [hdb2]; exact parsedGovs_eq_nil app w.db rest hnil)
      exact ⟨w', h1⟩

theorem getCodeLoop_grant_step (app : App σ ε) (btx : HACTx) (g : GrantRecord) (pass : Bool)
    (ext0 ext1 : ε) (hb : btx.Tx = .Grant ⟨[g]⟩)
    (ho : app.IfGrantNewMember ext0 g.Amount g.Statement = ((pass, none), ext1))
    (stx : Bytes) (rest : List Bytes) (code : VoteCode) (w1 : World σ ε)
    (hp : parsed app w1.db false stx = some btx) (hext : w1.ext = ext0) :
    ∃ w2, w2.db = w1.db ∧ getCodeLoop app (stx :: rest) false code w1 =
      getCodeLoop app rest true
        (if pass then app.VoteGrantNewMember else app.VoteRejectNewMember) w2 := by
  rcases parseTx_cases app stx false w1 with
    ⟨o, e, wp, hpt, -, -, hnone⟩ | ⟨b, wp, hpt, hdb, hx, hsome, -⟩
  · rw [hnone] at hp
    exact Option.noConfusion hp
  · rw [hsome] at hp
    cases hp
    obtain ⟨w2, hI, hdb2⟩ : ∃ w2, IfGrantNewMember app g.Amount g.Statement wp = ((pass, none), w2) ∧ w2.db = wp.db := by
      have h1 : (IfGrantNewMember app g.Amount g.Statement wp).1 = (pass, none) := by
        simp only [IfGrantNewMember, hx, hext, ho]
      exact ⟨_, Prod.ext h1 rfl, rfl⟩
    exact ⟨w2, hdb2.trans hdb, by simp [getCodeLoop, hpt, hb, hI]⟩

theorem getCodeLoop_proposal_step (app : App σ ε) (btx : HACTx) (p : ProposalTx) (pass : Bool)
    (ext0 ext1 : ε) (hb : btx.Tx = .Proposal p)
    (ho : app.IfProcessProposal ext0 p.Proposer p.Data = ((pass, none), ext1))
    (stx : Bytes) (rest : List Bytes) (code : VoteCode) (w1 : World σ ε)
    (hp : parsed app w1.db false stx = some btx) (hext : w1.ext = ext0) :
    ∃ w2, w2.db = w1.db ∧ getCodeLoop app (stx :: rest) false code w1 =
      getCodeLoop app rest true
        (if pass then app.VoteProcessProposal else app.VoteIgnoreProposal) w2 := by
  rcases parseTx_cases app stx false w1 with
    ⟨o, e, wp, hpt, -, -, hnone⟩ | ⟨b, wp, hpt, hdb, hx, hsome, -⟩
  · rw [hnone] at hp
    exact Option.noConfusion hp
  · rw [hsome] at hp
    cases hp
    obtain ⟨w2, hI, hdb2⟩ : ∃ w2, IfProcessProposal app p.Proposer p.Data wp = ((pass, none), w2) ∧ w2.db = wp.db := by
      have h1 : (IfProcessProposal app p.Proposer p.Data wp).1 = (pass, none) := by
        simp only [IfProcessProposal, hx, hext, ho]
      exact ⟨_, Prod.ext h1 rfl, rfl⟩
    exact ⟨w2, hdb2.trans hdb, by simp [getCodeLoop, hpt, hb, hI]⟩

theorem getCodeLoop_settle_step (app : App σ ε) (btx : HACTx) (s : SettleProposalTx)
    (pass : Bool) (ext0 ext1 : ε) (hb : btx.Tx = .SettleProposal s)
    (ho : app.IfAcceptProposal ext0 s.Proposal = ((pass, none), ext1))
    (stx : Bytes) (rest : List Bytes) (code : VoteCode) (w1 : World σ ε)
    (hp : parsed app w1.db false stx = some btx) (hext : w1.ext = ext0) :
    ∃ w2, w2.db = w1.db ∧ getCodeLoop app (stx :: rest) false code w1 =
      getCodeLoop app rest true
        (if pass then app.VoteAcceptProposal else app.VoteRejectProposal) w2 := by
  rcases parseTx_cases app stx false w1 with
    ⟨o, e, wp, hpt, -, -, hnone⟩ | ⟨b, wp, hpt, hdb, hx, hsome, -⟩
  · rw [hnone] at hp
    exact Option.noConfusion hp
  · rw [hsome] at hp
    cases hp
    obtain ⟨w2, hI, hdb2⟩ : ∃ w2, IfAcceptProposal app s.Proposal wp = ((pass, none), w2) ∧ w2.db = wp.db := by
      have h1 : (IfAcceptProposal app s.Proposal wp).1 = (pass, none) := by
        simp only [IfAcceptProposal, hx, hext, ho]
      exact ⟨_, Prod.ext h1 rfl, rfl⟩
    exact ⟨w2, hdb2.trans hdb, by simp [getCodeLoop, hpt, hb, hI]⟩

/-- C10: when the transactions of the batch that parse successfully (in the
strict mode `getCode` uses) include exactly one governance transaction and the
oracle query for it succeeds, `getCode` returns without error the code chosen
by the oracle's boolean: for a Grant with exactly one record
`VoteGrantNewMember` if true else `VoteRejectNewMember`, for a Proposal
`VoteProcessProposal` / `VoteIgnoreProposal`, for a SettleProposal
`VoteAcceptProposal` / `VoteRejectProposal`.  When they include no governance
transaction it returns the zero code without error and without a query to the
oracle. -/
theorem getCode_single_governance (app : App σ ε) (txs : List Bytes) (w : World σ ε) :
    (∀ btx g pass ext1, parsedGovs app w.db txs = [btx] → btx.Tx = .Grant ⟨[g]⟩ →
      app.IfGrantNewMember w.ext g.Amount g.Statement = ((pass, none), ext1) →
      ∃ w', getCode app txs w =
        .ret ((if pass then app.VoteGrantNewMember else app.VoteRejectNewMember, none), w')) ∧
    (∀ btx p pass ext1, parsedGovs app w.db txs = [btx] → btx.Tx = .Proposal p →
      app.IfProcessProposal w.ext p.Proposer p.Data = ((pass, none), ext1) →
      ∃ w', getCode app txs w =
        .ret ((if pass then app.VoteProcessProposal else app.VoteIgnoreProposal, none), w')) ∧
    (∀ btx s pass ext1, parsedGovs app w.db txs = [btx] → btx.Tx = .SettleProposal s →
      app.IfAcceptProposal w.ext s.Proposal = ((pass, none), ext1) →
      ∃ w', getCode app txs w =
        .ret ((if pass then app.VoteAcceptProposal else app.VoteRejectProposal, none), w')) ∧
    (parsedGovs app w.db txs = [] →
      ∃ w', getCode app txs w = .ret ((0, none), w') ∧ w'.ext = w.ext ∧
        ∃ l, w'.calls = w.calls ++ l ∧ ∀ c ∈ l, c.isOracle = false) := by
  refine ⟨?_, ?_, ?_, ?_⟩
  · intro btx g pass ext1 hone hb ho
    exact getCodeLoop_single app btx _ w.ext
      (getCodeLoop_grant_step app btx g pass w.ext ext1 hb ho) txs 0 w rfl hone
  · intro btx p pass ext1 hone hb ho
    exact getCodeLoop_single app btx _ w.ext
      (getCodeLoop_proposal_step app btx p pass w.ext ext1 hb ho) txs 0 w rfl hone
  · intro btx s pass ext1 hone hb ho
    exact getCodeLoop_single app btx _ w.ext
      (getCodeLoop_settle_step app btx s pass w.ext ext1 hb ho) txs 0 w rfl hone
  · intro hnil
    exact getCodeLoop_no_gov app txs false 0 w (parsedGovs_eq_nil app w.db txs hnil)

/-- C10 at the batch of one Grant with one record (the oracle says yes: code
`VoteGrantNewMember`), with an unverifiable Proposal and a transfer around it,
and at a batch of two transfers (zero code). -/
theorem getCode_single_governance_witness :
    (∃ w', getCode sampleApp [[2, 2, 9], [1, 1, 0, 1], [0, 3, 0]] sampleWorld =
      .ret ((sampleApp.VoteGrantNewMember, none), w')) ∧
    (∃ w', getCode sampleApp [[0, 3, 0], [0, 4, 0]] sampleWorld = .ret ((0, none), w') ∧
      w'.ext = sampleWorld.ext ∧
      ∃ l, w'.calls = sampleWorld.calls ++ l ∧ ∀ c ∈ l, c.isOracle = false) :=
  ⟨(getCode_single_governance sampleApp [[2, 2, 9], [1, 1, 0, 1], [0, 3, 0]] sampleWorld).1
      { Validator := 1, Nonce := 0, Tx := .Grant ⟨[⟨10, "join"⟩]⟩ } ⟨10, "join"⟩ true 0
      (by decide) rfl rfl,
    (getCode_single_governance sampleApp [[0, 3, 0], [0, 4, 0]] sampleWorld).2.2.2
      (by decide)⟩

/-! ## Call failures -/

/-- C5, the failing path: when the first transaction of the batch parses to a
governance type and the lookup of the proposer's account fails, `PrepareProposal`
returns a nil response together with that error (line 84) instead of degrading
to an empty proposal. -/
theorem PrepareProposal_returns_FindAccount_error (app : App σ ε) (ord : RangeOrder app)
    (proposal : RequestPrepareProposal) (w : World σ ε) (stx : Bytes) (rest : List Bytes)
    (btx : HACTx) (o : Option Account) (err : Err) (htx : proposal.Txs = stx :: rest)
    (hp : parsed app w.db false stx = some btx) (hg : btx.Typ.isGovernance = true)
    (hf : app.FindAccount (app.NewState w.db) proposal.ProposerAddress = (o, some err)) :
    (PrepareProposal app ord proposal w).result = some (none, some err) := by
  have hdb : (newContexts ord.entries (getState app w).2).db = w.db := by
    rw [newContexts_db, getState_db]
  rcases parseTx_cases app stx false (newContexts ord.entries (getState app w).2) with
    ⟨o1, e, w1, hpt, -, -, hnone⟩ | ⟨b, w1, hpt, -, -, hsome, -⟩
  · rw [hdb, hp] at hnone
    exact Option.noConfusion hnone
  · rw [hdb, hp] at hsome
    cases hsome
    simp only [PrepareProposal, htx, prepareFilter, hpt, hg, if_true, Bool.false_eq_true,
      if_false, getState_fst, hf, Outcome.result]

/-- C5 at a batch of one Proposal, with a proposer address the store has no
account for. -/
theorem PrepareProposal_returns_FindAccount_error_witness :
    (PrepareProposal sampleApp sampleOrder { Txs := [[2, 1, 0]], ProposerAddress := [], Height := 1 }
      sampleWorld).result = some (none, some "account not found") :=
  PrepareProposal_returns_FindAccount_error sampleApp sampleOrder
    { Txs := [[2, 1, 0]], ProposerAddress := [], Height := 1 } sampleWorld [2, 1, 0] []
    { Validator := 1, Nonce := 0, Tx := .Proposal { Proposer := 1, Data := [] } } none
    "account not found" rfl (by decide) (by decide) rfl

/-- C6, the failing path: when the transaction parses (leniently), its type has
a handler, and the handler's `Check` returns an error together with a nil
result, `CheckTx` dereferences the nil result (`res.Code = 1`, line 56) and
panics. -/
theorem CheckTx_panics_on_nil_result (app : App σ ε) (check : RequestCheckTx) (w : World σ ε)
    (btx : HACTx) (h : Handler σ ε) (err : Err)
    (hp : parsed app w.db true check.Tx = some btx) (hh : lookupHdlr app btx.Typ = some h)
    (he : (h.Check w.ext w.db btx).err = some err) (hr : (h.Check w.ext w.db btx).res = none) :
    CheckTx app check w = .panic := by
  rcases parseTx_cases app check.Tx true w with
    ⟨o1, e, w1, hpt, -, -, hnone⟩ | ⟨b, w1, hpt, hdb, hext, hsome, -⟩
  · rw [hp] at hnone
    exact Option.noConfusion hnone
  · rw [hp] at hsome
    cases hsome
    simp only [CheckTx, hpt, hh, hdb, hext, he, hr]

/-- C6 at a transfer whose sender the handler does not know. -/
theorem CheckTx_panics_on_nil_result_witness :
    (sampleHandler.Check sampleWorld.ext sampleWorld.db
        { Validator := 0, Nonce := 0, Tx := .Other 0 [] }).res = none ∧
      (sampleHandler.Check sampleWorld.ext sampleWorld.db
        { Validator := 0, Nonce := 0, Tx := .Other 0 [] }).err = some "unknown account" ∧
      CheckTx sampleApp { Tx := [0, 0, 0] } sampleWorld = .panic :=
  ⟨rfl, rfl, CheckTx_panics_on_nil_result sampleApp { Tx := [0, 0, 0] } sampleWorld
    { Validator := 0, Nonce := 0, Tx := .Other 0 [] } sampleHandler "unknown account"
    (by decide) rfl rfl rfl⟩

/-! ## Commit -/

/-- C7, as stated, fails: the store refuses to adopt the working state, `Commit`
returns that error, and `app.st` still points to the working state. -/
theorem Commit_failed_adopt_keeps_st :
    ∃ w', Commit sampleApp { sampleWorld with db := 5, st := some { id := 0, obj := 3 } } =
        .ret ((none, some "stale state"), w') ∧ w'.st = some { id := 0, obj := 3 } :=
  ⟨_, rfl, rfl⟩

/-- C7, amended: `Commit` always returns; when the store's adopt operation
(`SetState`) succeeds it returns a response and a nil error and `app.st` is nil
afterwards; when it fails `Commit` returns that error with no response and
`app.st` is what it was. -/
theorem Commit_clears_st_on_success (app : App σ ε) (w : World σ ε) :
    ∃ r w', Commit app w = .ret (r, w') ∧
      ((app.SetState w.db (w.st.map Ptr.obj)).2 = none →
        r.1.isSome = true ∧ r.2 = none ∧ w'.st = none) ∧
      (∀ err, (app.SetState w.db (w.st.map Ptr.obj)).2 = some err →
        r = (none, some err) ∧ w'.st = w.st) := by
  cases h : (app.SetState w.db (w.st.map Ptr.obj)).2 with
  | none =>
    refine ⟨(some { RetainHeight := 0 }, none),
      { ({ w with db := (app.SetState w.db (w.st.map Ptr.obj)).1 }.log .SetState) with
        st := none },
      ?_, ?_, ?_⟩
    · simp only [Commit, h]
    · intro _
      exact ⟨rfl, rfl, rfl⟩
    · intro err he
      exact Option.noConfusion he
  | some e =>
    refine ⟨(none, some e),
      { w with db := (app.SetState w.db (w.st.map Ptr.obj)).1 }.log .SetState, ?_, ?_, ?_⟩
    · simp only [Commit, h]
    · intro he
      exact Option.noConfusion he
    · intro err he
      cases he
      exact ⟨rfl, rfl⟩

/-! ## Admission against validation and finalization -/

/-- A transaction of the batch that does not parse in strict mode makes the
loop of `finalize` return an error. -/
theorem finalizeLoop_unparsed (app : App σ ε) (code : VoteCode) (txs : List Bytes) (i : Nat)
    (res : List (Option ExecTxResult)) (st : σ) (w : World σ ε) (stx : Bytes) (hmem : stx ∈ txs)
    (hp : parsed app w.db false stx = none) :
    ∃ r ev e st1 w1, finalizeLoop app code txs i res st w = .ret ((r, ev, some e), st1, w1) := by
  obtain ⟨⟨r, ev, err⟩, st1, w1, hrun, -, hiff⟩ := processLoop_spec app code txs i res st w
  rw [processLoop_eq_finalizeLoop] at hrun
  cases err with
  | some e => exact ⟨r, ev, e, st1, w1, hrun⟩
  | none =>
    exact absurd hp (everyTxProcesses_parsed app code w.db txs st w.ext (hiff.mp rfl) stx hmem)

/-- C11: a transaction that decodes, whose verification succeeds with nonce
gaps allowed and fails with nonce gaps refused, and whose registered handler's
`Check` succeeds (nil error, result with code 0) is admitted by `CheckTx` with
code 0, while `ProcessProposal` on any batch containing it returns REJECT and
`FinalizeBlock` on any batch containing it returns an error and no response. -/
theorem lenient_admission_strict_validation (app : App σ ε) (ord : RangeOrder app) (w : World σ ε) (stx : Bytes)
    (btx : HACTx) (h : Handler σ ε) (res : ResponseCheckTx)
    (hlen : parsed app w.db true stx = some btx) (hstrict : parsed app w.db false stx = none)
    (hh : lookupHdlr app btx.Typ = some h) (hres : (h.Check w.ext w.db btx).res = some res)
    (herr : (h.Check w.ext w.db btx).err = none) (hcode : res.Code = 0) :
    (∃ r w', CheckTx app { Tx := stx } w = .ret ((some r, none), w') ∧ r.Code = 0) ∧
    (∀ req : RequestProcessProposal, stx ∈ req.Txs →
      ∃ r w', ProcessProposal app ord req w = .ret ((some r, none), w') ∧ r.Status = .REJECT) ∧
    (∀ req : RequestFinalizeBlock, stx ∈ req.Txs →
      ∃ e w', FinalizeBlock app ord req w = .ret ((none, some e), w')) := by
  refine ⟨?_, ?_, ?_⟩
  · rcases parseTx_cases app stx true w with
      ⟨o1, e, w1, hpt, -, -, hnone⟩ | ⟨b, w1, hpt, hdb, hext, hsome, -⟩
    · rw [hlen] at hnone
      exact Option.noConfusion hnone
    · rw [hlen] at hsome
      cases hsome
      exact ⟨res, _, by simp only [CheckTx, hpt, hh, hdb, hext, herr, hres]; rfl, hcode⟩
  · intro req hmem
    have hne : req.Txs ≠ [] := List.ne_nil_of_mem hmem
    obtain ⟨r, w1, hpp, hst⟩ := ProcessProposal_spec app ord req w hne
    refine ⟨r, w1, hpp, ?_⟩
    have hbv : ¬ batchValid app ord req.Txs w = true := by
      intro hv
      obtain ⟨code, w2, -, hall⟩ := (batchValid_iff app ord req.Txs w).mp hv
      exact everyTxProcesses_parsed app code w.db req.Txs _ _ hall stx hmem hstrict
    rw [hst, if_neg hbv]
  · intro req hmem
    obtain ⟨r, ev, e, st1, w1, hrun⟩ := finalizeLoop_unparsed app req.VoteCode req.Txs 0
      (List.replicate req.Txs.length none) (getState app { w with lastBlk := some req }).1.obj
      (newContexts ord.entries (getState app { w with lastBlk := some req }).2) stx hmem
      (by rw [newContexts_db]; exact hstrict)
    have hfin : finalize app ord (getState app { w with lastBlk := some req }).1.obj req.Txs
        req.ProposerAddress (uint64 req.Height) req.VoteCode
        (getState app { w with lastBlk := some req }).2 = .ret ((r, ev, some e), st1, w1) := hrun
    exact ⟨e, w1.mutate w.next st1, by simp only [FinalizeBlock, hfin]; rfl⟩

/-- C11 at a transfer with nonce 4 against an expected nonce 0. -/
theorem lenient_admission_strict_validation_witness :
    (∃ r w', CheckTx sampleApp { Tx := [0, 1, 4] } sampleWorld = .ret ((some r, none), w') ∧
      r.Code = 0) ∧
    (∃ r w', ProcessProposal sampleApp sampleOrder
        { Txs := [[0, 2, 0], [0, 1, 4]], ProposerAddress := [1], Height := 1 } sampleWorld =
        .ret ((some r, none), w') ∧ r.Status = .REJECT) ∧
    (∃ e w', FinalizeBlock sampleApp sampleOrder
        { Txs := [[0, 2, 0], [0, 1, 4]], ProposerAddress := [1], Height := 1, VoteCode := 0 }
        sampleWorld = .ret ((none, some e), w')) :=
  have h := lenient_admission_strict_validation sampleApp sampleOrder sampleWorld [0, 1, 4]
    { Validator := 1, Nonce := 4, Tx := .Other 0 [] } sampleHandler
    { Code := 0, Log := "", Data := [] } (by decide) (by decide) rfl rfl rfl rfl
  ⟨h.1, h.2.1 { Txs := [[0, 2, 0], [0, 1, 4]], ProposerAddress := [1], Height := 1 } (by decide),
    h.2.2 { Txs := [[0, 2, 0], [0, 1, 4]], ProposerAddress := [1], Height := 1, VoteCode := 0 }
      (by decide)⟩

/-- C14: on an empty batch `ProcessProposal` returns status ACCEPT with vote
code 0 and a nil error, and the world is exactly what it was: no working state
is obtained (`app.st` is untouched), and no collaborator (store, oracle,
handler) is called. -/
theorem ProcessProposal_empty_batch (app : App σ ε) (ord : RangeOrder app) (addr : Bytes) (height : Int)
    (w : World σ ε) :
    ProcessProposal app ord { Txs := [], ProposerAddress := addr, Height := height } w =
      .ret ((some { Status := .ACCEPT, VoteCode := 0 }, none), w) := by
  simp [ProcessProposal]

/-! ## The call log -/

theorem Appends.refl (P : Call → Bool) (w : World σ ε) : Appends P w w :=
  ⟨[], by simp, by simp⟩

theorem Appends.trans {P : Call → Bool} {w w1 w2 : World σ ε} (h1 : Appends P w w1)
    (h2 : Appends P w1 w2) : Appends P w w2 := by
  obtain ⟨l1, e1, p1⟩ := h1
  obtain ⟨l2, e2, p2⟩ := h2
  refine ⟨l1 ++ l2, by rw [e2, e1, List.append_assoc], ?_⟩
  intro c hc
  rcases List.mem_append.mp hc with hc | hc
  · exact p1 c hc
  · exact p2 c hc

theorem Appends.mono {P Q : Call → Bool} {w w1 : World σ ε} (h : Appends P w w1)
    (hPQ : ∀ c, P c = true → Q c = true) : Appends Q w w1 := by
  obtain ⟨l, e, p⟩ := h
  exact ⟨l, e, fun c hc => hPQ c (p c hc)⟩

/-- A world whose log is that of `w1` with one more call. -/
theorem Appends.step {P : Call → Bool} {w w1 w2 : World σ ε} (c : Call) (h : Appends P w w1)
    (hc : P c = true) (h2 : w2.calls = w1.calls ++ [c]) : Appends P w w2 := by
  obtain ⟨l, e, p⟩ := h
  refine ⟨l ++ [c], by rw [h2, e, List.append_assoc], ?_⟩
  intro d hd
  rcases List.mem_append.mp hd with hd | hd
  · exact p d hd
  · rw [List.mem_singleton.mp hd]
    exact hc

/-- The calls of `parseTx`: one `Unmarshal`, then possibly one `Verify` in the
mode asked for. -/
theorem parseTx_appends (app : App σ ε) (txDat : Bytes) (a : Bool) (w : World σ ε)
    (P : Call → Bool) (hU : P (.Unmarshal txDat) = true)
    (hV : ∀ btx, P (.Verify btx a) = true) : Appends P w (parseTx app txDat a w).2 := by
  unfold parseTx UnmarshalHACTx
  cases app.decode txDat with
  | error e => exact ⟨[.Unmarshal txDat], rfl, by simp [hU]⟩
  | ok btx =>
    refine ⟨[.Unmarshal txDat, .Verify btx a], by simp [World.log], ?_⟩
    intro c hc
    simp only [List.mem_cons, List.mem_singleton, List.not_mem_nil, or_false] at hc
    rcases hc with rfl | rfl
    · exact hU
    · exact hV btx

theorem newContexts_calls : ∀ (hs : List (HACTxType × Handler σ ε)) (w : World σ ε),
    (newContexts hs w).calls = w.calls ++ hs.map (fun p => Call.NewContext p.1)
  | [], w => by simp [newContexts]
  | (ty, h) :: hs, w => by
    rw [newContexts, newContexts_calls hs]
    simp [World.log]

theorem set_take_drop {α : Type} (res : List α) (i k : Nat) (x : α) (seq : List α)
    (h : i < res.length) :
    (res.set i x).take (i + 1) ++ seq ++ (res.set i x).drop (i + 1 + k) =
      res.take i ++ (x :: seq) ++ res.drop (i + (k + 1)) := by
  rw [List.take_succ, List.getElem?_set_self h, List.drop_set_of_lt x res (by omega)]
  have ht : (res.set i x).take i = res.take i := by
    rw [List.set_eq_take_append_cons_drop, if_pos h]
    rw [List.take_append_of_le_length (by simp; omega)]
    simp
  rw [ht]
  have e : i + 1 + k = i + (k + 1) := by omega
  rw [e]
  simp

/-! ## Sequential execution -/

/-- What a run of the loop of `finalize` that returns has done: it produced no
block-level event, it logged no context reset, and when it succeeded it wrote
into `res`, from index `i` on, the results of processing the batch
sequentially, all of them non-nil. -/
theorem finalizeLoop_run (app : App σ ε) (code : VoteCode) :
    ∀ (txs : List Bytes) (i : Nat) (res : List (Option ExecTxResult)) (st : σ) (w : World σ ε)
      (out : List (Option ExecTxResult) × List AbciEvent × Option Err) (st1 : σ)
      (w1 : World σ ε),
      finalizeLoop app code txs i res st w = .ret (out, st1, w1) →
      out.2.1 = [] ∧ Appends (fun c => !c.isNewContext) w w1 ∧
      (out.2.2 = none → i + txs.length ≤ res.length →
        out.1 = res.take i ++ sequentialResults app code w.db txs st w.ext ++
          res.drop (i + txs.length) ∧
        (sequentialResults app code w.db txs st w.ext).length = txs.length ∧
        ∀ r ∈ sequentialResults app code w.db txs st w.ext, r.isSome = true)
  | [], i, res, st, w, out, st1, w1, h => by
    simp only [finalizeLoop, Outcome.ret.injEq, Prod.mk.injEq] at h
    obtain ⟨rfl, rfl, rfl⟩ := h
    refine ⟨rfl, Appends.refl _ _, ?_⟩
    intro _ _
    simp [sequentialResults]
  | stx :: rest, i, res, st, w, out, st1, w1, h => by
    have hpa := parseTx_appends app stx false w (fun c => !c.isNewContext) rfl (fun _ => rfl)
    rcases parseTx_cases app stx false w with
      ⟨o, e, wp, hp, hdb, -, hnone⟩ | ⟨btx, wp, hp, hdb, hext, hsome, -⟩
    all_goals
      rw [hp] at hpa
      simp only at hpa
    · simp only [finalizeLoop, hp, Outcome.ret.injEq, Prod.mk.injEq] at h
      obtain ⟨rfl, rfl, rfl⟩ := h
      exact ⟨rfl, hpa, fun hn => Option.noConfusion hn⟩
    · cases hh : lookupHdlr app btx.Typ with
      | none =>
        simp only [finalizeLoop, hp, hh, Outcome.ret.injEq, Prod.mk.injEq] at h
        obtain ⟨rfl, rfl, rfl⟩ := h
        exact ⟨rfl, hpa, fun hn => Option.noConfusion hn⟩
      | some hd =>
        have hstep : Appends (fun c => !c.isNewContext) w
            ({ wp with ext := (hd.Process w.ext st btx code).ext }.log (.Process btx code)) :=
          Appends.step (.Process btx code) hpa rfl rfl
        cases he : (hd.Process w.ext st btx code).err with
        | some err =>
          simp only [finalizeLoop, hp, hh, hext, he, Outcome.ret.injEq, Prod.mk.injEq] at h
          obtain ⟨rfl, rfl, rfl⟩ := h
          exact ⟨rfl, hstep, fun hn => Option.noConfusion hn⟩
        | none =>
          cases hr : (hd.Process w.ext st btx code).res with
          | none =>
            simp only [finalizeLoop, hp, hh, hext, he, hr, Outcome.ret.injEq,
              Prod.mk.injEq] at h
            obtain ⟨rfl, rfl, rfl⟩ := h
            exact ⟨rfl, hstep, fun hn => Option.noConfusion hn⟩
          | some result =>
            by_cases hc : result.Code = 0
            · simp only [finalizeLoop, hp, hh, hext, he, hr, hc, ne_eq, not_true_eq_false,
                if_false] at h
              obtain ⟨hev, hap, hres⟩ := finalizeLoop_run app code rest (i + 1)
                (res.set i (some result)) _ _ out st1 w1 h
              refine ⟨hev, hstep.trans hap, ?_⟩
              intro hok hlen
              have hlen2 : i + 1 + rest.length ≤ (res.set i (some result)).length := by
                rw [List.length_set]
                simp only [List.length_cons] at hlen
                omega
              obtain ⟨h1, h2, h3⟩ := hres hok hlen2
              have hdb2 : ({ wp with ext := (hd.Process w.ext st btx code).ext }.log
                  (.Process btx code)).db = w.db := hdb
              have hext2 : ({ wp with ext := (hd.Process w.ext st btx code).ext }.log
                  (.Process btx code)).ext = (hd.Process w.ext st btx code).ext := rfl
              rw [hdb2, hext2] at h1 h2 h3
              have hseq : sequentialResults app code w.db (stx :: rest) st w.ext =
                  some result :: sequentialResults app code w.db rest
                    (hd.Process w.ext st btx code).st (hd.Process w.ext st btx code).ext := by
                simp only [sequentialResults, hsome, hh, hr]
              rw [hseq]
              refine ⟨?_, ?_, ?_⟩
              · rw [h1]
                exact set_take_drop res i rest.length (some result) _
                  (by simp only [List.length_cons] at hlen; omega)
              · simp [h2]
              · intro r hr2
                rcases List.mem_cons.mp hr2 with rfl | hr2
                · rfl
                · exact h3 r hr2
            · simp only [finalizeLoop, hp, hh, hext, he, hr, hc, ne_eq, not_false_eq_true,
                if_true, Outcome.ret.injEq, Prod.mk.injEq] at h
              obtain ⟨rfl, rfl, rfl⟩ := h
              exact ⟨rfl, hstep, fun hn => Option.noConfusion hn⟩

/-! ## The executors as a function of the states -/

/-- The loop of `finalize` always returns; it returns what `execLoop` computes,
and all it does to the world is to change the collaborators' state and to
append to the log. -/
theorem finalizeLoop_exec (app : App σ ε) (code : VoteCode) :
    ∀ (txs : List Bytes) (i : Nat) (res : List (Option ExecTxResult)) (st : σ) (w : World σ ε),
      ∃ l, finalizeLoop app code txs i res st w =
        .ret ((execLoop app code w.db txs i res st w.ext).1,
          (execLoop app code w.db txs i res st w.ext).2.1,
          { w with ext := (execLoop app code w.db txs i res st w.ext).2.2,
                   calls := w.calls ++ l })
  | [], i, res, st, w => ⟨[], by simp [finalizeLoop, execLoop]⟩
  | stx :: rest, i, res, st, w => by
    cases hd : app.decode stx with
    | error e =>
      exact ⟨[.Unmarshal stx], by
        simp [finalizeLoop, parseTx, UnmarshalHACTx, hd, execLoop, World.log]⟩
    | ok btx =>
      cases hv : app.Verify w.db btx false with
      | some e =>
        exact ⟨[.Unmarshal stx, .Verify btx false], by
          simp [finalizeLoop, parseTx, UnmarshalHACTx, hd, hv, execLoop, World.log]⟩
      | none =>
        cases hh : lookupHdlr app btx.Typ with
        | none =>
          exact ⟨[.Unmarshal stx, .Verify btx false], by
            simp [finalizeLoop, parseTx, UnmarshalHACTx, hd, hv, hh, execLoop, World.log]⟩
        | some h =>
          cases he : (h.Process w.ext st btx code).err with
          | some err =>
            exact ⟨[.Unmarshal stx, .Verify btx false, .Process btx code], by
              simp [finalizeLoop, parseTx, UnmarshalHACTx, hd, hv, hh, he, execLoop, World.log]⟩
          | none =>
            cases hr : (h.Process w.ext st btx code).res with
            | none =>
              exact ⟨[.Unmarshal stx, .Verify btx false, .Process btx code], by
                simp [finalizeLoop, parseTx, UnmarshalHACTx, hd, hv, hh, he, hr, execLoop,
                  World.log]⟩
            | some result =>
              by_cases hc : result.Code = 0
              · obtain ⟨l, hl⟩ := finalizeLoop_exec app code rest (i + 1)
                  (res.set i (some result)) (h.Process w.ext st btx code).st
                  { w with ext := (h.Process w.ext st btx code).ext,
                           calls := w.calls ++ [.Unmarshal stx, .Verify btx false,
                             .Process btx code] }
                refine ⟨[.Unmarshal stx, .Verify btx false, .Process btx code] ++ l, ?_⟩
                simp only [finalizeLoop, parseTx, UnmarshalHACTx, hd, hv, hh, he, hr, hc,
                  execLoop, World.log, ne_eq, not_true_eq_false, if_false, List.append_assoc,
                  List.singleton_append]
                simpa [List.append_assoc] using hl
              · exact ⟨[.Unmarshal stx, .Verify btx false, .Process btx code], by
                  simp [finalizeLoop, parseTx, UnmarshalHACTx, hd, hv, hh, he, hr, hc, execLoop,
                    World.log]⟩

/-- The loop of `finalize` leaves `app.st`, `app.lastBlk`, the canonical state
and the store's next object identity alone. -/
theorem finalizeLoop_frame (app : App σ ε) (code : VoteCode) (txs : List Bytes) (i : Nat)
    (res : List (Option ExecTxResult)) (st : σ) (w : World σ ε)
    (out : List (Option ExecTxResult) × List AbciEvent × Option Err) (st1 : σ)
    (w1 : World σ ε) (h : finalizeLoop app code txs i res st w = .ret (out, st1, w1)) :
    w1.st = w.st ∧ w1.next = w.next ∧ w1.db = w.db ∧ w1.lastBlk = w.lastBlk := by
  obtain ⟨l, hl⟩ := finalizeLoop_exec app code txs i res st w
  rw [hl] at h
  simp only [Outcome.ret.injEq, Prod.mk.injEq] at h
  rw [← h.2.2]
  exact ⟨rfl, rfl, rfl, rfl⟩

theorem newContexts_next : ∀ (hs : List (HACTxType × Handler σ ε)) (w : World σ ε),
    (newContexts hs w).next = w.next
  | [], _ => rfl
  | (_, _) :: hs, w => by
    rw [newContexts, newContexts_next hs]
    rfl

/-- The loop of `process` on two worlds with the same canonical state and the
same collaborators' state is observed alike, and so are `process` and
`finalize`. -/
theorem process_observe_eq_finalize (app : App σ ε) (code : VoteCode) (txs : List Bytes)
    (st : σ) (w1 w2 : World σ ε) (hdb : w1.db = w2.db) (hext : w1.ext = w2.ext) :
    (processLoop app code txs 0 (List.replicate txs.length none) st w1).observe =
      (finalizeLoop app code txs 0 (List.replicate txs.length none) st w2).observe := by
  rw [processLoop_eq_finalizeLoop]
  obtain ⟨l1, h1⟩ := finalizeLoop_exec app code txs 0 (List.replicate txs.length none) st w1
  obtain ⟨l2, h2⟩ := finalizeLoop_exec app code txs 0 (List.replicate txs.length none) st w2
  rw [h1, h2, hdb, hext]
  rfl

/-- C8, as stated, fails: the registry of `markApp` has two handlers whose
context resets do not commute; `process`, whose loop visits the first entry
first, and `finalize`, whose loop visits the second entry first, run on the
same state, batch, proposer, height and vote code, return different results
and leave the collaborators in different states. -/
theorem process_finalize_differ_on_reset_order :
    (process markApp forwardOrder 0 [[0, 1, 0]] [] 0 0 sampleWorld).observe =
        some (([some { Code := 0, Log := "", Data := [2], Events := [] }], [], none), 1, 0, 2) ∧
      (finalize markApp backwardOrder 0 [[0, 1, 0]] [] 0 0 sampleWorld).observe =
        some (([some { Code := 0, Log := "", Data := [1], Events := [] }], [], none), 1, 0, 1) :=
  ⟨rfl, rfl⟩

/-- C8, amended: `process` and `finalize` agree up to the order in which their
loops over the registry reset the handler contexts.  Run with the same order
they are the same function: same results, events and error, same working
state, same world (log of calls included).  Run with any two orders that leave
the collaborators in the same state (as any two orders do when the resets
commute) they return the same results, events and error and leave the working
state, the canonical state and the collaborators in the same condition. -/
theorem process_agrees_with_finalize (app : App σ ε) (st : σ) (txs : List Bytes)
    (proposer : Bytes) (height : Nat) (code : VoteCode) (w : World σ ε) :
    (∀ ord : RangeOrder app,
      process app ord st txs proposer height code w =
        finalize app ord st txs proposer height code w) ∧
    (∀ o1 o2 : RangeOrder app,
      (newContexts o1.entries w).ext = (newContexts o2.entries w).ext →
      (process app o1 st txs proposer height code w).observe =
        (finalize app o2 st txs proposer height code w).observe) := by
  constructor
  · intro ord
    unfold process finalize
    exact processLoop_eq_finalizeLoop app code txs 0 _ st _
  · intro o1 o2 h
    unfold process finalize
    exact process_observe_eq_finalize app code txs st _ _
      (by rw [newContexts_db, newContexts_db]) h

/-- C8, amended, at the sample registry, whose resets commute, visited forwards
by `process` and backwards by `finalize`. -/
theorem process_agrees_with_finalize_witness :
    (newContexts sampleOrder.entries sampleWorld).ext =
        (newContexts reverseOrder.entries sampleWorld).ext ∧
      (process sampleApp sampleOrder 0 [[2, 1, 0], [0, 2, 0]] [1] 1 3 sampleWorld).observe =
        (finalize sampleApp reverseOrder 0 [[2, 1, 0], [0, 2, 0]] [1] 1 3 sampleWorld).observe :=
  ⟨by decide, (process_agrees_with_finalize sampleApp 0 [[2, 1, 0], [0, 2, 0]] [1] 1 3
    sampleWorld).2 sampleOrder reverseOrder (by decide)⟩

/-! ## Finalization -/

/-- What a successful `FinalizeBlock` went through: `finalize` succeeded on the
new working state, then `Validators`, `Update` and `ValidatorsUpdate` did, and
the response and `app.st` are built from what they returned. -/
theorem FinalizeBlock_ok (app : App σ ε) (ord : RangeOrder app) (req : RequestFinalizeBlock) (w : World σ ε)
    (resp : ResponseFinalizeBlock) (w' : World σ ε)
    (h : FinalizeBlock app ord req w = .ret ((some resp, none), w')) :
    ∃ res ev st1 w2 curVals,
      finalize app ord (getState app { w with lastBlk := some req }).1.obj req.Txs req.ProposerAddress
        (uint64 req.Height) req.VoteCode (getState app { w with lastBlk := some req }).2 =
        .ret ((res, ev, none), st1, w2) ∧
      app.Validators st1 = (curVals, none) ∧ (app.Update st1).1.2 = none ∧
      (app.ValidatorsUpdate (app.Update st1).2 curVals).2 = none ∧
      resp = { TxResults := res, AppHash := (app.Update st1).1.1,
               ValidatorUpdates := (app.ValidatorsUpdate (app.Update st1).2 curVals).1,
               Events :=
                 if (app.ValidatorsUpdate (app.Update st1).2 curVals).1.length ≠ 0 then
                   ev ++ [app.EncodeEventUpdateValiators
                     (app.ValidatorsUpdate (app.Update st1).2 curVals).1]
                 else ev } ∧
      w'.st = some { id := w.next, obj := (app.Update st1).2 } := by
  unfold FinalizeBlock at h
  simp only at h
  cases hfin : finalize app ord (getState app { w with lastBlk := some req }).1.obj req.Txs
      req.ProposerAddress (uint64 req.Height) req.VoteCode
      (getState app { w with lastBlk := some req }).2 with
  | panic => simp [hfin] at h
  | ret p =>
    obtain ⟨⟨res, ev, ferr⟩, st1, w2⟩ := p
    have hst2 : w2.st = some { id := w.next, obj := app.NewState w.db } := by
      rw [(finalizeLoop_frame app _ _ _ _ _ _ _ _ _ hfin).1, newContexts_st]
      rfl
    rw [hfin] at h
    cases ferr with
    | some e => simp at h
    | none =>
      simp only at h
      rcases hv : app.Validators st1 with ⟨curVals, _ | e⟩
      · rw [hv] at h
        simp only at h
        rcases hu : (app.Update st1).1 with ⟨hash, _ | e⟩
        · rw [hu] at h
          simp only at h
          rcases hd : app.ValidatorsUpdate (app.Update st1).2 curVals with ⟨diff, _ | e⟩
          · rw [hd] at h
            simp only [Outcome.ret.injEq, Prod.mk.injEq, Option.some.injEq, and_true] at h
            obtain ⟨hresp, hw⟩ := h
            refine ⟨res, ev, st1, w2, curVals, rfl, hv, by rw [hu], by rw [hd], ?_, ?_⟩
            · rw [hu, hd]
              exact hresp.symm
            · rw [← hw]
              have h3 := World.mutate_st w2 w.next _ st1 hst2
              exact World.mutate_st ((w2.mutate w.next st1).log .Validators) w.next st1
                (app.Update st1).2 h3
          · rw [hd] at h
            simp at h
        · rw [hu] at h
          simp at h
      · rw [hv] at h
        simp at h

/-- C16: whenever `finalize` succeeds on a batch of n transactions, and
whenever `FinalizeBlock` does, the result list has exactly n entries, all
non-nil, and it is the list of the results of processing the batch
sequentially: entry i is what the handler's `Process` returned for the i-th
transaction, run on the working state as left by the transactions before it. -/
theorem finalize_sequential (app : App σ ε) (ord : RangeOrder app) (w : World σ ε) :
    (∀ st txs proposer height code res ev st1 w1,
      finalize app ord st txs proposer height code w = .ret ((res, ev, none), st1, w1) →
      res.length = txs.length ∧
        res = sequentialResults app code w.db txs st (newContexts ord.entries w).ext ∧
        ∀ r ∈ res, r.isSome = true) ∧
    (∀ req resp, (FinalizeBlock app ord req w).result = some (some resp, none) →
      resp.TxResults.length = req.Txs.length ∧
        resp.TxResults = sequentialResults app req.VoteCode w.db req.Txs (app.NewState w.db)
          (newContexts ord.entries (getState app { w with lastBlk := some req }).2).ext ∧
        ∀ r ∈ resp.TxResults, r.isSome = true) := by
  have key : ∀ (w0 : World σ ε) st txs proposer height code res ev st1 w1,
      finalize app ord st txs proposer height code w0 = .ret ((res, ev, none), st1, w1) →
      res.length = txs.length ∧
        res = sequentialResults app code w0.db txs st (newContexts ord.entries w0).ext ∧
        ∀ r ∈ res, r.isSome = true := by
    intro w0 st txs proposer height code res ev st1 w1 h
    obtain ⟨-, -, hres⟩ := finalizeLoop_run app code txs 0 (List.replicate txs.length none) st
      (newContexts ord.entries w0) _ st1 w1 h
    obtain ⟨h1, h2, h3⟩ := hres rfl (by simp)
    rw [newContexts_db] at h1 h2 h3
    simp only [List.take_zero, List.nil_append, Nat.zero_add] at h1
    rw [List.drop_eq_nil_of_le (by simp), List.append_nil] at h1
    rw [h1]
    exact ⟨h2, rfl, h3⟩
  refine ⟨key w, ?_⟩
  intro req resp h
  obtain ⟨w', h⟩ := Outcome.result_eq_some h
  obtain ⟨res, ev, st1, w2, curVals, hfin, -, -, -, hresp, -⟩ := FinalizeBlock_ok app ord req w resp w' h
  have := key _ _ _ _ _ _ _ _ _ _ hfin
  rw [hresp]
  exact this

/-- C16 at a batch of a Proposal and a transfer. -/
theorem finalize_sequential_witness :
    (FinalizeBlock sampleApp sampleOrder
        { Txs := [[2, 1, 0], [0, 2, 0]], ProposerAddress := [1], Height := 1, VoteCode := 3 }
        sampleWorld).result =
        some (some { TxResults := [some { Code := 0, Log := "", Data := [], Events := [] },
                                   some { Code := 0, Log := "", Data := [], Events := [] }],
                     AppHash := [2], ValidatorUpdates := [], Events := [] }, none) ∧
      ([some { Code := 0, Log := "", Data := [], Events := [] },
        some { Code := 0, Log := "", Data := [], Events := [] }] :
          List (Option ExecTxResult)).length = 2 :=
  ⟨by decide, ((finalize_sequential sampleApp sampleOrder sampleWorld).2
    { Txs := [[2, 1, 0], [0, 2, 0]], ProposerAddress := [1], Height := 1, VoteCode := 3 }
    { TxResults := [some { Code := 0, Log := "", Data := [], Events := [] },
                    some { Code := 0, Log := "", Data := [], Events := [] }],
      AppHash := [2], ValidatorUpdates := [], Events := [] } (by decide)).1⟩

/-- C17: whenever `FinalizeBlock` succeeds, `finalize` succeeded and left the
working state `st1`, and the response carries as `AppHash` the hash returned by
`st1.Update()`, as `ValidatorUpdates` the diff returned by `ValidatorsUpdate`
(on the updated state, against the validators read before the update), and as
`Events` exactly one validator-update event encoding that diff when the diff is
non-empty, and no event when it is empty.  After a successful `finalize`, an
error of `Validators`, of `Update` or of `ValidatorsUpdate` is returned by
`FinalizeBlock` with no response. -/
theorem FinalizeBlock_commitment (app : App σ ε) (ord : RangeOrder app) (req : RequestFinalizeBlock) (w : World σ ε) :
    (∀ resp, (FinalizeBlock app ord req w).result = some (some resp, none) →
      ∃ res ev st1 w2 curVals,
        finalize app ord (getState app { w with lastBlk := some req }).1.obj req.Txs
          req.ProposerAddress (uint64 req.Height) req.VoteCode
          (getState app { w with lastBlk := some req }).2 = .ret ((res, ev, none), st1, w2) ∧
        app.Validators st1 = (curVals, none) ∧
        resp.AppHash = (app.Update st1).1.1 ∧
        resp.ValidatorUpdates = (app.ValidatorsUpdate (app.Update st1).2 curVals).1 ∧
        resp.Events =
          if resp.ValidatorUpdates = [] then []
          else [app.EncodeEventUpdateValiators resp.ValidatorUpdates]) ∧
    (∀ res ev st1 w2,
      finalize app ord (getState app { w with lastBlk := some req }).1.obj req.Txs
        req.ProposerAddress (uint64 req.Height) req.VoteCode
        (getState app { w with lastBlk := some req }).2 = .ret ((res, ev, none), st1, w2) →
      (∀ vals e, app.Validators st1 = (vals, some e) →
        (FinalizeBlock app ord req w).result = some (none, some e)) ∧
      (∀ vals hash e, app.Validators st1 = (vals, none) →
        (app.Update st1).1 = (hash, some e) →
        (FinalizeBlock app ord req w).result = some (none, some e)) ∧
      (∀ vals hash diff e, app.Validators st1 = (vals, none) →
        (app.Update st1).1 = (hash, none) →
        app.ValidatorsUpdate (app.Update st1).2 vals = (diff, some e) →
        (FinalizeBlock app ord req w).result = some (none, some e))) := by
  constructor
  · intro resp h
    obtain ⟨w', h⟩ := Outcome.result_eq_some h
    obtain ⟨res, ev, st1, w2, curVals, hfin, hv, -, -, hresp, -⟩ :=
      FinalizeBlock_ok app ord req w resp w' h
    have hev : ev = [] := (finalizeLoop_run app _ _ _ _ _ _ _ _ _ hfin).1
    subst hev
    refine ⟨res, [], st1, w2, curVals, hfin, hv, by rw [hresp], by rw [hresp], ?_⟩
    rw [hresp]
    simp only
    by_cases hd : (app.ValidatorsUpdate (app.Update st1).2 curVals).1 = []
    · simp [hd]
    · simp [hd]
  · intro res ev st1 w2 hfin
    refine ⟨?_, ?_, ?_⟩
    · intro vals e hv
      simp only [FinalizeBlock, hfin, hv, Outcome.result]
    · intro vals hash e hv hu
      simp only [FinalizeBlock, hfin, hv, hu, Outcome.result]
    · intro vals hash diff e hv hu hd
      simp only [FinalizeBlock, hfin, hv, hu, hd, Outcome.result]

/-- C17 at a batch of two transactions on the sample store, whose update
returns the hash `[2]` and whose validator diff is empty. -/
theorem FinalizeBlock_commitment_witness :
    ∃ res ev st1 w2 curVals,
      finalize sampleApp sampleOrder (getState sampleApp { sampleWorld with lastBlk := some sampleBlock }).1.obj
        sampleBlock.Txs sampleBlock.ProposerAddress (uint64 sampleBlock.Height)
        sampleBlock.VoteCode
        (getState sampleApp { sampleWorld with lastBlk := some sampleBlock }).2 =
        .ret ((res, ev, none), st1, w2) ∧
      sampleApp.Validators st1 = (curVals, none) ∧
      ([2] : Bytes) = (sampleApp.Update st1).1.1 ∧
      ([] : List ValidatorUpdate) =
        (sampleApp.ValidatorsUpdate (sampleApp.Update st1).2 curVals).1 ∧
      ([] : List AbciEvent) =
        if ([] : List ValidatorUpdate) = [] then []
        else [sampleApp.EncodeEventUpdateValiators []] :=
  (FinalizeBlock_commitment sampleApp sampleOrder sampleBlock sampleWorld).1
    { TxResults := [some { Code := 0, Log := "", Data := [], Events := [] },
                    some { Code := 0, Log := "", Data := [], Events := [] }],
      AppHash := [2], ValidatorUpdates := [], Events := [] } (by decide)

/-! ## Isolation of the working state -/

/-- C18: `CheckTx` never looks at the working-state reference `app.st` and never
changes it: replacing `app.st` by anything leaves the outcome (response, error
or panic) the same, and `app.st` after a call that returns is what it was
before. -/
theorem CheckTx_isolated (app : App σ ε) (check : RequestCheckTx) (w : World σ ε)
    (s : Option (Ptr σ)) :
    (CheckTx app check { w with st := s }).result = (CheckTx app check w).result ∧
      ∀ r w', CheckTx app check w = .ret (r, w') → w'.st = w.st := by
  unfold CheckTx parseTx UnmarshalHACTx
  cases hd : app.decode check.Tx with
  | error e =>
    refine ⟨rfl, ?_⟩
    intro r w' h
    simp only [Outcome.ret.injEq, Prod.mk.injEq] at h
    rw [← h.2]
    rfl
  | ok btx =>
    cases hv : app.Verify w.db btx true with
    | some e =>
      simp only [World.log, hv]
      refine ⟨rfl, ?_⟩
      intro r w' h
      simp only [Outcome.ret.injEq, Prod.mk.injEq] at h
      rw [← h.2]
    | none =>
      simp only [World.log, hv]
      cases hh : lookupHdlr app btx.Typ with
      | none =>
        refine ⟨rfl, ?_⟩
        intro r w' h
        simp only [Outcome.ret.injEq, Prod.mk.injEq] at h
        rw [← h.2]
      | some hdl =>
        simp only
        cases he : (hdl.Check w.ext w.db btx).err with
        | none =>
          refine ⟨rfl, ?_⟩
          intro r w' h
          simp only [Outcome.ret.injEq, Prod.mk.injEq] at h
          rw [← h.2]
        | some e =>
          cases hr : (hdl.Check w.ext w.db btx).res with
          | none =>
            refine ⟨rfl, ?_⟩
            intro r w' h
            exact Outcome.noConfusion h
          | some res =>
            refine ⟨rfl, ?_⟩
            intro r w' h
            simp only [Outcome.ret.injEq, Prod.mk.injEq] at h
            rw [← h.2]

/-- C18 at two worlds that differ only in `app.st`. -/
theorem CheckTx_isolated_witness :
    (CheckTx sampleApp { Tx := [0, 1, 4] }
        { sampleWorld with st := some { id := 0, obj := 7 } }).result =
        (CheckTx sampleApp { Tx := [0, 1, 4] } sampleWorld).result ∧
      ∀ r w', CheckTx sampleApp { Tx := [0, 1, 4] } sampleWorld = .ret (r, w') →
        w'.st = sampleWorld.st :=
  CheckTx_isolated sampleApp { Tx := [0, 1, 4] } sampleWorld (some { id := 0, obj := 7 })

/-- After a `FinalizeBlock` that returns, `app.st` points to the snapshot object
this call obtained from the store. -/
theorem FinalizeBlock_st (app : App σ ε) (ord : RangeOrder app) (req : RequestFinalizeBlock)
    (w : World σ ε) (r : Option ResponseFinalizeBlock × Option Err) (w' : World σ ε)
    (h : FinalizeBlock app ord req w = .ret (r, w')) :
    ∃ v, w'.st = some { id := w.next, obj := v } := by
  unfold FinalizeBlock at h
  simp only at h
  cases hfin : finalize app ord (getState app { w with lastBlk := some req }).1.obj req.Txs
      req.ProposerAddress (uint64 req.Height) req.VoteCode
      (getState app { w with lastBlk := some req }).2 with
  | panic => simp [hfin] at h
  | ret p =>
    obtain ⟨⟨res, ev, ferr⟩, st1, w2⟩ := p
    have hst2 : w2.st = some { id := w.next, obj := app.NewState w.db } := by
      rw [(finalizeLoop_frame app _ _ _ _ _ _ _ _ _ hfin).1, newContexts_st]
      rfl
    have h3 : (w2.mutate w.next st1).st = some { id := w.next, obj := st1 } :=
      World.mutate_st w2 w.next _ st1 hst2
    have h4 : (((w2.mutate w.next st1).log .Validators).mutate w.next (app.Update st1).2).st =
        some { id := w.next, obj := (app.Update st1).2 } :=
      World.mutate_st ((w2.mutate w.next st1).log .Validators) w.next st1 _ h3
    rw [hfin] at h
    cases ferr with
    | some e =>
      simp only [Outcome.ret.injEq, Prod.mk.injEq] at h
      rw [← h.2]
      exact ⟨st1, h3⟩
    | none =>
      simp only at h
      rcases hv : app.Validators st1 with ⟨curVals, _ | e⟩
      · rw [hv] at h
        simp only at h
        rcases hu : (app.Update st1).1 with ⟨hash, _ | e⟩
        · rw [hu] at h
          simp only at h
          rcases hd : app.ValidatorsUpdate (app.Update st1).2 curVals with ⟨diff, _ | e⟩
          · rw [hd] at h
            simp only [Outcome.ret.injEq, Prod.mk.injEq] at h
            rw [← h.2]
            exact ⟨_, h4⟩
          · rw [hd] at h
            simp only [Outcome.ret.injEq, Prod.mk.injEq] at h
            rw [← h.2]
            exact ⟨_, h4⟩
        · rw [hu] at h
          simp only [Outcome.ret.injEq, Prod.mk.injEq] at h
          rw [← h.2]
          exact ⟨_, h4⟩
      · rw [hv] at h
        simp only [Outcome.ret.injEq, Prod.mk.injEq] at h
        rw [← h.2]
        exact ⟨st1, h3⟩

/-- C20: `FinalizeBlock` does not depend on the value `app.st` held before the
call: its outcome, world included, is the same whatever that value was,
because `getState` stores in `app.st` a pointer to the new snapshot object it
obtains from the store, and after every call that returns `app.st` points to
that object.  After a successful `FinalizeBlock`, the object `app.st` points to
holds the state `finalize` processed the batch on, after the `Update` whose hash
is the response's `AppHash`, and an immediately following `Commit` passes
exactly that state to `SetState`: its outcome, its world included, is what
`SetState` makes of that state. -/
theorem FinalizeBlock_fresh_state (app : App σ ε) (ord : RangeOrder app)
    (req : RequestFinalizeBlock) (w : World σ ε) (s : Option (Ptr σ)) :
    FinalizeBlock app ord req { w with st := s } = FinalizeBlock app ord req w ∧
      (∀ r w', FinalizeBlock app ord req w = .ret (r, w') →
        ∃ v, w'.st = some { id := w.next, obj := v }) ∧
      ∀ resp w', FinalizeBlock app ord req w = .ret ((some resp, none), w') →
        ∃ res ev st1 w2,
          finalize app ord (app.NewState w.db) req.Txs req.ProposerAddress (uint64 req.Height)
            req.VoteCode (getState app { w with lastBlk := some req }).2 =
            .ret ((res, ev, none), st1, w2) ∧
          w'.st = some { id := w.next, obj := (app.Update st1).2 } ∧
          resp.AppHash = (app.Update st1).1.1 ∧
          Commit app w' =
            match (app.SetState w'.db (some (app.Update st1).2)).2 with
            | some err =>
              .ret ((none, some err),
                { w' with db := (app.SetState w'.db (some (app.Update st1).2)).1 }.log
                  .SetState)
            | none =>
              .ret ((some { RetainHeight := 0 }, none),
                { ({ w' with db := (app.SetState w'.db (some (app.Update st1).2)).1 }.log
                  .SetState) with st := none }) := by
  refine ⟨rfl, FinalizeBlock_st app ord req w, ?_⟩
  intro resp w' h
  obtain ⟨res, ev, st1, w2, curVals, hfin, -, -, -, hresp, hst⟩ :=
    FinalizeBlock_ok app ord req w resp w' h
  refine ⟨res, ev, st1, w2, hfin, hst, by rw [hresp], ?_⟩
  unfold Commit
  simp only [hst, Option.map_some']

/-- C20 at the sample block of two transactions: `FinalizeBlock` succeeds, and
the `Commit` that follows hands `SetState` the state 2 whose hash `[2]` the
response carries. -/
theorem FinalizeBlock_fresh_state_witness :
    FinalizeBlock sampleApp sampleOrder sampleBlock sampleWorld =
        .ret ((some { TxResults := [some { Code := 0, Log := "", Data := [], Events := [] },
                        some { Code := 0, Log := "", Data := [], Events := [] }],
                      AppHash := [2], ValidatorUpdates := [], Events := [] }, none),
          (FinalizeBlock sampleApp sampleOrder sampleBlock sampleWorld).world sampleWorld) ∧
      ∃ res ev st1 w2,
        finalize sampleApp sampleOrder (sampleApp.NewState sampleWorld.db) sampleBlock.Txs
          sampleBlock.ProposerAddress (uint64 sampleBlock.Height) sampleBlock.VoteCode
          (getState sampleApp { sampleWorld with lastBlk := some sampleBlock }).2 =
          .ret ((res, ev, none), st1, w2) ∧
        ((FinalizeBlock sampleApp sampleOrder sampleBlock sampleWorld).world sampleWorld).st =
          some { id := sampleWorld.next, obj := (sampleApp.Update st1).2 } ∧
        ([2] : Bytes) = (sampleApp.Update st1).1.1 ∧
        Commit sampleApp
            ((FinalizeBlock sampleApp sampleOrder sampleBlock sampleWorld).world sampleWorld) =
          match (sampleApp.SetState
            ((FinalizeBlock sampleApp sampleOrder sampleBlock sampleWorld).world sampleWorld).db
            (some (sampleApp.Update st1).2)).2 with
          | some err =>
            .ret ((none, some err),
              { ((FinalizeBlock sampleApp sampleOrder sampleBlock sampleWorld).world
                  sampleWorld) with
                db := (sampleApp.SetState
                  ((FinalizeBlock sampleApp sampleOrder sampleBlock sampleWorld).world
                    sampleWorld).db (some (sampleApp.Update st1).2)).1 }.log .SetState)
          | none =>
            .ret ((some { RetainHeight := 0 }, none),
              { ({ ((FinalizeBlock sampleApp sampleOrder sampleBlock sampleWorld).world
                  sampleWorld) with
                db := (sampleApp.SetState
                  ((FinalizeBlock sampleApp sampleOrder sampleBlock sampleWorld).world
                    sampleWorld).db (some (sampleApp.Update st1).2)).1 }.log .SetState) with
                st := none }) :=
  ⟨rfl, (FinalizeBlock_fresh_state sampleApp sampleOrder sampleBlock sampleWorld none).2.2
    { TxResults := [some { Code := 0, Log := "", Data := [], Events := [] },
                    some { Code := 0, Log := "", Data := [], Events := [] }],
      AppHash := [2], ValidatorUpdates := [], Events := [] }
    ((FinalizeBlock sampleApp sampleOrder sampleBlock sampleWorld).world sampleWorld) rfl⟩

/-! ## The Admission Gate as a function of the parsed batch -/

/-- The loop of `getCode` returns what `codeLoop` computes from the canonical
state and the collaborators' state, and the only calls it makes are decodings,
verifications with nonce gaps refused, and oracle queries. -/
theorem getCodeLoop_refines (app : App σ ε) :
    ∀ (txs : List Bytes) (pa : Bool) (code : VoteCode) (w : World σ ε),
      ∃ w', getCodeLoop app txs pa code w = .ret ((codeLoop app w.db txs pa code w.ext).1, w') ∧
        w'.ext = (codeLoop app w.db txs pa code w.ext).2 ∧ w'.db = w.db ∧
        Appends Call.isGate w w'
  | [], pa, code, w => ⟨w, rfl, rfl, rfl, Appends.refl _ _⟩
  | stx :: rest, pa, code, w => by
    have hpa := parseTx_appends app stx false w Call.isGate rfl (fun _ => rfl)
    rcases parseTx_cases app stx false w with
      ⟨o, e, wp, hp, hdb, hext, hnone⟩ | ⟨btx, wp, hp, hdb, hext, hsome, -⟩
    all_goals
      rw [hp] at hpa
      simp only at hpa
    · obtain ⟨w', h1, h2, h3, h4⟩ := getCodeLoop_refines app rest pa code wp
      rw [hdb, hext] at h1 h2
      refine ⟨w', ?_, ?_, h3.trans hdb, hpa.trans h4⟩
      · simp only [getCodeLoop, hp, codeLoop, hnone]
        exact h1
      · simp only [codeLoop, hnone]
        exact h2
    · cases hb : btx.Tx with
      | Grant gtx =>
        cases pa with
        | true =>
          refine ⟨wp, ?_, ?_, hdb, hpa⟩
          · simp [getCodeLoop, hp, codeLoop, hsome, hb]
          · simp [codeLoop, hsome, hb, hext]
        | false =>
          rcases hgs : gtx.Grants with _ | ⟨g, _ | ⟨g2, t⟩⟩
          · refine ⟨wp, ?_, ?_, hdb, hpa⟩
            · simp [getCodeLoop, hp, codeLoop, hsome, hb, hgs]
            · simp [codeLoop, hsome, hb, hgs, hext]
          · have hI : ∀ r, app.IfGrantNewMember w.ext g.Amount g.Statement = r →
                IfGrantNewMember app g.Amount g.Statement wp =
                  (r.1, { wp with ext := r.2 }.log (.IfGrantNewMember g.Amount g.Statement)) := by
              intro r hr
              simp only [IfGrantNewMember, hext, hr]
            rcases ho : app.IfGrantNewMember w.ext g.Amount g.Statement with
              ⟨⟨pass, _ | err⟩, ext1⟩
            all_goals replace hI := hI _ ho
            · obtain ⟨w', h1, h2, h3, h4⟩ := getCodeLoop_refines app rest true
                (if pass then app.VoteGrantNewMember else app.VoteRejectNewMember)
                ({ wp with ext := ext1 }.log (.IfGrantNewMember g.Amount g.Statement))
              have hs : Appends Call.isGate w
                  ({ wp with ext := ext1 }.log (.IfGrantNewMember g.Amount g.Statement)) :=
                Appends.step (.IfGrantNewMember g.Amount g.Statement) hpa rfl rfl
              have hdbw : ({ wp with ext := ext1 }.log (.IfGrantNewMember g.Amount g.Statement)).db = w.db := hdb
              have hextw : ({ wp with ext := ext1 }.log (.IfGrantNewMember g.Amount g.Statement)).ext = ext1 := rfl
              rw [hdbw, hextw] at h1 h2
              refine ⟨w', ?_, ?_, h3.trans hdb, hs.trans h4⟩
              · simpa [getCodeLoop, hp, hb, hgs, hI, codeLoop, hsome, ho] using h1
              · simpa [codeLoop, hsome, hb, hgs, ho] using h2
            · refine ⟨{ wp with ext := ext1 }.log (.IfGrantNewMember g.Amount g.Statement),
                ?_, ?_, hdb, Appends.step (.IfGrantNewMember g.Amount g.Statement) hpa rfl rfl⟩
              · simp [getCodeLoop, hp, hb, hgs, hI, codeLoop, hsome, ho]
              · simp [codeLoop, hsome, hb, hgs, ho, World.log]
          · refine ⟨wp, ?_, ?_, hdb, hpa⟩
            · simp [getCodeLoop, hp, codeLoop, hsome, hb, hgs]
            · simp [codeLoop, hsome, hb, hgs, hext]
      | Proposal ptx =>
        cases pa with
        | true =>
          refine ⟨wp, ?_, ?_, hdb, hpa⟩
          · simp [getCodeLoop, hp, codeLoop, hsome, hb]
          · simp [codeLoop, hsome, hb, hext]
        | false =>
          have hI : ∀ r, app.IfProcessProposal w.ext ptx.Proposer ptx.Data = r →
              IfProcessProposal app ptx.Proposer ptx.Data wp =
                (r.1, { wp with ext := r.2 }.log (.IfProcessProposal ptx.Proposer ptx.Data)) := by
            intro r hr
            simp only [IfProcessProposal, hext, hr]
          rcases ho : app.IfProcessProposal w.ext ptx.Proposer ptx.Data with
            ⟨⟨pass, _ | err⟩, ext1⟩
          all_goals replace hI := hI _ ho
          · obtain ⟨w', h1, h2, h3, h4⟩ := getCodeLoop_refines app rest true
              (if pass then app.VoteProcessProposal else app.VoteIgnoreProposal)
              ({ wp with ext := ext1 }.log (.IfProcessProposal ptx.Proposer ptx.Data))
            have hs : Appends Call.isGate w
                ({ wp with ext := ext1 }.log (.IfProcessProposal ptx.Proposer ptx.Data)) :=
              Appends.step (.IfProcessProposal ptx.Proposer ptx.Data) hpa rfl rfl
            have hdbw : ({ wp with ext := ext1 }.log (.IfProcessProposal ptx.Proposer ptx.Data)).db = w.db := hdb
            have hextw : ({ wp with ext := ext1 }.log (.IfProcessProposal ptx.Proposer ptx.Data)).ext = ext1 := rfl
            rw [hdbw, hextw] at h1 h2
            refine ⟨w', ?_, ?_, h3.trans hdb, hs.trans h4⟩
            · simp only [getCodeLoop, hp, hb, hI, codeLoop, hsome, ho]
              simpa using h1
            · simp only [codeLoop, hsome, hb, ho]
              simpa using h2
          · refine ⟨{ wp with ext := ext1 }.log (.IfProcessProposal ptx.Proposer ptx.Data),
              ?_, ?_, hdb, Appends.step (.IfProcessProposal ptx.Proposer ptx.Data) hpa rfl rfl⟩
            · simp [getCodeLoop, hp, hb, hI, codeLoop, hsome, ho]
            · simp [codeLoop, hsome, hb, ho, World.log]
      | SettleProposal stl =>
        cases pa with
        | true =>
          refine ⟨wp, ?_, ?_, hdb, hpa⟩
          · simp [getCodeLoop, hp, codeLoop, hsome, hb]
          · simp [codeLoop, hsome, hb, hext]
        | false =>
          have hI : ∀ r, app.IfAcceptProposal w.ext stl.Proposal = r →
              IfAcceptProposal app stl.Proposal wp =
                (r.1, { wp with ext := r.2 }.log (.IfAcceptProposal stl.Proposal)) := by
            intro r hr
            simp only [IfAcceptProposal, hext, hr]
          rcases ho : app.IfAcceptProposal w.ext stl.Proposal with ⟨⟨pass, _ | err⟩, ext1⟩
          all_goals replace hI := hI _ ho
          · obtain ⟨w', h1, h2, h3, h4⟩ := getCodeLoop_refines app rest true
              (if pass then app.VoteAcceptProposal else app.VoteRejectProposal)
              ({ wp with ext := ext1 }.log (.IfAcceptProposal stl.Proposal))
            have hs : Appends Call.isGate w
                ({ wp with ext := ext1 }.log (.IfAcceptProposal stl.Proposal)) :=
              Appends.step (.IfAcceptProposal stl.Proposal) hpa rfl rfl
            have hdbw : ({ wp with ext := ext1 }.log (.IfAcceptProposal stl.Proposal)).db = w.db := hdb
            have hextw : ({ wp with ext := ext1 }.log (.IfAcceptProposal stl.Proposal)).ext = ext1 := rfl
            rw [hdbw, hextw] at h1 h2
            refine ⟨w', ?_, ?_, h3.trans hdb, hs.trans h4⟩
            · simp only [getCodeLoop, hp, hb, hI, codeLoop, hsome, ho]
              simpa using h1
            · simp only [codeLoop, hsome, hb, ho]
              simpa using h2
          · refine ⟨{ wp with ext := ext1 }.log (.IfAcceptProposal stl.Proposal),
              ?_, ?_, hdb, Appends.step (.IfAcceptProposal stl.Proposal) hpa rfl rfl⟩
            · simp [getCodeLoop, hp, hb, hI, codeLoop, hsome, ho]
            · simp [codeLoop, hsome, hb, ho, World.log]
      | Other tag d =>
        obtain ⟨w', h1, h2, h3, h4⟩ := getCodeLoop_refines app rest pa code wp
        rw [hdb, hext] at h1 h2
        refine ⟨w', ?_, ?_, h3.trans hdb, hpa.trans h4⟩
        · simp only [getCodeLoop, hp, hb, codeLoop, hsome]
          exact h1
        · simp only [codeLoop, hsome, hb]
          exact h2

theorem getCode_result (app : App σ ε) (txs : List Bytes) (w : World σ ε) :
    (getCode app txs w).result = some (codeLoop app w.db txs false 0 w.ext).1 := by
  obtain ⟨w', h, -⟩ := getCodeLoop_refines app txs false 0 w
  unfold getCode
  rw [h]
  rfl

/-- Transactions that do not parse can be removed from the batch. -/
theorem codeLoop_filter (app : App σ ε) (db : σ) :
    ∀ (txs : List Bytes) (pa : Bool) (code : VoteCode) (ext : ε),
      codeLoop app db (txs.filter (fun s => (parsed app db false s).isSome)) pa code ext =
        codeLoop app db txs pa code ext
  | [], _, _, _ => rfl
  | stx :: rest, pa, code, ext => by
    cases hp : parsed app db false stx with
    | none =>
      simp only [List.filter_cons, hp, Option.isSome_none, Bool.false_eq_true, if_false,
        codeLoop]
      exact codeLoop_filter app db rest pa code ext
    | some btx =>
      simp only [List.filter_cons, hp, Option.isSome_some, if_true, codeLoop,
        codeLoop_filter app db rest]

/-- One transaction that does not parse can be removed from the batch. -/
theorem codeLoop_remove (app : App σ ε) (db : σ) (stx : Bytes) (post : List Bytes)
    (hp : parsed app db false stx = none) :
    ∀ (pre : List Bytes) (pa : Bool) (code : VoteCode) (ext : ε),
      codeLoop app db (pre ++ stx :: post) pa code ext =
        codeLoop app db (pre ++ post) pa code ext := by
  intro pre
  induction pre with
  | nil =>
    intro pa code ext
    simp only [List.nil_append, codeLoop, hp]
  | cons x pre ih =>
    intro pa code ext
    simp only [List.cons_append]
    simp only [codeLoop, ih]

/-- C12, as stated, fails: the transaction decodes to a Proposal and verifies
when nonce gaps are allowed (nonce 5 against an expected nonce 0), but not when
they are refused; `getCode` skips it and returns the zero code, not the code
the oracle (which says yes) would give it. -/
theorem getCode_skips_lenient_only_governance :
    parsed sampleApp sampleWorld.db true [2, 1, 5] =
        some { Validator := 1, Nonce := 5, Tx := .Proposal { Proposer := 1, Data := [] } } ∧
      parsed sampleApp sampleWorld.db false [2, 1, 5] = none ∧
      (getCode sampleApp [[2, 1, 5]] sampleWorld).result = some (0, none) := by
  decide

/-- C12, amended: `getCode` parses each transaction with nonce gaps refused:
every verification it asks the state for has `allowNonceGap = false`, and a
transaction that fails this strict parse (also one that would verify with nonce
gaps allowed) does not determine the vote code: `getCode` returns the same code
and error as on the batch without it. -/
theorem getCode_parses_strictly (app : App σ ε) (txs : List Bytes) (w : World σ ε) :
    (∃ r w' l, getCode app txs w = .ret (r, w') ∧ w'.calls = w.calls ++ l ∧
      ∀ btx a, Call.Verify btx a ∈ l → a = false) ∧
    (∀ pre stx post, txs = pre ++ stx :: post → parsed app w.db false stx = none →
      (getCode app txs w).result = (getCode app (pre ++ post) w).result) := by
  constructor
  · obtain ⟨w', h, -, -, l, hl, hg⟩ := getCodeLoop_refines app txs false 0 w
    refine ⟨_, w', l, h, hl, ?_⟩
    intro btx a hmem
    have := hg _ hmem
    simpa [Call.isGate] using this
  · intro pre stx post htx hp
    rw [getCode_result, getCode_result, htx, codeLoop_remove app w.db stx post hp]

/-- C12, amended, at a batch whose first transaction verifies only with nonce
gaps allowed. -/
theorem getCode_parses_strictly_witness :
    parsed sampleApp sampleWorld.db false [2, 1, 5] = none ∧
      (getCode sampleApp [[2, 1, 5], [3, 2, 0]] sampleWorld).result =
        (getCode sampleApp ([] ++ [[3, 2, 0]]) sampleWorld).result :=
  ⟨by decide, (getCode_parses_strictly sampleApp [[2, 1, 5], [3, 2, 0]] sampleWorld).2
    [] [2, 1, 5] [[3, 2, 0]] rfl (by decide)⟩

/-- C13: `getCode` returns the same code and the same error as on the batch
from which every transaction that fails to parse (decode or strict
verification) is removed, and on a batch of transactions that all fail to parse
it returns the zero code without error. -/
theorem getCode_ignores_unparseable (app : App σ ε) (txs : List Bytes) (w : World σ ε) :
    (getCode app txs w).result =
        (getCode app (txs.filter (fun s => (parsed app w.db false s).isSome)) w).result ∧
      ((∀ s ∈ txs, parsed app w.db false s = none) →
        (getCode app txs w).result = some (0, none)) := by
  constructor
  · rw [getCode_result, getCode_result, codeLoop_filter]
  · intro hall
    rw [getCode_result, ← codeLoop_filter]
    have : txs.filter (fun s => (parsed app w.db false s).isSome) = [] := by
      rw [List.filter_eq_nil_iff]
      intro s hs
      simp [hall s hs]
    rw [this]
    rfl

/-- C13 at a batch with a malformed transaction and one with a nonce gap around
a Proposal, and at a batch of unparseable transactions only. -/
theorem getCode_ignores_unparseable_witness :
    (getCode sampleApp [[9], [2, 1, 0], [0, 1, 4]] sampleWorld).result =
        (getCode sampleApp [[2, 1, 0]] sampleWorld).result ∧
      (getCode sampleApp [[9], [0, 1, 4]] sampleWorld).result = some (0, none) :=
  ⟨(getCode_ignores_unparseable sampleApp [[9], [2, 1, 0], [0, 1, 4]] sampleWorld).1,
    (getCode_ignores_unparseable sampleApp [[9], [0, 1, 4]] sampleWorld).2 (by decide)⟩

/-! ## The filter of proposal preparation -/

theorem ownGovernance_of_parsed_none (app : App σ ε) (db : σ) (index : Nat) (stx : Bytes)
    (h : parsed app db false stx = none) : ownGovernance app db index stx = false := by
  unfold ownGovernance
  rw [h]

/-- What a run of the first loop of `PrepareProposal` that returns has done: it
logged no context reset, and when it did not fail it appended to `prepareTxs` a
subsequence of the batch in which the only raw governance transaction, if any,
is the first one of the batch that parses to a governance transaction acted by
the proposer (and there is none when `proposerAct` was already set). -/
theorem prepareFilter_run (app : App σ ε) (addr : Bytes) (st : σ) :
    ∀ (txs : List Bytes) (pa : Bool) (acc : List Bytes) (w : World σ ε)
      (r : Except Err (List Bytes)) (w' : World σ ε),
      prepareFilter app addr st txs pa acc w = .ret (r, w') →
      Appends (fun c => !c.isNewContext) w w' ∧
      ∀ out, r = .ok out → ∃ l, out = acc ++ l ∧ l.Sublist txs ∧
        ∀ stx ∈ l, decodesGov app stx = true →
          pa = false ∧ ∃ acct, app.FindAccount st addr = (some acct, none) ∧
            ownGovernance app w.db acct.Index stx = true ∧
            txs.find? (ownGovernance app w.db acct.Index) = some stx
  | [], pa, acc, w, r, w', h => by
    simp only [prepareFilter, Outcome.ret.injEq, Prod.mk.injEq] at h
    obtain ⟨rfl, rfl⟩ := h
    refine ⟨Appends.refl _ _, ?_⟩
    intro out ho
    cases ho
    exact ⟨[], by simp, List.Sublist.refl _, by simp⟩
  | stx :: rest, pa, acc, w, r, w', h => by
    have hpa := parseTx_appends app stx false w (fun c => !c.isNewContext) rfl (fun _ => rfl)
    rcases parseTx_cases app stx false w with
      ⟨o, e, wp, hp, hdb, -, hnone⟩ | ⟨btx, wp, hp, hdb, -, hsome, hdec⟩
    all_goals
      rw [hp] at hpa
      simp only at hpa
    · simp only [prepareFilter, hp] at h
      obtain ⟨hap, hout⟩ := prepareFilter_run app addr st rest pa acc wp r w' h
      refine ⟨hpa.trans hap, ?_⟩
      intro out ho
      obtain ⟨l, hl, hsub, hgov⟩ := hout out ho
      refine ⟨l, hl, hsub.cons stx, ?_⟩
      intro s hs hd
      obtain ⟨h1, acct, h2, h3, h4⟩ := hgov s hs hd
      rw [hdb] at h3 h4
      refine ⟨h1, acct, h2, h3, ?_⟩
      rw [List.find?_cons_of_neg _ (by
        rw [ownGovernance_of_parsed_none app w.db acct.Index stx hnone]
        exact Bool.false_ne_true)]
      exact h4
    · have hd := decodesGov_of_decode app stx btx hdec
      by_cases hg : btx.Typ.isGovernance = true
      · cases pa with
        | true =>
          simp only [prepareFilter, hp, hg, if_true] at h
          obtain ⟨hap, hout⟩ := prepareFilter_run app addr st rest true acc wp r w' h
          refine ⟨hpa.trans hap, ?_⟩
          intro out ho
          obtain ⟨l, hl, hsub, hgov⟩ := hout out ho
          refine ⟨l, hl, hsub.cons stx, ?_⟩
          intro s hs hds
          exact absurd (hgov s hs hds).1 (by decide)
        | false =>
          have hfa : Appends (fun c => !c.isNewContext) w (wp.log (.FindAccount addr)) :=
            Appends.step (.FindAccount addr) hpa rfl rfl
          rcases hf : app.FindAccount st addr with ⟨_ | acct, _ | err⟩
          · simp [prepareFilter, hp, hg, hf] at h
          · simp only [prepareFilter, hp, hg, hf, if_true, Bool.false_eq_true, if_false,
              Outcome.ret.injEq, Prod.mk.injEq] at h
            obtain ⟨rfl, rfl⟩ := h
            exact ⟨hfa, fun out ho => Except.noConfusion ho⟩
          · by_cases hi : acct.Index = btx.Validator
            · simp only [prepareFilter, hp, hg, hf, hi, if_true, Bool.false_eq_true,
                if_false] at h
              obtain ⟨hap, hout⟩ := prepareFilter_run app addr st rest true (acc ++ [stx])
                (wp.log (.FindAccount addr)) r w' h
              refine ⟨hfa.trans hap, ?_⟩
              intro out ho
              obtain ⟨l, hl, hsub, hgov⟩ := hout out ho
              refine ⟨stx :: l, by rw [hl]; simp, hsub.cons₂ stx, ?_⟩
              intro s hs hds
              rcases List.mem_cons.mp hs with rfl | hs
              · have hown : ownGovernance app w.db acct.Index s = true := by
                  simp [ownGovernance, hsome, hg, hi]
                exact ⟨rfl, acct, rfl, hown, List.find?_cons_of_pos _ hown⟩
              · exact absurd (hgov s hs hds).1 (by decide)
            · simp only [prepareFilter, hp, hg, hf, hi, if_true, Bool.false_eq_true,
                if_false] at h
              obtain ⟨hap, hout⟩ := prepareFilter_run app addr st rest false acc
                (wp.log (.FindAccount addr)) r w' h
              refine ⟨hfa.trans hap, ?_⟩
              intro out ho
              obtain ⟨l, hl, hsub, hgov⟩ := hout out ho
              refine ⟨l, hl, hsub.cons stx, ?_⟩
              intro s hs hds
              obtain ⟨h1, acct2, h2, h3, h4⟩ := hgov s hs hds
              have hdbw : (wp.log (.FindAccount addr)).db = w.db := hdb
              rw [hdbw] at h3 h4
              rw [hf] at h2
              simp only [Prod.mk.injEq, Option.some.injEq, and_true] at h2
              subst h2
              refine ⟨h1, acct, rfl, h3, ?_⟩
              rw [List.find?_cons_of_neg _ (by simp [ownGovernance, hsome, hg, hi])]
              exact h4
          · simp only [prepareFilter, hp, hg, hf, if_true, Bool.false_eq_true, if_false,
              Outcome.ret.injEq, Prod.mk.injEq] at h
            obtain ⟨rfl, rfl⟩ := h
            exact ⟨hfa, fun out ho => Except.noConfusion ho⟩
      · simp only [prepareFilter, hp, hg, if_false] at h
        obtain ⟨hap, hout⟩ := prepareFilter_run app addr st rest pa (acc ++ [stx]) wp r w' h
        refine ⟨hpa.trans hap, ?_⟩
        intro out ho
        obtain ⟨l, hl, hsub, hgov⟩ := hout out ho
        refine ⟨stx :: l, by rw [hl]; simp, hsub.cons₂ stx, ?_⟩
        intro s hs hds
        rcases List.mem_cons.mp hs with rfl | hs
        · rw [hd] at hds
          exact absurd hds hg
        · obtain ⟨h1, acct, h2, h3, h4⟩ := hgov s hs hds
          rw [hdb] at h3 h4
          refine ⟨h1, acct, h2, h3, ?_⟩
          rw [List.find?_cons_of_neg _ (by simp [ownGovernance, hsome, hg])]
          exact h4

/-- The second loop of `PrepareProposal` logs no context reset. -/
theorem prepareLoop_appends (app : App σ ε) (code : VoteCode) :
    ∀ (rest : List Bytes) (st : σ) (txs : List Bytes) (w : World σ ε) (out : List Bytes)
      (w' : World σ ε),
      prepareLoop app code rest st txs w = .ret (out, w') →
      Appends (fun c => !c.isNewContext) w w'
  | [], st, txs, w, out, w', h => by
    simp only [prepareLoop, Outcome.ret.injEq, Prod.mk.injEq] at h
    rw [← h.2]
    exact Appends.refl _ _
  | stx :: rest, st, txs, w, out, w', h => by
    have hcl : Appends (fun c => !c.isNewContext) w (w.log .Clone) :=
      Appends.step .Clone (Appends.refl _ _) rfl rfl
    have hpa := hcl.trans (parseTx_appends app stx false (w.log .Clone)
      (fun c => !c.isNewContext) rfl (fun _ => rfl))
    rcases parseTx_cases app stx false (w.log .Clone) with
      ⟨o, e, w1, hp, -, -, -⟩ | ⟨btx, w1, hp, -, -, -, -⟩
    all_goals
      rw [hp] at hpa
      simp only at hpa
    · simp only [prepareLoop, hp] at h
      exact hpa.trans (prepareLoop_appends app code rest _ _ _ _ _ h)
    · cases hh : lookupHdlr app btx.Typ with
      | none =>
        simp only [prepareLoop, hp, hh] at h
        exact hpa.trans (prepareLoop_appends app code rest _ _ _ _ _ h)
      | some hd =>
        have hstep : Appends (fun c => !c.isNewContext) w
            ({ w1 with ext := (hd.Prepare w1.ext (app.Clone st) btx code).ext }.log
              (.Prepare btx code)) :=
          Appends.step (.Prepare btx code) hpa rfl rfl
        cases he : (hd.Prepare w1.ext (app.Clone st) btx code).err with
        | some err =>
          simp only [prepareLoop, hp, hh, he] at h
          exact hstep.trans (prepareLoop_appends app code rest _ _ _ _ _ h)
        | none =>
          cases hr : (hd.Prepare w1.ext (app.Clone st) btx code).res with
          | none =>
            simp only [prepareLoop, hp, hh, he, hr] at h
            exact hstep.trans (prepareLoop_appends app code rest _ _ _ _ _ h)
          | some result =>
            by_cases hc : result.Code = 0
            · simp only [prepareLoop, hp, hh, he, hr, hc, ne_eq, not_true_eq_false,
                if_false] at h
              exact hstep.trans (prepareLoop_appends app code rest _ _ _ _ _ h)
            · simp only [prepareLoop, hp, hh, he, hr, hc, ne_eq, not_false_eq_true,
                if_true] at h
              exact hstep.trans (prepareLoop_appends app code rest _ _ _ _ _ h)

/-- C19: whenever `PrepareProposal` returns a response, its list is an
order-preserving subsequence of the input batch, and every transaction of it
that decodes to a governance type parses in strict mode, has its `Validator`
equal to the account index of the request's proposer address, and is the first
transaction of the input batch that parses in strict mode to a governance
transaction with that `Validator`; so no governance transaction acted by
another validator is in the list. -/
theorem PrepareProposal_keeps_own_governance (app : App σ ε) (ord : RangeOrder app)
    (proposal : RequestPrepareProposal) (w : World σ ε) (res : ResponsePrepareProposal)
    (err : Option Err) (h : (PrepareProposal app ord proposal w).result = some (some res, err)) :
    res.Txs.Sublist proposal.Txs ∧
      ∀ stx ∈ res.Txs, decodesGov app stx = true →
        ∃ acct btx,
          app.FindAccount (app.NewState w.db) proposal.ProposerAddress = (some acct, none) ∧
          parsed app w.db false stx = some btx ∧ btx.Validator = acct.Index ∧
          proposal.Txs.find? (ownGovernance app w.db acct.Index) = some stx := by
  obtain ⟨w', h⟩ := Outcome.result_eq_some h
  unfold PrepareProposal at h
  simp only at h
  cases hf : prepareFilter app proposal.ProposerAddress (getState app w).1.obj proposal.Txs false []
      (newContexts ord.entries (getState app w).2) with
  | panic => simp [hf] at h
  | ret p =>
    obtain ⟨r, w3⟩ := p
    cases r with
    | error e => simp [hf] at h
    | ok prepareTxs =>
      obtain ⟨-, hout⟩ := prepareFilter_run app _ _ _ _ _ _ _ _ hf
      obtain ⟨l, hl, hsub, hgov⟩ := hout prepareTxs rfl
      simp only [List.nil_append] at hl
      subst hl
      rw [newContexts_db, getState_db, getState_fst] at hgov
      rw [hf] at h
      simp only at h
      have main : ∀ txs : List Bytes, txs.Sublist prepareTxs →
          txs.Sublist proposal.Txs ∧
          ∀ stx ∈ txs, decodesGov app stx = true →
            ∃ acct btx,
              app.FindAccount (app.NewState w.db) proposal.ProposerAddress = (some acct, none) ∧
              parsed app w.db false stx = some btx ∧ btx.Validator = acct.Index ∧
              proposal.Txs.find? (ownGovernance app w.db acct.Index) = some stx := by
        intro txs hs
        refine ⟨hs.trans hsub, ?_⟩
        intro stx hmem hd
        obtain ⟨-, acct, h2, h3, h4⟩ := hgov stx (hs.subset hmem) hd
        refine ⟨acct, ?_⟩
        unfold ownGovernance at h3
        cases hp : parsed app w.db false stx with
        | none => simp [hp] at h3
        | some btx =>
          rw [hp] at h3
          simp only [Bool.and_eq_true, decide_eq_true_eq] at h3
          exact ⟨btx, h2, rfl, h3.2.symm, h4⟩
      cases hg : getCode app prepareTxs w3 with
      | panic => simp [hg] at h
      | ret q =>
        obtain ⟨⟨code, gerr⟩, w4⟩ := q
        cases gerr with
        | some ge =>
          rw [hg] at h
          simp only [Outcome.ret.injEq, Prod.mk.injEq, Option.some.injEq] at h
          rw [← h.1.1]
          exact main [] (List.nil_sublist _)
        | none =>
          rw [hg] at h
          simp only at h
          cases hl : prepareLoop app code prepareTxs (getState app w).1.obj [] w4 with
          | panic => simp [hl] at h
          | ret t =>
            obtain ⟨txs, w5⟩ := t
            rw [hl] at h
            simp only [Outcome.ret.injEq, Prod.mk.injEq, Option.some.injEq] at h
            obtain ⟨l2, hsub2, hout2⟩ := prepareLoop_sublist app code _ _ _ _ _ _ hl
            simp only [List.nil_append] at hout2
            rw [← h.1.1]
            simp only
            rw [hout2]
            exact main l2 hsub2

/-- C19 at a batch with three governance transactions acted by validators 1, 2
and 2, proposed by validator 2. -/
theorem PrepareProposal_keeps_own_governance_witness :
    (PrepareProposal sampleApp sampleOrder
        { Txs := [[2, 1, 0], [0, 2, 0], [3, 2, 0], [2, 2, 0]], ProposerAddress := [2],
          Height := 1 } sampleWorld).result =
        some (some { Txs := [[0, 2, 0], [3, 2, 0]] }, none) ∧
      List.Sublist [[0, 2, 0], [3, 2, 0]] [[2, 1, 0], [0, 2, 0], [3, 2, 0], [2, 2, 0]] :=
  ⟨by decide, (PrepareProposal_keeps_own_governance sampleApp sampleOrder
    { Txs := [[2, 1, 0], [0, 2, 0], [3, 2, 0], [2, 2, 0]], ProposerAddress := [2], Height := 1 }
    sampleWorld { Txs := [[0, 2, 0], [3, 2, 0]] } none (by decide)).1⟩

/-! ## Context resets -/

theorem isGate_not_isNewContext (c : Call) (h : c.isGate = true) :
    (!c.isNewContext) = true := by
  cases c <;> simp_all [Call.isGate, Call.isOracle, Call.isNewContext]

/-- After the working state is obtained and the contexts are reset, the log is
the old one, then `NewState`, then one `NewContext` per registry entry. -/
theorem reset_calls (app : App σ ε) (ord : RangeOrder app) (w : World σ ε) :
    (newContexts ord.entries (getState app w).2).calls =
      w.calls ++ [.NewState] ++ ord.resets := by
  rw [newContexts_calls]
  rfl

/-- A loop over the registry resets every entry exactly once: its calls are a
permutation of one call per entry. -/
theorem RangeOrder.resets_perm {app : App σ ε} (ord : RangeOrder app) :
    ord.resets.Perm (resetCalls app) :=
  ord.perm.map _

theorem Appends.calls_eq {P : Call → Bool} {w w1 : World σ ε} {pre : List Call}
    (h : Appends P w w1) (hw : w.calls = pre) :
    ∃ l, w1.calls = pre ++ l ∧ ∀ c ∈ l, P c = true := by
  obtain ⟨l, e, p⟩ := h
  exact ⟨l, by rw [e, hw], p⟩

/-- In a `PrepareProposal` that returns, every registry entry has its context
reset exactly once, right after the working state is obtained and before any
other call. -/
theorem PrepareProposal_resets_first (app : App σ ε) (ord : RangeOrder app) (proposal : RequestPrepareProposal)
    (w : World σ ε) (r : Option ResponsePrepareProposal × Option Err) (w' : World σ ε)
    (h : PrepareProposal app ord proposal w = .ret (r, w')) :
    ∃ l, w'.calls = w.calls ++ [.NewState] ++ ord.resets ++ l ∧
      ∀ c ∈ l, (!c.isNewContext) = true := by
  unfold PrepareProposal at h
  simp only at h
  cases hf : prepareFilter app proposal.ProposerAddress (getState app w).1.obj proposal.Txs false []
      (newContexts ord.entries (getState app w).2) with
  | panic => simp [hf] at h
  | ret p =>
    obtain ⟨fr, w3⟩ := p
    obtain ⟨hap, -⟩ := prepareFilter_run app _ _ _ _ _ _ _ _ hf
    rw [hf] at h
    cases fr with
    | error e =>
      simp only [Outcome.ret.injEq, Prod.mk.injEq] at h
      rw [← h.2]
      exact hap.calls_eq (reset_calls app ord w)
    | ok prepareTxs =>
      simp only at h
      obtain ⟨w4, hg, -, -, hgate⟩ := getCodeLoop_refines app prepareTxs false 0 w3
      have hg2 : getCode app prepareTxs w3 =
          .ret ((codeLoop app w3.db prepareTxs false 0 w3.ext).1, w4) := hg
      have hap4 := hap.trans (hgate.mono isGate_not_isNewContext)
      rw [hg2] at h
      rcases hc : (codeLoop app w3.db prepareTxs false 0 w3.ext).1 with ⟨code, _ | ge⟩
      · rw [hc] at h
        simp only at h
        cases hl : prepareLoop app code prepareTxs (getState app w).1.obj [] w4 with
        | panic => simp [hl] at h
        | ret t =>
          obtain ⟨txs, w5⟩ := t
          rw [hl] at h
          simp only [Outcome.ret.injEq, Prod.mk.injEq] at h
          rw [← h.2]
          exact (hap4.trans (prepareLoop_appends app code _ _ _ _ _ _ hl)).calls_eq
            (reset_calls app ord w)
      · rw [hc] at h
        simp only [Outcome.ret.injEq, Prod.mk.injEq] at h
        rw [← h.2]
        exact hap4.calls_eq (reset_calls app ord w)

theorem Appends.mutate {P : Call → Bool} {w w1 : World σ ε} (h : Appends P w w1) (id : Nat)
    (v : σ) : Appends P w (w1.mutate id v) := by
  obtain ⟨l, e, p⟩ := h
  exact ⟨l, by rw [World.mutate_calls, e], p⟩

/-- In a `FinalizeBlock` that returns, every registry entry has its context
reset exactly once, right after the working state is obtained and before any
other call. -/
theorem FinalizeBlock_resets_first (app : App σ ε) (ord : RangeOrder app)
    (req : RequestFinalizeBlock)
    (w : World σ ε) (r : Option ResponseFinalizeBlock × Option Err) (w' : World σ ε)
    (h : FinalizeBlock app ord req w = .ret (r, w')) :
    ∃ l, w'.calls = w.calls ++ [.NewState] ++ ord.resets ++ l ∧
      ∀ c ∈ l, (!c.isNewContext) = true := by
  have hreset : (newContexts ord.entries (getState app { w with lastBlk := some req }).2).calls =
      w.calls ++ [.NewState] ++ ord.resets := reset_calls app ord { w with lastBlk := some req }
  unfold FinalizeBlock at h
  simp only at h
  cases hfin : finalize app ord (getState app { w with lastBlk := some req }).1.obj req.Txs
      req.ProposerAddress (uint64 req.Height) req.VoteCode
      (getState app { w with lastBlk := some req }).2 with
  | panic => simp [hfin] at h
  | ret p =>
    obtain ⟨⟨res, ev, ferr⟩, st1, w2⟩ := p
    obtain ⟨-, hap, -⟩ := finalizeLoop_run app _ _ _ _ _ _ _ _ _ hfin
    have h2 := hap.mutate w.next st1
    have h3 : Appends (fun c => !c.isNewContext)
        (newContexts ord.entries (getState app { w with lastBlk := some req }).2)
        ((w2.mutate w.next st1).log .Validators) :=
      Appends.step .Validators h2 rfl rfl
    have h4 : Appends (fun c => !c.isNewContext)
        (newContexts ord.entries (getState app { w with lastBlk := some req }).2)
        ((((w2.mutate w.next st1).log .Validators).mutate w.next (app.Update st1).2).log
          .Update) :=
      Appends.step .Update (h3.mutate w.next (app.Update st1).2) rfl rfl
    have h5 : Appends (fun c => !c.isNewContext)
        (newContexts ord.entries (getState app { w with lastBlk := some req }).2)
        (((((w2.mutate w.next st1).log .Validators).mutate w.next (app.Update st1).2).log
          .Update).log .ValidatorsUpdate) :=
      Appends.step .ValidatorsUpdate h4 rfl rfl
    rw [hfin] at h
    cases ferr with
    | some e =>
      simp only [Outcome.ret.injEq, Prod.mk.injEq] at h
      rw [← h.2]
      exact h2.calls_eq hreset
    | none =>
      simp only at h
      rcases hv : app.Validators st1 with ⟨curVals, _ | e⟩
      · rw [hv] at h
        simp only at h
        rcases hu : (app.Update st1).1 with ⟨hash, _ | e⟩
        · rw [hu] at h
          simp only at h
          rcases hd : app.ValidatorsUpdate (app.Update st1).2 curVals with ⟨diff, _ | e⟩
          · rw [hd] at h
            simp only [Outcome.ret.injEq, Prod.mk.injEq] at h
            rw [← h.2]
            exact h5.calls_eq hreset
          · rw [hd] at h
            simp only [Outcome.ret.injEq, Prod.mk.injEq] at h
            rw [← h.2]
            exact h5.calls_eq hreset
        · rw [hu] at h
          simp only [Outcome.ret.injEq, Prod.mk.injEq] at h
          rw [← h.2]
          exact h4.calls_eq hreset
      · rw [hv] at h
        simp only [Outcome.ret.injEq, Prod.mk.injEq] at h
        rw [← h.2]
        exact h3.calls_eq hreset

/-- In a `ProcessProposal` on a non-empty batch, `getCode` runs first: its calls
(decodings, strict verifications, oracle queries) come right after the working
state is obtained.  When it fails nothing else is called; when it succeeds every
registry entry then has its context reset exactly once, before the calls of
`process`. -/
theorem ProcessProposal_resets (app : App σ ε) (ord : RangeOrder app) (req : RequestProcessProposal) (w : World σ ε)
    (r : Option ResponseProcessProposal × Option Err) (w' : World σ ε) (hne : req.Txs ≠ [])
    (h : ProcessProposal app ord req w = .ret (r, w')) :
    ∃ l1 l2, (∀ c ∈ l1, c.isGate = true) ∧ (∀ c ∈ l2, (!c.isNewContext) = true) ∧
      (((∃ code w2, getCode app req.Txs (getState app w).2 = .ret ((code, none), w2)) ∧
          w'.calls = w.calls ++ [.NewState] ++ l1 ++ ord.resets ++ l2) ∨
        ((∃ code e w2, getCode app req.Txs (getState app w).2 = .ret ((code, some e), w2)) ∧
          w'.calls = w.calls ++ [.NewState] ++ l1)) := by
  have hlen : ¬ req.Txs.length = 0 := fun h0 => hne (List.length_eq_zero.mp h0)
  obtain ⟨w2, hg, -, -, l1, hl1, hgate⟩ := getCodeLoop_refines app req.Txs false 0 (getState app w).2
  have hg2 : getCode app req.Txs (getState app w).2 =
      .ret ((codeLoop app (getState app w).2.db req.Txs false 0 (getState app w).2.ext).1, w2) := hg
  have hcalls2 : w2.calls = w.calls ++ [.NewState] ++ l1 := hl1
  unfold ProcessProposal at h
  simp only [hlen, if_false] at h
  rcases hc : (codeLoop app (getState app w).2.db req.Txs false 0 (getState app w).2.ext).1 with
    ⟨code, _ | ge⟩
  · rw [hc] at hg2
    rw [hg2] at h
    simp only at h
    cases hp : process app ord (getState app w).1.obj req.Txs req.ProposerAddress (uint64 req.Height)
        code w2 with
    | panic => simp [hp] at h
    | ret p =>
      obtain ⟨out, st1, w3⟩ := p
      have hfl : finalizeLoop app code req.Txs 0 (List.replicate req.Txs.length none)
          (getState app w).1.obj (newContexts ord.entries w2) = .ret (out, st1, w3) := by
        rw [← processLoop_eq_finalizeLoop]
        exact hp
      obtain ⟨-, ⟨l2, hl2, hno⟩, -⟩ := finalizeLoop_run app _ _ _ _ _ _ _ _ _ hfl
      rw [newContexts_calls, hcalls2] at hl2
      have hw' : w'.calls = w3.calls := by
        rw [hp] at h
        obtain ⟨res, ev, perr⟩ := out
        cases perr with
        | some e =>
          simp only [Outcome.ret.injEq, Prod.mk.injEq] at h
          rw [← h.2, World.mutate_calls]
        | none =>
          simp only [Outcome.ret.injEq, Prod.mk.injEq] at h
          rw [← h.2, World.mutate_calls]
      exact ⟨l1, l2, hgate, hno, Or.inl ⟨⟨code, w2, hg2⟩, by rw [hw', hl2]; rfl⟩⟩
  · rw [hc] at hg2
    rw [hg2] at h
    simp only [Outcome.ret.injEq, Prod.mk.injEq] at h
    refine ⟨l1, [], hgate, by simp, Or.inr ⟨⟨code, ge, w2, hg2⟩, ?_⟩⟩
    rw [← h.2]
    exact hcalls2

/-- C15, as stated, fails for `ProcessProposal` (here with the loop visiting the
sample registry in the order it is written down; any other order only permutes
the resets): on the batch of one transfer the log starts with `NewState`, the
decoding and the verification of the transfer by `getCode`, and only then the
first context reset; on the batch of two Proposals `getCode` fails and no
context is reset at all. -/
theorem ProcessProposal_parses_before_reset :
    (∃ r w', ProcessProposal sampleApp sampleOrder { Txs := [[0, 1, 0]], ProposerAddress := [1], Height := 1 }
        sampleWorld = .ret (r, w') ∧
      w'.calls.take 4 = [.NewState, .Unmarshal [0, 1, 0],
        .Verify { Validator := 1, Nonce := 0, Tx := .Other 0 [] } false,
        .NewContext (.Other 0)]) ∧
    (∃ r w', ProcessProposal sampleApp sampleOrder
        { Txs := [[2, 1, 0], [2, 2, 0]], ProposerAddress := [1], Height := 1 } sampleWorld =
        .ret (r, w') ∧ ∀ c ∈ w'.calls, c.isNewContext = false) :=
  ⟨⟨_, _, rfl, rfl⟩, ⟨_, _, rfl, by decide⟩⟩

/-- C15, amended: in every `PrepareProposal` and every `FinalizeBlock` that
returns, `NewContext` is invoked exactly once per entry of the handler
registry (the resets logged are a permutation of one reset per entry, in the
order the loop visited the map), right after the working state is obtained and
before any transaction is decoded, verified or passed to a handler (the rest of
the log contains no further `NewContext`).  In `ProcessProposal` on a non-empty
batch `getCode` runs first, making only decoding, strict-verification and
oracle calls; when it fails no `NewContext` is invoked; when it succeeds
`NewContext` is invoked exactly once per registry entry, before any transaction
is passed to a handler. -/
theorem NewContext_once_per_call (app : App σ ε) (ord : RangeOrder app) (w : World σ ε) :
    (∀ proposal r w', PrepareProposal app ord proposal w = .ret (r, w') →
      ∃ resets l, resets.Perm (resetCalls app) ∧
        w'.calls = w.calls ++ [.NewState] ++ resets ++ l ∧
        ∀ c ∈ l, c.isNewContext = false) ∧
    (∀ req r w', FinalizeBlock app ord req w = .ret (r, w') →
      ∃ resets l, resets.Perm (resetCalls app) ∧
        w'.calls = w.calls ++ [.NewState] ++ resets ++ l ∧
        ∀ c ∈ l, c.isNewContext = false) ∧
    (∀ req r w', req.Txs ≠ [] → ProcessProposal app ord req w = .ret (r, w') →
      ∃ resets l1 l2, resets.Perm (resetCalls app) ∧
        (∀ c ∈ l1, c.isGate = true ∧ c.isNewContext = false ∧ c.isHandler = false) ∧
        (∀ c ∈ l2, c.isNewContext = false) ∧
        (((∃ code w2, getCode app req.Txs (getState app w).2 = .ret ((code, none), w2)) ∧
            w'.calls = w.calls ++ [.NewState] ++ l1 ++ resets ++ l2) ∨
          ((∃ code e w2, getCode app req.Txs (getState app w).2 =
              .ret ((code, some e), w2)) ∧
            w'.calls = w.calls ++ [.NewState] ++ l1))) := by
  refine ⟨?_, ?_, ?_⟩
  · intro proposal r w' h
    obtain ⟨l, hl, hno⟩ := PrepareProposal_resets_first app ord proposal w r w' h
    exact ⟨ord.resets, l, ord.resets_perm, hl, fun c hc => by simpa using hno c hc⟩
  · intro req r w' h
    obtain ⟨l, hl, hno⟩ := FinalizeBlock_resets_first app ord req w r w' h
    exact ⟨ord.resets, l, ord.resets_perm, hl, fun c hc => by simpa using hno c hc⟩
  · intro req r w' hne h
    obtain ⟨l1, l2, hgate, hno, hor⟩ := ProcessProposal_resets app ord req w r w' hne h
    refine ⟨ord.resets, l1, l2, ord.resets_perm, ?_, fun c hc => by simpa using hno c hc, hor⟩
    intro c hc
    have hgc := hgate c hc
    refine ⟨hgc, ?_, ?_⟩
    · simpa using isGate_not_isNewContext c hgc
    · cases c <;> simp_all [Call.isGate, Call.isOracle, Call.isHandler]

/-- C15, amended, at an accepted block on the sample registry, whose loop
visits the entries in reverse. -/
theorem NewContext_once_per_call_witness :
    ∃ resets l, resets.Perm (resetCalls sampleApp) ∧ (∀ c ∈ l, c.isNewContext = false) ∧
      ∃ r w', FinalizeBlock sampleApp reverseOrder sampleBlock sampleWorld = .ret (r, w') ∧
        w'.calls = sampleWorld.calls ++ [.NewState] ++ resets ++ l := by
  obtain ⟨r, w', h⟩ :
      ∃ r w', FinalizeBlock sampleApp reverseOrder sampleBlock sampleWorld = .ret (r, w') :=
    ⟨_, _, rfl⟩
  obtain ⟨resets, l, hp, hl, hno⟩ :=
    (NewContext_once_per_call sampleApp reverseOrder sampleWorld).2.1 sampleBlock r w' h
  exact ⟨resets, l, hp, hno, r, w', h, hl⟩

end HAC
